import Mathlib

/-!
PoltoraDB: slotted pages and the statement parser.

A shallow embedding of `internal/pagemanager` (page.go, page_manager.go) and of
`internal/parser` (parser.go), followed by the properties proved about them.

Conventions of the embedding:

* a Go `byte` is a `Fin 256`; a `uint16` is a `Nat` kept below `65536`, every
  arithmetic step on it reduced `% 65536` as Go does;
* the array `[PageSize]byte` is a total function on `Fin PageSize`;
* a method with a pointer receiver `*Page` returns the page it leaves behind next
  to its result;
* a run-time panic (slice bounds out of range, index out of range) is the value
  `none` of an `Option`.
-/

namespace pagemanager

/-- The constant `PageSize = 4096`. -/
abbrev PageSize : Nat := 4096

/-- A Go `byte`. -/
abbrev Byte := Fin 256

/-- The constant `PageTypeTable PageType = 0`. -/
def PageTypeTable : Nat := 0

/-- The constant `PageTypeIndex PageType = 1`. -/
def PageTypeIndex : Nat := 1

/-- The struct `Header`: `Type PageType` (a `uint8`), `NumberOfSlots uint16`,
`FreeSpacePointer uint16`. The field `Type` is spelled `Type_` here, `Type` being reserved. -/
structure Header where
  Type_ : Nat
  NumberOfSlots : Nat
  FreeSpacePointer : Nat
  deriving DecidableEq, Repr

/-- The struct `Slot`: `Offset uint16`, `Length uint16`. -/
structure Slot where
  Offset : Nat
  Length : Nat
  deriving DecidableEq, Repr

/-- The struct `Page`: `Data [PageSize]byte`. -/
structure Page where
  Data : Fin PageSize → Byte

/-- The slice expression `p.Data[lo:hi]` on the array of a page: Go panics unless
`lo ≤ hi ≤ PageSize`, and otherwise yields the `hi - lo` bytes from `lo` on. -/
def Page.slice (p : Page) (lo hi : Nat) : Option (List Byte) :=
  if h : lo ≤ hi ∧ hi ≤ PageSize then
    some (List.ofFn fun k : Fin (hi - lo) => p.Data ⟨lo + k.val, by have := k.isLt; omega⟩)
  else
    none

/-- The function `binary.LittleEndian.Uint16(b)`: `uint16(b[0]) | uint16(b[1])<<8`, after the
bounds check `_ = b[1]`, which panics on a slice shorter than two bytes. -/
def LittleEndianUint16 (b : List Byte) : Option Nat :=
  match b with
  | b0 :: b1 :: _ => some (b0.val ||| (b1.val <<< 8))
  | _ => none

/-- The method `(p *Page) GetHeader() *Header`. The indices `0` and `1:3` are constants inside the
array, so nothing here can panic; the `fmt.Printf` of the page type writes to standard output and
touches neither the page nor the result. -/
def GetHeader (p : Page) : Header × Page :=
  let pageType := (p.Data ⟨0, by decide⟩).val
  let numberOfSlots := (p.Data ⟨1, by decide⟩).val ||| ((p.Data ⟨2, by decide⟩).val <<< 8)
  let freeSpacePointer := (numberOfSlots * 4 + 5) % 65536
  ({ Type_ := pageType, NumberOfSlots := numberOfSlots, FreeSpacePointer := freeSpacePointer }, p)

/-- One pass through the body of the `for` loop of `Slots`, for the index `i`: the two slice reads
and the two little-endian decodings, with `slotOffset`, `slotOffset+2` and `slotOffset+4` computed
in `uint16`. -/
def readSlot (p : Page) (i : Nat) : Option Slot :=
  let slotOffset := (5 + (i * 4) % 65536) % 65536
  match p.slice slotOffset ((slotOffset + 2) % 65536) with
  | none => none
  | some b1 =>
    match LittleEndianUint16 b1 with
    | none => none
    | some offset =>
      match p.slice ((slotOffset + 2) % 65536) ((slotOffset + 4) % 65536) with
      | none => none
      | some b2 =>
        match LittleEndianUint16 b2 with
        | none => none
        | some lenght => some { Offset := offset, Length := lenght }

/-- The loop `for i := uint16(0); i < header.NumberOfSlots; i++` of `Slots`, from the index `i`
on, over the slice `slots` allocated by `make`. The first argument bounds the passes still to
run: the index grows by one per pass, so `numberOfSlots - i` passes are always enough. -/
def slotsLoop (p : Page) (numberOfSlots : Nat) : Nat → Nat → List Slot → Option (List Slot)
  | 0, _, slots => some slots
  | fuel + 1, i, slots =>
    if i < numberOfSlots then
      match readSlot p i with
      | none => none
      | some s => slotsLoop p numberOfSlots fuel ((i + 1) % 65536) (slots.set i s)
    else
      some slots

/-- The method `(p *Page) Slots() []Slot`: `make([]Slot, header.NumberOfSlots)` gives
`NumberOfSlots` zero slots, which the loop then overwrites one by one. -/
def Slots (p : Page) : Option (List Slot) × Page :=
  let header := (GetHeader p).1
  let slots := List.replicate header.NumberOfSlots ({ Offset := 0, Length := 0 } : Slot)
  (slotsLoop p header.NumberOfSlots header.NumberOfSlots 0 slots, p)

/-- The method `(p *Page) AddRow(rowBytes []byte) (slotID, offset uint16)`, whose whole body is
`return 0, 0`. -/
def AddRow (p : Page) (_rowBytes : List Byte) : (Nat × Nat) × Page :=
  ((0, 0), p)

/-- The method `(pm *PageManager) AllocatePage() (*Page, error)`: the zero value of
`[PageSize]byte` wrapped in a `Page`, and a `nil` error (`none`). -/
def AllocatePage : Page × Option String :=
  ({ Data := fun _ => 0 }, none)

/-- The slot that directory entry `i` of a page holds when the entry lies inside the page:
`Offset` from the bytes `5+4i` and `6+4i`, `Length` from the bytes `7+4i` and `8+4i`, both
little-endian. -/
def slotEntry (p : Page) (i : Nat) (h : 5 + 4 * i + 4 ≤ PageSize) : Slot :=
  { Offset := (p.Data ⟨5 + 4 * i, by omega⟩).val + 256 * (p.Data ⟨6 + 4 * i, by omega⟩).val,
    Length := (p.Data ⟨7 + 4 * i, by omega⟩).val + 256 * (p.Data ⟨8 + 4 * i, by omega⟩).val }

/-- The fully updated outcome of a row insertion as the specification words it (§4.2, steps 3
to 6), read off the page `q` left by an insertion of `row` into `p`: the slot count is one
greater, the directory entry at the old slot count is `(offset, len(row))` with
`offset = free_space_boundary - len(row)`, and the bytes from `offset` on are the row. -/
def RowCommitted (p : Page) (row : List Byte) (q : Page) : Prop :=
  let header := (GetHeader p).1
  let offset := header.FreeSpacePointer - row.length
  (GetHeader q).1.NumberOfSlots = header.NumberOfSlots + 1 ∧
  (∃ slots, (Slots q).1 = some slots ∧
    slots[header.NumberOfSlots]? = some { Offset := offset, Length := row.length }) ∧
  (∀ k (hk : k < row.length), ∃ hb : offset + k < PageSize, q.Data ⟨offset + k, hb⟩ = row[k])

/-- The space the specification counts as available for a new row (§4.2, step 2):
`free_space_boundary - (5 + slot_count*4) - 4`, as an integer. -/
def availableSpace (p : Page) : Int :=
  ((GetHeader p).1.FreeSpacePointer : Int) - (5 + 4 * ((GetHeader p).1.NumberOfSlots : Int)) - 4

/-- A page that is zero except for its type byte `t`. -/
def pageOfType (t : Byte) : Page :=
  { Data := fun i => if i.val = 0 then t else 0 }

/-- A page that is zero except for the two bytes of its slot count, `lo` at offset 1 and `hi`
at offset 2. -/
def pageWithSlotCount (lo hi : Byte) : Page :=
  { Data := fun i => if i.val = 1 then lo else if i.val = 2 then hi else 0 }

/-- A table page with two directory entries, `(7, 256)` and `(2304, 0)`. -/
def twoSlotPage : Page :=
  { Data := fun i =>
      if i.val = 1 then 2 else if i.val = 5 then 7 else if i.val = 8 then 1
      else if i.val = 10 then 9 else 0 }

/-- A page that differs from `twoSlotPage` in the bytes 3 and 4 only, where it stores 4096. -/
def twoSlotPageBoundary : Page :=
  { Data := fun i =>
      if i.val = 1 then 2 else if i.val = 4 then 16 else if i.val = 5 then 7
      else if i.val = 8 then 1 else if i.val = 10 then 9 else 0 }

end pagemanager

namespace parser

/-!
The statement parser.

A Go `string` is modelled as the list of its characters, `len` as the number of characters and a
slice `s[lo:hi]` as the characters from position `lo` up to `hi`. Every piece of punctuation the
parser tests for or cuts at is a single ASCII character, so the cuts fall between characters. A
Go `int` is an `Int`, so that an index or a slice bound below zero is a panic as it is in Go. A
call returns `Result.ok` with its value when the Go function returns a `nil` error,
`Result.err` when it returns an error, and `Result.panic` when it panics.
-/

/-- The constant `MinSQLCreateTableTokens`. -/
abbrev MinSQLCreateTableTokens : Int := 8

/-- The constant `MinSQLInsertTokens`. -/
abbrev MinSQLInsertTokens : Int := 11

/-- The constant `MinSQLSelectTokens`. -/
abbrev MinSQLSelectTokens : Int := 5

/-- The constant `SQLCreateTableTokensTable`. -/
def SQLCreateTableTokensTable : List Char := "table".toList

/-- The constant `SQLInsertTokensInto`. -/
def SQLInsertTokensInto : List Char := "into".toList

/-- The errors the parser builds with `fmt.Errorf`, one constructor per message; the arguments
formatted into a message are dropped, a wrapped error is kept. -/
inductive Err where
  /-- Message `no tokens to split`. -/
  | noTokens
  /-- Message `invalid token: ...`, of `splitTokens`. -/
  | invalidToken
  /-- Message `error splitting tokens: %v`. -/
  | splitting (e : Err)
  /-- Message `identifier cannot be empty`. -/
  | identifierEmpty
  /-- Message `identifier must start with a letter or underscore`. -/
  | identifierStart
  /-- Message `identifier can only contain letters, digits, or underscores`. -/
  | identifierChars
  /-- Message `incomplete create table command`. -/
  | incompleteCreate
  /-- Message `expected table keyword after create`. -/
  | expectedTable
  /-- Message `invalid table name: %v`. -/
  | invalidTableName (e : Err)
  /-- Message `expected ( after table name`. -/
  | expectedOpenParen
  /-- Message `expected ; at the end of the statement`. -/
  | expectedSemicolon
  /-- Message `expected ) before ;`. -/
  | expectedCloseParen
  /-- Message `expected , after column definition`. -/
  | expectedComma
  /-- Message `invalid column name`. -/
  | invalidColumnName (e : Err)
  /-- Message `invalid column type`. -/
  | invalidColumnType
  /-- Message `incomplete insert statement`. -/
  | incompleteInsert
  /-- Message `expected into keyword after insert`. -/
  | expectedInto
  /-- Message `expected values keyword in insert statement`. -/
  | expectedValues
  /-- Message `expected ( after values keyword`. -/
  | expectedOpenParenValues
  /-- Message `number of columns does not match number of values`. -/
  | countMismatch
  /-- Message `incomplete select statement`. -/
  | incompleteSelect
  /-- Message `expected from keyword in select statement`. -/
  | expectedFrom
  /-- Message `expected table name after from keyword`. -/
  | expectedTableName
  deriving DecidableEq, Repr

/-- What a call of a Go function of the parser comes to. -/
inductive Result (α : Type) where
  /-- The function returned its value and a `nil` error. -/
  | ok (value : α)
  /-- The function returned an error. -/
  | err (e : Err)
  /-- The function panicked: an index or a slice bound out of range. -/
  | panic
  deriving DecidableEq, Repr

/-- The struct `Column`. -/
structure Column where
  Name : List Char
  Type_ : List Char
  deriving DecidableEq, Repr

/-- The part of Go's `unicode` tables beyond ASCII, which the parser takes from the standard
library: whether a character is a letter (`unicode.IsLetter`), whether it is a decimal digit
(`unicode.IsDigit`), and its lower case (`unicode.ToLower`). The functions below consult the
tables for characters from `U+0080` on only. -/
structure UnicodeTables where
  letter : Char → Bool
  digit : Char → Bool
  lower : Char → Char

/-- Tables in which no character beyond ASCII is a letter or a digit or has a lower case of its
own. -/
def asciiTables : UnicodeTables :=
  { letter := fun _ => false, digit := fun _ => false, lower := fun c => c }

/-- The function `unicode.IsLetter`: on ASCII the letters are `A` to `Z` and `a` to `z`. -/
def IsLetter (U : UnicodeTables) (ch : Char) : Bool :=
  if ch.toNat < 128 then
    (65 ≤ ch.toNat && ch.toNat ≤ 90) || (97 ≤ ch.toNat && ch.toNat ≤ 122)
  else U.letter ch

/-- The function `unicode.IsDigit`: on ASCII the digits are `0` to `9`. -/
def IsDigit (U : UnicodeTables) (ch : Char) : Bool :=
  if ch.toNat < 128 then 48 ≤ ch.toNat && ch.toNat ≤ 57 else U.digit ch

/-- The function `unicode.ToLower`: on ASCII, `A` to `Z` move to `a` to `z` and nothing else
moves. -/
def toLowerRune (U : UnicodeTables) (ch : Char) : Char :=
  if ch.toNat < 128 then
    if 65 ≤ ch.toNat && ch.toNat ≤ 90 then Char.ofNat (ch.toNat + 32) else ch
  else U.lower ch

/-- The function `strings.ToLower`. -/
def ToLower (U : UnicodeTables) (s : List Char) : List Char :=
  s.map (toLowerRune U)

/-- The function `strings.HasPrefix`. -/
def HasPrefix (s pre : List Char) : Bool :=
  pre.isPrefixOf s

/-- The function `strings.HasSuffix`. -/
def HasSuffix (s suffix : List Char) : Bool :=
  suffix.isSuffixOf s

/-- The slice expression `s[lo:hi]` on a string or on a slice of strings: Go panics unless
`0 ≤ lo ≤ hi ≤ len(s)`. -/
def slice {α : Type} (s : List α) (lo hi : Int) : Option (List α) :=
  if 0 ≤ lo ∧ lo ≤ hi ∧ hi ≤ (s.length : Int) then
    some ((s.take hi.toNat).drop lo.toNat)
  else
    none

/-- The index expression `s[i]`: Go panics unless `0 ≤ i < len(s)`. -/
def index {α : Type} (s : List α) (i : Int) : Option α :=
  if 0 ≤ i then s[i.toNat]? else none

/-- The function `strings.TrimSuffix`: `s[:len(s)-len(suffix)]` when `s` ends in `suffix`, and `s`
itself otherwise. -/
def TrimSuffix (s suffix : List Char) : List Char :=
  if HasSuffix s suffix then s.take (s.length - suffix.length) else s

/-- The function `strings.TrimPrefix`: `s[len(prefix):]` when `s` starts with `prefix`, and `s`
itself otherwise. -/
def TrimPrefix (s pre : List Char) : List Char :=
  if HasPrefix s pre then s.drop pre.length else s

/-- The loop `for i, ch := range name` of `isValidIdentifier`, at the position `i`. -/
def isValidIdentifierLoop (U : UnicodeTables) : Nat → List Char → Option Err
  | _, [] => none
  | i, ch :: rest =>
    if i = 0 then
      if !IsLetter U ch && ch != '_' then some Err.identifierStart
      else isValidIdentifierLoop U (i + 1) rest
    else
      if !IsLetter U ch && !IsDigit U ch && ch != '_' then some Err.identifierChars
      else isValidIdentifierLoop U (i + 1) rest

/-- The function `isValidIdentifier(name string) error`; `none` is the `nil` error. -/
def isValidIdentifier (U : UnicodeTables) (name : List Char) : Option Err :=
  if name.length = 0 then some Err.identifierEmpty
  else isValidIdentifierLoop U 0 name

/-- The function `isValidColumnType`: the lookup of `strings.ToLower(typeName)` in the map
`validColumnTypes`, whose keys are `int` and `text`, both mapped to `true`; a missing key reads
as `false`. -/
def isValidColumnType (U : UnicodeTables) (typeName : List Char) : Bool :=
  if ToLower U typeName = "int".toList then true
  else if ToLower U typeName = "text".toList then true
  else false

/-- The function `parseColumn(name, typeStr string) (Column, error)`. -/
def parseColumn (U : UnicodeTables) (name typeStr : List Char) : Result Column :=
  match isValidIdentifier U name with
  | some e => Result.err (Err.invalidColumnName e)
  | none =>
    if !isValidColumnType U typeStr then Result.err Err.invalidColumnType
    else Result.ok { Name := name, Type_ := typeStr }

/-- The body of the loop `for _, token := range tokens` of `splitTokens` for one token: the
strings it appends to `output`. -/
def splitToken (token0 : List Char) : Result (List (List Char)) :=
  let token := TrimSuffix token0 ['\n']
  let tokenLen : Int := token.length
  if HasPrefix token ['('] && HasSuffix token [','] then
    if tokenLen < 3 then Result.err Err.invalidToken
    else
      match slice token 1 (tokenLen - 1) with
      | none => Result.panic
      | some mid => Result.ok [['('], mid, [',']]
  else if HasSuffix token [')', ';'] then
    if tokenLen < 3 then Result.err Err.invalidToken
    else
      match slice token 0 (tokenLen - 1) with
      | none => Result.panic
      | some front =>
        if !HasSuffix front [')'] then Result.err Err.invalidToken
        else
          match slice token 0 (tokenLen - 2) with
          | none => Result.panic
          | some word => Result.ok [word, [')'], [';']]
  else if HasSuffix token [','] then
    if tokenLen < 2 then Result.err Err.invalidToken
    else
      match slice token 0 (tokenLen - 1) with
      | none => Result.panic
      | some word => Result.ok [word, [',']]
  else if HasPrefix token ['('] then
    if tokenLen = 1 then Result.err Err.invalidToken
    else
      match slice token 1 tokenLen with
      | none => Result.panic
      | some word => Result.ok [['('], word]
  else if HasSuffix token [')'] then
    if tokenLen < 2 then Result.err Err.invalidToken
    else
      match slice token 0 (tokenLen - 1) with
      | none => Result.panic
      | some word => Result.ok [word, [')']]
  else if HasSuffix token [';'] then
    if tokenLen < 2 then Result.err Err.invalidToken
    else
      match slice token 0 (tokenLen - 1) with
      | none => Result.panic
      | some word => Result.ok [word, [';']]
  else Result.ok [token]

/-- The loop `for _, token := range tokens` of `splitTokens`, over the tokens still to visit and
the `output` built so far. -/
def splitTokensLoop : List (List Char) → List (List Char) → Result (List (List Char))
  | [], output => Result.ok output
  | token :: rest, output =>
    match splitToken token with
    | Result.ok pieces => splitTokensLoop rest (output ++ pieces)
    | Result.err e => Result.err e
    | Result.panic => Result.panic

/-- The function `splitTokens(tokens []string) ([]string, error)`. -/
def splitTokens (tokens : List (List Char)) : Result (List (List Char)) :=
  if tokens.length = 0 then Result.err Err.noTokens
  else splitTokensLoop tokens []

/-- The loop `for i := 4; i < len(splittedTokens)-2; i += 3` of `ParseCreateTableStatement`, at
the index `i` with the `columns` gathered so far. The first argument bounds the passes still to
run: `i` grows by three per pass, so `len(splittedTokens)` passes are always enough. -/
def parseColumnsLoop (U : UnicodeTables) (splittedTokens : List (List Char)) :
    Nat → Int → List Column → Result (List Column)
  | 0, _, columns => Result.ok columns
  | fuel + 1, i, columns =>
    if i < (splittedTokens.length : Int) - 2 then
      match index splittedTokens (i + 2) with
      | none => Result.panic
      | some next =>
        if next = [')'] then
          match index splittedTokens i, index splittedTokens (i + 1) with
          | some name, some typeStr =>
            match parseColumn U name typeStr with
            | Result.ok col => Result.ok (columns ++ [col])
            | Result.err e => Result.err e
            | Result.panic => Result.panic
          | _, _ => Result.panic
        else if next ≠ [','] then Result.err Err.expectedComma
        else
          match index splittedTokens i, index splittedTokens (i + 1) with
          | some name, some typeStr =>
            match parseColumn U name typeStr with
            | Result.ok col => parseColumnsLoop U splittedTokens fuel (i + 3) (columns ++ [col])
            | Result.err e => Result.err e
            | Result.panic => Result.panic
          | _, _ => Result.panic
    else Result.ok columns

/-- The function `ParseCreateTableStatement(tokens []string) ([]Column, error)`. -/
def ParseCreateTableStatement (U : UnicodeTables) (tokens : List (List Char)) :
    Result (List Column) :=
  match splitTokens tokens with
  | Result.panic => Result.panic
  | Result.err e => Result.err (Err.splitting e)
  | Result.ok splittedTokens =>
    if (splittedTokens.length : Int) < MinSQLCreateTableTokens then Result.err Err.incompleteCreate
    else
      match index splittedTokens 1 with
      | none => Result.panic
      | some t1 =>
        if ToLower U t1 ≠ SQLCreateTableTokensTable then Result.err Err.expectedTable
        else
          match index splittedTokens 2 with
          | none => Result.panic
          | some tableName =>
            match isValidIdentifier U tableName with
            | some e => Result.err (Err.invalidTableName e)
            | none =>
              match index splittedTokens 3 with
              | none => Result.panic
              | some t3 =>
                if t3 ≠ ['('] then Result.err Err.expectedOpenParen
                else
                  match index splittedTokens ((splittedTokens.length : Int) - 1) with
                  | none => Result.panic
                  | some last =>
                    if last ≠ [';'] then Result.err Err.expectedSemicolon
                    else
                      match index splittedTokens ((splittedTokens.length : Int) - 2) with
                      | none => Result.panic
                      | some beforeLast =>
                        if beforeLast ≠ [')'] then Result.err Err.expectedCloseParen
                        else parseColumnsLoop U splittedTokens splittedTokens.length 4 []

/-- The function `strings.Split(input, " ")` of the test helper `sqlTokens`: the pieces of `input`
between its spaces. -/
def sqlTokens (input : List Char) : List (List Char) :=
  List.splitOn ' ' input

/-!
Statements and words the properties are stated with.
-/

/-- The tokens after `create table T` of the statement `create table T (c1 t1, ..., cn tn);`
split at its spaces, but for the `(` in front of the first: `c1`, `t1,`, ..., `cn`, `tn);`. -/
def columnTokens : List Column → List (List Char)
  | [] => []
  | [c] => [c.Name, c.Type_ ++ [')', ';']]
  | c :: d :: rest => c.Name :: (c.Type_ ++ [',']) :: columnTokens (d :: rest)

/-- The tokens of the statement `create table T (c1 t1, ..., cn tn);` split at its spaces:
`create`, `table`, `T`, `(c1`, `t1,`, ..., `cn`, `tn);`. -/
def createTableTokens (T : List Char) (cols : List Column) : List (List Char) :=
  match columnTokens cols with
  | [] => ["create".toList, "table".toList, T]
  | first :: more => "create".toList :: "table".toList :: T :: ('(' :: first) :: more

/-- What `splitTokens` makes of `columnTokens`: `c1`, `t1`, `,`, ..., `cn`, `tn`, `)`, `;`. -/
def columnPieces : List Column → List (List Char)
  | [] => []
  | [c] => [c.Name, c.Type_, [')'], [';']]
  | c :: d :: rest => c.Name :: c.Type_ :: [','] :: columnPieces (d :: rest)

/-- The string `t` is the word `w` in some letter case: lowering its letters `A` to `Z` gives
`w`. -/
def IsLetterCaseOf (t w : List Char) : Prop :=
  t.map Char.toLower = w

instance (t w : List Char) : Decidable (IsLetterCaseOf t w) :=
  inferInstanceAs (Decidable (t.map Char.toLower = w))

/-- A word free of the punctuation `splitTokens` cuts at and of the newline it trims. -/
def Plain (w : List Char) : Prop :=
  w ≠ [] ∧ ∀ ch ∈ w, ch ≠ '(' ∧ ch ≠ ')' ∧ ch ≠ ',' ∧ ch ≠ ';' ∧ ch ≠ '\n'

/-- The characters `isValidIdentifier` lets through: letters, digits and the underscore. -/
def identChar (U : UnicodeTables) (ch : Char) : Prop :=
  IsLetter U ch = true ∨ IsDigit U ch = true ∨ ch = '_'

/-- The struct `InsertStatementData`. The map `Pairs map[string]string` is the list of its
entries in the order their keys were first assigned, no key twice. -/
structure InsertStatementData where
  TableName : List Char
  Pairs : List (List Char × List Char)
  deriving DecidableEq, Repr

/-- The struct `SelectStatementData`. -/
structure SelectStatementData where
  TableName : List Char
  Columns : List (List Char)
  deriving DecidableEq, Repr

/-- The map assignment `pairs[key] = value`: the entry of `key` is replaced when the map has
one, and added otherwise. -/
def mapSet (pairs : List (List Char × List Char)) (key value : List Char) :
    List (List Char × List Char) :=
  if pairs.any (fun e => e.1 == key) then
    pairs.map (fun e => if e.1 = key then (key, value) else e)
  else
    pairs ++ [(key, value)]

/-- The map lookup `pairs[key]`, with `none` for a key the map does not have. -/
def mapGet (pairs : List (List Char × List Char)) (key : List Char) : Option (List Char) :=
  (pairs.find? (fun e => e.1 == key)).map (fun e => e.2)

/-- The loop `for i, token := range tokens` of `findKeywordIndex`, from the index `i` on. -/
def findKeywordIndexLoop (U : UnicodeTables) (keyword : List Char) :
    List (List Char) → Int → Int
  | [], _ => -1
  | token :: rest, i =>
    if ToLower U token = keyword then i else findKeywordIndexLoop U keyword rest (i + 1)

/-- The function `findKeywordIndex(tokens []string, keyword string) int`. -/
def findKeywordIndex (U : UnicodeTables) (tokens : List (List Char)) (keyword : List Char) : Int :=
  findKeywordIndexLoop U keyword tokens 0

/-- The loop `for i := startIdx; i < endIdx; i++` of `parseColumnsList`, at the index `i` with
the `columns` gathered so far; `none` is the panic of `splittedTokens[i]` out of range. The first
argument bounds the passes still to run: `i` grows by one per pass, so `endIdx - startIdx`
passes are always enough. -/
def parseColumnsListLoop (splittedTokens : List (List Char)) (endIdx : Int) :
    Nat → Int → List (List Char) → Option (List (List Char))
  | 0, _, columns => some columns
  | fuel + 1, i, columns =>
    if i < endIdx then
      match index splittedTokens i with
      | none => none
      | some token =>
        if token = [','] ∨ token = [')'] then
          parseColumnsListLoop splittedTokens endIdx fuel (i + 1) columns
        else
          parseColumnsListLoop splittedTokens endIdx fuel (i + 1) (columns ++ [token])
    else some columns

/-- The function `parseColumnsList(splittedTokens []string, startIdx, endIdx int) []string`. -/
def parseColumnsList (splittedTokens : List (List Char)) (startIdx endIdx : Int) :
    Option (List (List Char)) :=
  parseColumnsListLoop splittedTokens endIdx (endIdx - startIdx).toNat startIdx []

/-- The quote removal of `ParseInsertStatement`: a value that both starts and ends with a double
quote loses one at the end (`strings.TrimSuffix`) and then one at the start
(`strings.TrimPrefix`). -/
def unquoteValue (token : List Char) : List Char :=
  if HasPrefix token ['"'] && HasSuffix token ['"'] then
    TrimPrefix (TrimSuffix token ['"']) ['"']
  else token

/-- The loop `for i := valuesIdx + 2; i < closingParenIdx; i++` of `ParseInsertStatement`, at the
index `i` with the `values` gathered so far; `none` is the panic of `splittedTokens[i]` out of
range. The first argument bounds the passes still to run. -/
def insertValuesLoop (splittedTokens : List (List Char)) (closingParenIdx : Int) :
    Nat → Int → List (List Char) → Option (List (List Char))
  | 0, _, values => some values
  | fuel + 1, i, values =>
    if i < closingParenIdx then
      match index splittedTokens i with
      | none => none
      | some token =>
        if token = [','] then
          insertValuesLoop splittedTokens closingParenIdx fuel (i + 1) values
        else
          insertValuesLoop splittedTokens closingParenIdx fuel (i + 1)
            (values ++ [unquoteValue token])
    else some values

/-- The values `ParseInsertStatement` extracts between the indices `valuesIdx + 2` and
`closingParenIdx` of the split tokens. -/
def insertValues (splittedTokens : List (List Char)) (valuesIdx closingParenIdx : Int) :
    Option (List (List Char)) :=
  insertValuesLoop splittedTokens closingParenIdx (closingParenIdx - (valuesIdx + 2)).toNat
    (valuesIdx + 2) []

/-- The loop `for i, columnName := range columns` of `ParseInsertStatement`, which assigns
`pairs[columnName] = values[i]`; `none` is the panic of `values[i]` out of range. -/
def insertPairsLoop (values : List (List Char)) :
    List (List Char) → Int → List (List Char × List Char) → Option (List (List Char × List Char))
  | [], _, pairs => some pairs
  | columnName :: rest, i, pairs =>
    match index values i with
    | none => none
    | some value => insertPairsLoop values rest (i + 1) (mapSet pairs columnName value)

/-- The function `ParseInsertStatement(tokens []string) (InsertStatementData, error)`. -/
def ParseInsertStatement (U : UnicodeTables) (tokens : List (List Char)) :
    Result InsertStatementData :=
  match splitTokens tokens with
  | Result.panic => Result.panic
  | Result.err e => Result.err (Err.splitting e)
  | Result.ok splittedTokens =>
    if (splittedTokens.length : Int) < MinSQLInsertTokens then Result.err Err.incompleteInsert
    else
      match index splittedTokens 1 with
      | none => Result.panic
      | some t1 =>
        if ToLower U t1 ≠ SQLInsertTokensInto then Result.err Err.expectedInto
        else
          match index splittedTokens 2 with
          | none => Result.panic
          | some tableName =>
            match isValidIdentifier U tableName with
            | some e => Result.err (Err.invalidTableName e)
            | none =>
              match index splittedTokens ((splittedTokens.length : Int) - 1) with
              | none => Result.panic
              | some last =>
                if last ≠ [';'] then Result.err Err.expectedSemicolon
                else
                  match index splittedTokens 3 with
                  | none => Result.panic
                  | some t3 =>
                    if t3 ≠ ['('] then Result.err Err.expectedOpenParen
                    else
                      let valuesIdx := findKeywordIndex U splittedTokens "values".toList
                      if valuesIdx = -1 then Result.err Err.expectedValues
                      else
                        match parseColumnsList splittedTokens 4 valuesIdx with
                        | none => Result.panic
                        | some columns =>
                          if valuesIdx + 1 ≥ (splittedTokens.length : Int) then
                            Result.err Err.expectedOpenParenValues
                          else
                            match index splittedTokens (valuesIdx + 1) with
                            | none => Result.panic
                            | some open_ =>
                              if open_ ≠ ['('] then Result.err Err.expectedOpenParenValues
                              else
                                let closingParenIdx := (splittedTokens.length : Int) - 2
                                match index splittedTokens closingParenIdx with
                                | none => Result.panic
                                | some close_ =>
                                  if close_ ≠ [')'] then Result.err Err.expectedCloseParen
                                  else
                                    match insertValues splittedTokens valuesIdx closingParenIdx with
                                    | none => Result.panic
                                    | some values =>
                                      if columns.length ≠ values.length then
                                        Result.err Err.countMismatch
                                      else
                                        match insertPairsLoop values columns 0 [] with
                                        | none => Result.panic
                                        | some pairs =>
                                          Result.ok { TableName := tableName, Pairs := pairs }

/-- The function `ParseSelectStatement(tokens []string) (SelectStatementData, error)`. -/
def ParseSelectStatement (U : UnicodeTables) (tokens : List (List Char)) :
    Result SelectStatementData :=
  match splitTokens tokens with
  | Result.panic => Result.panic
  | Result.err e => Result.err (Err.splitting e)
  | Result.ok splittedTokens =>
    if (splittedTokens.length : Int) < MinSQLSelectTokens then Result.err Err.incompleteSelect
    else
      match index splittedTokens ((splittedTokens.length : Int) - 1) with
      | none => Result.panic
      | some last =>
        if last ≠ [';'] then Result.err Err.expectedSemicolon
        else
          let fromIdx := findKeywordIndex U splittedTokens "from".toList
          if fromIdx = -1 then Result.err Err.expectedFrom
          else
            match parseColumnsList splittedTokens 1 fromIdx with
            | none => Result.panic
            | some columns =>
              if fromIdx + 1 ≥ (splittedTokens.length : Int) then Result.err Err.expectedTableName
              else
                match index splittedTokens (fromIdx + 1) with
                | none => Result.panic
                | some tableName =>
                  match isValidIdentifier U tableName with
                  | some e => Result.err (Err.invalidTableName e)
                  | none => Result.ok { TableName := tableName, Columns := columns }

/-- The well-formed identifiers in words: non-empty, the first character a letter or an
underscore, every later character a letter, a digit or an underscore. -/
def WellFormedIdentifier (U : UnicodeTables) (s : List Char) : Prop :=
  match s with
  | [] => False
  | first :: later =>
    (IsLetter U first = true ∨ first = '_') ∧
    ∀ ch ∈ later, IsLetter U ch = true ∨ IsDigit U ch = true ∨ ch = '_'

/-- The tokens of a comma-separated list written as in a statement, split at its spaces, before
the `(` is put in front: `x1,`, ..., `x(n-1),` and last `xn` with the `closing` punctuation
right behind it. -/
def listTokens (closing : List Char) : List (List Char) → List (List Char)
  | [] => []
  | [x] => [x ++ closing]
  | x :: y :: rest => (x ++ [',']) :: listTokens closing (y :: rest)

/-- The tokens `x1`, `,`, `x2`, `,`, ..., `xn`. -/
def commaSeparated : List (List Char) → List (List Char)
  | [] => []
  | [x] => [x]
  | x :: y :: rest => x :: [','] :: commaSeparated (y :: rest)

/-- The tokens with a `(` put in front of the first. -/
def openParen : List (List Char) → List (List Char)
  | [] => []
  | first :: more => ('(' :: first) :: more

/-- The tokens of the statement `select c1, c2, ..., cn from T;` split at its spaces: `select`,
`c1,`, ..., `cn`, `from`, `T;`. -/
def selectTokens (cs : List (List Char)) (T : List Char) : List (List Char) :=
  "select".toList :: (listTokens [] cs ++ ["from".toList, T ++ [';']])

/-- The tokens of the statement `insert into T (c1, ..., cn) values (v1, ..., vn);` split at its
spaces: `insert`, `into`, `T`, `(c1,`, ..., `cn)`, `values`, `(v1,`, ..., `vn);`; with one column
and one value they are `insert`, `into`, `T`, `(c)`, `values`, `(v);`. -/
def insertTokens (T : List Char) (cs vs : List (List Char)) : List (List Char) :=
  "insert".toList :: "into".toList :: T ::
    (openParen (listTokens [')'] cs) ++ "values".toList :: openParen (listTokens [')', ';'] vs))

/-- A value as the claims on `ParseInsertStatement` take it: non-empty, without space, newline,
parenthesis, comma or semicolon. -/
def ValueWord (v : List Char) : Prop :=
  v ≠ [] ∧ ∀ ch ∈ v, ch ≠ ' ' ∧ ch ≠ '\n' ∧ ch ≠ '(' ∧ ch ≠ ')' ∧ ch ≠ ',' ∧ ch ≠ ';'

/-- A value with one pair of surrounding double quotes removed when it both starts and ends with
a double quote, and the value itself otherwise. -/
def stripQuotes (v : List Char) : List Char :=
  if v.head? = some '"' ∧ v.getLast? = some '"' then (v.drop 1).dropLast else v

instance (v : List Char) : Decidable (ValueWord v) :=
  inferInstanceAs (Decidable (v ≠ [] ∧
    ∀ ch ∈ v, ch ≠ ' ' ∧ ch ≠ '\n' ∧ ch ≠ '(' ∧ ch ≠ ')' ∧ ch ≠ ',' ∧ ch ≠ ';'))

/-- The column names an insert statement lists, counted on its split tokens as the claim words
it: the tokens after the `(` at index 3 and before the `values` keyword at index `k`, without the
commas and the closing parenthesis. -/
def listedColumns (st : List (List Char)) (k : Nat) : List (List Char) :=
  ((st.take k).drop 4).filter (fun t => decide (¬ (t = [','] ∨ t = [')'])))

/-- The values an insert statement lists, counted on its split tokens as the claim words it: the
tokens after `values` and its `(`, that is from index `k + 2` on, up to the closing `)` and `;`,
without the commas. -/
def listedValues (st : List (List Char)) (k : Nat) : List (List Char) :=
  ((st.take (st.length - 2)).drop (k + 2)).filter (fun t => decide (¬ t = [',']))

instance (w : List Char) : Decidable (Plain w) :=
  inferInstanceAs (Decidable (w ≠ [] ∧
    ∀ ch ∈ w, ch ≠ '(' ∧ ch ≠ ')' ∧ ch ≠ ',' ∧ ch ≠ ';' ∧ ch ≠ '\n'))

end parser

/-!
Properties of the page manager.
-/

namespace pagemanager

theorem lor_shiftLeft_eight (a b : Nat) (ha : a < 256) : a ||| (b <<< 8) = a + 256 * b := by
  have h := Nat.mul_add_lt_is_or (i := 8) ha b
  rw [Nat.shiftLeft_eq, Nat.lor_comm, Nat.mul_comm, Nat.add_comm]
  simpa using h.symm

theorem LittleEndianUint16_pair (b0 b1 : Byte) (rest : List Byte) :
    LittleEndianUint16 (b0 :: b1 :: rest) = some (b0.val + 256 * b1.val) := by
  simp only [LittleEndianUint16, lor_shiftLeft_eight _ _ b0.isLt]

theorem GetHeader_numberOfSlots (p : Page) :
    (GetHeader p).1.NumberOfSlots = (p.Data ⟨1, by decide⟩).val + 256 * (p.Data ⟨2, by decide⟩).val := by
  simp only [GetHeader, lor_shiftLeft_eight _ _ (p.Data ⟨1, by decide⟩).isLt]

theorem GetHeader_numberOfSlots_lt (p : Page) : (GetHeader p).1.NumberOfSlots < 65536 := by
  rw [GetHeader_numberOfSlots]
  have h1 := (p.Data ⟨1, by decide⟩).isLt
  have h2 := (p.Data ⟨2, by decide⟩).isLt
  omega

theorem slice_two (p : Page) (lo : Nat) (h : lo + 2 ≤ PageSize) :
    p.slice lo (lo + 2) = some [p.Data ⟨lo, by omega⟩, p.Data ⟨lo + 1, by omega⟩] := by
  unfold Page.slice
  rw [dif_pos ⟨by omega, h⟩]
  simp only [Option.some.injEq]
  apply List.ext_getElem
  · simp
  · intro n h1 h2
    simp at h1
    interval_cases n <;> simp

theorem Data_congr (p : Page) {a b : Nat} (ha : a < PageSize) (hb : b < PageSize) (h : a = b) :
    p.Data ⟨a, ha⟩ = p.Data ⟨b, hb⟩ := by
  subst h; rfl

theorem readSlot_inside (p : Page) (i : Nat) (h : 5 + 4 * i + 4 ≤ PageSize) :
    readSlot p i = some (slotEntry p i h) := by
  have h4 : 5 + 4 * i + 4 ≤ 4096 := h
  have e0 : (5 + (i * 4) % 65536) % 65536 = 5 + 4 * i := by omega
  have e2 : (5 + 4 * i + 2) % 65536 = 5 + 4 * i + 2 := by omega
  have e4 : (5 + 4 * i + 4) % 65536 = 5 + 4 * i + 2 + 2 := by omega
  unfold readSlot
  simp only [e0, e2, e4]
  rw [slice_two p (5 + 4 * i) (by omega), slice_two p (5 + 4 * i + 2) (by omega)]
  simp only [LittleEndianUint16_pair, slotEntry]
  rw [Data_congr p (a := 5 + 4 * i + 1) (b := 6 + 4 * i) (by omega) (by omega) (by omega),
    Data_congr p (a := 5 + 4 * i + 2) (b := 7 + 4 * i) (by omega) (by omega) (by omega),
    Data_congr p (a := 5 + 4 * i + 2 + 1) (b := 8 + 4 * i) (by omega) (by omega) (by omega)]

theorem readSlot_outside (p : Page) : readSlot p 1022 = none := by
  unfold readSlot
  have h : p.slice 4095 4097 = none := by
    unfold Page.slice
    rw [dif_neg (by decide)]
  have h0 : p.slice 4093 4095 = _ := slice_two p 4093 (by decide)
  have e0 : (5 + 1022 * 4 % 65536) % 65536 = 4093 := by decide
  have e2 : (4093 + 2) % 65536 = 4095 := by decide
  have e4 : (4093 + 4) % 65536 = 4097 := by decide
  simp only [e0, e2, e4, h0, h, LittleEndianUint16_pair]

theorem slotsLoop_inside (p : Page) (n : Nat) (hn : 5 + 4 * n ≤ PageSize) :
    ∀ (fuel i : Nat) (slots : List Slot), n - i ≤ fuel → i ≤ n → slots.length = n →
      ∃ out, slotsLoop p n fuel i slots = some out ∧ out.length = n ∧
        (∀ j, j < i → out[j]? = slots[j]?) ∧
        (∀ j (hj : i ≤ j ∧ j < n), out[j]? = some (slotEntry p j (by omega))) := by
  have hn4 : 5 + 4 * n ≤ 4096 := hn
  intro fuel
  induction fuel with
  | zero =>
    intro i slots hf hi hl
    refine ⟨slots, rfl, hl, fun _ _ => rfl, ?_⟩
    intro j hj; omega
  | succ fuel ih =>
    intro i slots hf hi hl
    by_cases hlt : i < n
    · have hr := readSlot_inside p i (by omega)
      have e1 : (i + 1) % 65536 = i + 1 := by omega
      obtain ⟨out, ho, hlen, hpre, hpost⟩ :=
        ih (i + 1) (slots.set i (slotEntry p i (by omega))) (by omega) (by omega) (by simpa using hl)
      refine ⟨out, ?_, hlen, ?_, ?_⟩
      · simp only [slotsLoop, if_pos hlt, hr, e1, ho]
      · intro j hj
        rw [hpre j (by omega), List.getElem?_set_ne (by omega)]
      · intro j hj
        by_cases hji : j = i
        · subst hji
          rw [hpre j (by omega), List.getElem?_set_self (by omega)]
        · exact hpost j ⟨by omega, hj.2⟩
    · have : i = n := by omega
      subst this
      refine ⟨slots, ?_, hl, fun _ _ => rfl, ?_⟩
      · simp only [slotsLoop, if_neg hlt]
      · intro j hj; omega

theorem slotsLoop_outside (p : Page) (n : Nat) (hn : 1023 ≤ n) :
    ∀ (k fuel i : Nat) (slots : List Slot), i + k = 1022 → 1023 ≤ i + fuel →
      slotsLoop p n fuel i slots = none := by
  intro k
  induction k with
  | zero =>
    intro fuel i slots hi hf
    have hi0 : i = 1022 := by omega
    subst hi0
    obtain ⟨f, rfl⟩ : ∃ f, fuel = f + 1 := ⟨fuel - 1, by omega⟩
    simp only [slotsLoop, if_pos (show 1022 < n by omega), readSlot_outside]
  | succ k ih =>
    intro fuel i slots hi hf
    obtain ⟨f, rfl⟩ : ∃ f, fuel = f + 1 := ⟨fuel - 1, by omega⟩
    have hr := readSlot_inside p i (by show 5 + 4 * i + 4 ≤ 4096; omega)
    have e1 : (i + 1) % 65536 = i + 1 := by omega
    simp only [slotsLoop, if_pos (show i < n by omega), hr, e1]
    exact ih f (i + 1) _ (by omega) (by omega)

/-- The bound on the passes of `slotsLoop` never cuts the loop short: with at least
`numberOfSlots - i` passes allowed, the loop ends as it does with exactly that many. -/
theorem slotsLoop_fuel_enough (p : Page) (n : Nat) (hn : n < 65536) :
    ∀ (fuel i : Nat) (slots : List Slot), n - i ≤ fuel → i ≤ n →
      slotsLoop p n fuel i slots = slotsLoop p n (n - i) i slots := by
  intro fuel
  induction fuel with
  | zero =>
    intro i slots hf _
    have e : n - i = 0 := by omega
    rw [e]
  | succ fuel ih =>
    intro i slots hf hi
    by_cases hlt : i < n
    · obtain ⟨k, hk⟩ : ∃ k, n - i = k + 1 := ⟨n - i - 1, by omega⟩
      have e1 : (i + 1) % 65536 = i + 1 := by omega
      have hk2 : k = n - (i + 1) := by omega
      rw [hk]
      simp only [slotsLoop, if_pos hlt, e1]
      cases readSlot p i with
      | none => rfl
      | some s =>
        simp only []
        rw [ih (i + 1) _ (by omega) (by omega), hk2]
    · have e : n - i = 0 := by omega
      rw [e]
      simp only [slotsLoop, if_neg hlt]

theorem Slots_inside (p : Page) (h : 5 + 4 * (GetHeader p).1.NumberOfSlots ≤ PageSize) :
    ∃ slots, (Slots p).1 = some slots ∧ slots.length = (GetHeader p).1.NumberOfSlots ∧
      ∀ i (hi : i < (GetHeader p).1.NumberOfSlots),
        slots[i]? = some (slotEntry p i (by omega)) := by
  obtain ⟨out, ho, hlen, -, hpost⟩ :=
    slotsLoop_inside p _ h (GetHeader p).1.NumberOfSlots 0
      (List.replicate (GetHeader p).1.NumberOfSlots ⟨0, 0⟩) (by omega) (by omega) (by simp)
  exact ⟨out, ho, hlen, fun i hi => hpost i ⟨by omega, hi⟩⟩

theorem Slots_outside (p : Page) (h : 1023 ≤ (GetHeader p).1.NumberOfSlots) :
    (Slots p).1 = none :=
  slotsLoop_outside p _ h 1022 _ 0 _ (by omega) (by omega)

/-- C1. `AllocatePage` returns a `nil` error and a page whose 4096 bytes are all zero; `GetHeader`
on that page gives `Type = PageTypeTable`, `NumberOfSlots = 0` and `FreeSpacePointer = 5`, and
`Slots` on it gives the empty list. -/
theorem AllocatePage_fresh :
    AllocatePage.2 = none ∧
    (∀ i : Fin PageSize, AllocatePage.1.Data i = 0) ∧
    (GetHeader AllocatePage.1).1 =
      { Type_ := PageTypeTable, NumberOfSlots := 0, FreeSpacePointer := 5 } ∧
    (Slots AllocatePage.1).1 = some [] := by
  refine ⟨rfl, fun _ => rfl, by decide, by decide⟩

/-- C2. For every page, `GetHeader` returns `Type` equal to byte 0 of the page and `NumberOfSlots`
equal to `Data[1] + 256 * Data[2]`, and leaves the page as it was. -/
theorem GetHeader_type_and_slot_count (p : Page) :
    (GetHeader p).1.Type_ = (p.Data ⟨0, by decide⟩).val ∧
    (GetHeader p).1.NumberOfSlots =
      (p.Data ⟨1, by decide⟩).val + 256 * (p.Data ⟨2, by decide⟩).val ∧
    (GetHeader p).2 = p :=
  ⟨rfl, GetHeader_numberOfSlots p, rfl⟩

/-- C3, as stated, fails: on the freshly allocated page the bytes 3 and 4 hold the value 0, while
`GetHeader` returns `FreeSpacePointer = 5`. -/
theorem GetHeader_boundary_not_from_bytes_3_4 :
    (AllocatePage.1.Data ⟨3, by decide⟩).val + 256 * (AllocatePage.1.Data ⟨4, by decide⟩).val = 0 ∧
    (GetHeader AllocatePage.1).1.FreeSpacePointer = 5 ∧
    (GetHeader AllocatePage.1).1.FreeSpacePointer ≠
      (AllocatePage.1.Data ⟨3, by decide⟩).val + 256 * (AllocatePage.1.Data ⟨4, by decide⟩).val := by
  decide

/-- C3, amended. The header is parsed from the three bytes `[0,3)`: two pages that agree there
have the same header, whatever their bytes 3 and 4 hold, and the `FreeSpacePointer` returned is
computed from the slot count `n` of the bytes 1 and 2, as `5 + 4 * n` for every `n ≤ 16382`. -/
theorem GetHeader_from_first_three_bytes (p q : Page)
    (h : ∀ i : Fin PageSize, i.val < 3 → p.Data i = q.Data i) :
    (GetHeader p).1 = (GetHeader q).1 ∧
    ((p.Data ⟨1, by decide⟩).val + 256 * (p.Data ⟨2, by decide⟩).val ≤ 16382 →
      (GetHeader q).1.FreeSpacePointer =
        5 + 4 * ((p.Data ⟨1, by decide⟩).val + 256 * (p.Data ⟨2, by decide⟩).val)) := by
  have h0 := h ⟨0, by decide⟩ (by decide)
  have h1 := h ⟨1, by decide⟩ (by decide)
  have h2 := h ⟨2, by decide⟩ (by decide)
  have e : (GetHeader p).1 = (GetHeader q).1 := by
    simp only [GetHeader, h0, h1, h2]
  refine ⟨e, fun hn => ?_⟩
  rw [← e, ← GetHeader_numberOfSlots p]
  rw [← GetHeader_numberOfSlots p] at hn
  show ((GetHeader p).1.NumberOfSlots * 4 + 5) % 65536 = _
  omega

/-- Witness for `GetHeader_from_first_three_bytes`: two pages that differ in the bytes 3 and 4
only, the second storing 4096 there, both with two slots and `FreeSpacePointer = 13`. -/
theorem GetHeader_from_first_three_bytes_witness :
    (∀ i : Fin PageSize, i.val < 3 → twoSlotPage.Data i = twoSlotPageBoundary.Data i) ∧
    (GetHeader twoSlotPage).1 = (GetHeader twoSlotPageBoundary).1 ∧
    (GetHeader twoSlotPageBoundary).1.FreeSpacePointer = 5 + 4 * (2 + 256 * 0) :=
  have h : ∀ i : Fin PageSize, i.val < 3 → twoSlotPage.Data i = twoSlotPageBoundary.Data i := by
    intro i hi
    obtain ⟨i, hlt⟩ := i
    have hi3 : i < 3 := hi
    interval_cases i <;> rfl
  ⟨h, (GetHeader_from_first_three_bytes twoSlotPage twoSlotPageBoundary h).1,
    (GetHeader_from_first_three_bytes twoSlotPage twoSlotPageBoundary h).2 (by decide)⟩

/-- C4, as stated, fails: the page whose type byte is 2 gets a header from `GetHeader`, with
`Type = 2`, which is neither `PageTypeTable` nor `PageTypeIndex`. -/
theorem GetHeader_accepts_unknown_type :
    ((pageOfType 2).Data ⟨0, by decide⟩).val = 2 ∧
    (GetHeader (pageOfType 2)).1.Type_ = 2 ∧
    ¬ ((GetHeader (pageOfType 2)).1.Type_ = PageTypeTable ∨
       (GetHeader (pageOfType 2)).1.Type_ = PageTypeIndex) := by
  decide

/-- C4, amended. `GetHeader` has no failure: for every page it returns a header whose `Type` is
the first byte of the page, and every byte value from 0 to 255 is returned as the `Type` of some
page. -/
theorem GetHeader_returns_any_type :
    (∀ p : Page, (GetHeader p).1.Type_ = (p.Data ⟨0, by decide⟩).val ∧ (GetHeader p).1.Type_ < 256) ∧
    (∀ t : Byte, ∃ p : Page, (GetHeader p).1.Type_ = t.val) :=
  ⟨fun p => ⟨rfl, (p.Data ⟨0, by decide⟩).isLt⟩, fun t => ⟨pageOfType t, rfl⟩⟩

/-- C5, as stated, fails: one insertion into the freshly allocated page leaves a header with slot
count 0, not 1, and a second insertion returns the slot id 0 again, not 1. -/
theorem AddRow_fresh_page_slot_count :
    (GetHeader (AddRow AllocatePage.1 [1, 2, 3]).2).1.NumberOfSlots = 0 ∧
    ¬ ((GetHeader (AddRow AllocatePage.1 [1, 2, 3]).2).1.NumberOfSlots = 1) ∧
    (AddRow (AddRow AllocatePage.1 [1, 2, 3]).2 [4, 5]).1.1 = 0 ∧
    ¬ RowCommitted AllocatePage.1 [1, 2, 3] (AddRow AllocatePage.1 [1, 2, 3]).2 := by
  refine ⟨by decide, by decide, by decide, ?_⟩
  intro h
  exact absurd h.1 (by decide)

/-- C5, amended. `AddRow` is a stub: for every page and every row it returns the slot id 0 and
the offset 0 and leaves the page as it was, so the header and the slot directory read as before,
and a further insertion returns the slot id 0 and the offset 0 again. -/
theorem AddRow_stub (p : Page) (row : List Byte) :
    (AddRow p row).1 = (0, 0) ∧
    (AddRow p row).2 = p ∧
    (GetHeader (AddRow p row).2).1 = (GetHeader p).1 ∧
    (Slots (AddRow p row).2).1 = (Slots p).1 ∧
    (∀ row2 : List Byte, (AddRow (AddRow p row).2 row2).1 = (0, 0)) :=
  ⟨rfl, rfl, rfl, rfl, fun _ => rfl⟩

/-- C6. Row insertion is atomic: after `AddRow` the page is either fully updated or byte for
byte the page before the call; and when the row is longer than the available space, the header
and the slot directory are unchanged. -/
theorem AddRow_atomic (p : Page) (row : List Byte) :
    (RowCommitted p row (AddRow p row).2 ∨ ∀ i : Fin PageSize, (AddRow p row).2.Data i = p.Data i) ∧
    (availableSpace p < (row.length : Int) →
      (GetHeader (AddRow p row).2).1 = (GetHeader p).1 ∧
      (Slots (AddRow p row).2).1 = (Slots p).1 ∧
      ∀ i : Fin PageSize, i.val < 5 + 4 * (GetHeader p).1.NumberOfSlots →
        (AddRow p row).2.Data i = p.Data i) :=
  ⟨Or.inr fun _ => rfl, fun _ => ⟨rfl, rfl, fun _ _ => rfl⟩⟩

/-- Witness for `AddRow_atomic`: a three-byte row and the fresh page, whose available space
is `5 - 5 - 4 = -4`. -/
theorem AddRow_atomic_witness :
    availableSpace AllocatePage.1 < (([1, 2, 3] : List Byte).length : Int) ∧
    (GetHeader (AddRow AllocatePage.1 [1, 2, 3]).2).1 = (GetHeader AllocatePage.1).1 ∧
    (Slots (AddRow AllocatePage.1 [1, 2, 3]).2).1 = (Slots AllocatePage.1).1 ∧
    ∀ i : Fin PageSize, i.val < 5 + 4 * (GetHeader AllocatePage.1).1.NumberOfSlots →
      (AddRow AllocatePage.1 [1, 2, 3]).2.Data i = AllocatePage.1.Data i :=
  ⟨by decide, (AddRow_atomic AllocatePage.1 [1, 2, 3]).2 (by decide)⟩

/-- C7, as stated, fails: with the slot count 16383 (bytes `0xFF`, `0x3F`) the sum `5 + 4 * n` is
65537, while `GetHeader` returns `FreeSpacePointer = 1`. -/
theorem GetHeader_boundary_wraps :
    (GetHeader (pageWithSlotCount 0xFF 0x3F)).1.NumberOfSlots = 16383 ∧
    (GetHeader (pageWithSlotCount 0xFF 0x3F)).1.FreeSpacePointer = 1 ∧
    (GetHeader (pageWithSlotCount 0xFF 0x3F)).1.FreeSpacePointer ≠
      5 + 4 * (GetHeader (pageWithSlotCount 0xFF 0x3F)).1.NumberOfSlots := by
  decide

/-- C7, amended. For every page whose slot count `n` is at most 16382, the `FreeSpacePointer`
returned by `GetHeader` equals `5 + 4 * n` as a natural number. -/
theorem GetHeader_boundary_eq (p : Page) (h : (GetHeader p).1.NumberOfSlots ≤ 16382) :
    (GetHeader p).1.FreeSpacePointer = 5 + 4 * (GetHeader p).1.NumberOfSlots := by
  show ((GetHeader p).1.NumberOfSlots * 4 + 5) % 65536 = _
  omega

/-- Witness for `GetHeader_boundary_eq`: the largest slot count it covers, 16382 (bytes `0xFE`,
`0x3F`), where the `FreeSpacePointer` is 65533. -/
theorem GetHeader_boundary_eq_witness :
    (GetHeader (pageWithSlotCount 0xFE 0x3F)).1.NumberOfSlots ≤ 16382 ∧
    (GetHeader (pageWithSlotCount 0xFE 0x3F)).1.FreeSpacePointer =
      5 + 4 * (GetHeader (pageWithSlotCount 0xFE 0x3F)).1.NumberOfSlots :=
  ⟨by decide, GetHeader_boundary_eq (pageWithSlotCount 0xFE 0x3F) (by decide)⟩

/-- C8. For every page whose header slot count `n` satisfies `5 + 4 * n ≤ 4096`, `Slots` returns a
list of exactly `n` slots, slot `i` having `Offset = Data[5+4i] + 256 * Data[6+4i]` and
`Length = Data[7+4i] + 256 * Data[8+4i]`, and leaves the page as it was. -/
theorem Slots_reads_directory (p : Page)
    (h : 5 + 4 * (GetHeader p).1.NumberOfSlots ≤ PageSize) :
    ∃ slots : List Slot,
      (Slots p).1 = some slots ∧
      slots.length = (GetHeader p).1.NumberOfSlots ∧
      (∀ i (hi : i < (GetHeader p).1.NumberOfSlots),
        slots[i]? = some
          { Offset := (p.Data ⟨5 + 4 * i, by omega⟩).val + 256 * (p.Data ⟨6 + 4 * i, by omega⟩).val,
            Length := (p.Data ⟨7 + 4 * i, by omega⟩).val + 256 * (p.Data ⟨8 + 4 * i, by omega⟩).val }) ∧
      (Slots p).2 = p := by
  obtain ⟨slots, hs, hlen, hget⟩ := Slots_inside p h
  exact ⟨slots, hs, hlen, hget, rfl⟩

/-- Witness for `Slots_reads_directory`: a page with two directory entries. -/
theorem Slots_reads_directory_witness :
    5 + 4 * (GetHeader twoSlotPage).1.NumberOfSlots ≤ PageSize ∧
    (Slots twoSlotPage).1 = some [{ Offset := 7, Length := 256 }, { Offset := 2304, Length := 0 }] ∧
    ∃ slots : List Slot,
      (Slots twoSlotPage).1 = some slots ∧
      slots.length = (GetHeader twoSlotPage).1.NumberOfSlots ∧
      (∀ i (hi : i < (GetHeader twoSlotPage).1.NumberOfSlots),
        slots[i]? = some
          { Offset := (twoSlotPage.Data ⟨5 + 4 * i, by
              have h2 : (GetHeader twoSlotPage).1.NumberOfSlots = 2 := by decide
              show _ < 4096
              omega⟩).val + 256 * (twoSlotPage.Data ⟨6 + 4 * i, by
              have h2 : (GetHeader twoSlotPage).1.NumberOfSlots = 2 := by decide
              show _ < 4096
              omega⟩).val,
            Length := (twoSlotPage.Data ⟨7 + 4 * i, by
              have h2 : (GetHeader twoSlotPage).1.NumberOfSlots = 2 := by decide
              show _ < 4096
              omega⟩).val + 256 * (twoSlotPage.Data ⟨8 + 4 * i, by
              have h2 : (GetHeader twoSlotPage).1.NumberOfSlots = 2 := by decide
              show _ < 4096
              omega⟩).val }) ∧
      (Slots twoSlotPage).2 = twoSlotPage :=
  ⟨by decide, by decide, Slots_reads_directory twoSlotPage (by decide)⟩

/-- C9, at its failing input: on the page whose header holds the slot count 1023 (bytes `0xFF`,
`0x03`), `Slots` does not return a list: the read of entry 1022 takes the slice `[4095:4097]`
of the 4096-byte array and panics. -/
theorem Slots_panics_at_1023 :
    (GetHeader (pageWithSlotCount 0xFF 0x03)).1.NumberOfSlots = 1023 ∧
    (pageWithSlotCount 0xFF 0x03).slice 4095 4097 = none ∧
    readSlot (pageWithSlotCount 0xFF 0x03) 1022 = none ∧
    (Slots (pageWithSlotCount 0xFF 0x03)).1 = none :=
  ⟨by decide, by decide, readSlot_outside _, Slots_outside _ (by decide)⟩

end pagemanager

/-!
Properties of the parser.
-/

namespace parser

theorem HasSuffix_singleton_of_not_mem (s : List Char) (c : Char) (h : c ∉ s) :
    HasSuffix s [c] = false := by
  unfold HasSuffix
  rw [Bool.eq_false_iff]
  intro hs
  rw [List.isSuffixOf_iff_suffix] at hs
  exact h (hs.subset (List.mem_singleton_self c))

theorem HasSuffix_pair_of_not_mem (s : List Char) (c d : Char) (h : d ∉ s) :
    HasSuffix s [c, d] = false := by
  unfold HasSuffix
  rw [Bool.eq_false_iff]
  intro hs
  rw [List.isSuffixOf_iff_suffix] at hs
  exact h (hs.subset (by simp))

theorem HasSuffix_append_self (s t : List Char) : HasSuffix (s ++ t) t = true := by
  unfold HasSuffix
  rw [List.isSuffixOf_iff_suffix]
  exact List.suffix_append s t

theorem HasPrefix_cons_self (c : Char) (s : List Char) : HasPrefix (c :: s) [c] = true := by
  simp [HasPrefix, List.isPrefixOf]

theorem HasPrefix_singleton_of_not_mem (s : List Char) (c : Char) (h : c ∉ s) :
    HasPrefix s [c] = false := by
  cases s with
  | nil => rfl
  | cons a s =>
    have : c ≠ a := fun e => h (e ▸ List.mem_cons_self _ _)
    simp [HasPrefix, List.isPrefixOf, this]

theorem TrimSuffix_of_not_mem (s : List Char) (c : Char) (h : c ∉ s) : TrimSuffix s [c] = s := by
  unfold TrimSuffix
  rw [HasSuffix_singleton_of_not_mem s c h]
  rfl

theorem slice_zero_append (s t : List Char) (hi : Int) (h : hi = (s.length : Int)) :
    slice (s ++ t) 0 hi = some s := by
  subst h
  unfold slice
  rw [if_pos ⟨le_refl _, by omega, by simp⟩]
  simp

theorem slice_one_cons (c : Char) (s : List Char) (hi : Int) (h : hi = (s.length : Int) + 1) :
    slice (c :: s) 1 hi = some s := by
  subst h
  unfold slice
  rw [if_pos ⟨by omega, by omega, by simp⟩]
  have : ((s.length : Int) + 1).toNat = s.length + 1 := by omega
  simp [this]

theorem Plain.not_mem {w : List Char} (h : Plain w) :
    '(' ∉ w ∧ ')' ∉ w ∧ ',' ∉ w ∧ ';' ∉ w ∧ '\n' ∉ w :=
  ⟨fun m => (h.2 _ m).1 rfl, fun m => (h.2 _ m).2.1 rfl, fun m => (h.2 _ m).2.2.1 rfl,
    fun m => (h.2 _ m).2.2.2.1 rfl, fun m => (h.2 _ m).2.2.2.2 rfl⟩

theorem splitToken_plain (w : List Char) (h : Plain w) : splitToken w = Result.ok [w] := by
  obtain ⟨h1, h2, h3, h4, h5⟩ := h.not_mem
  unfold splitToken
  simp only [TrimSuffix_of_not_mem w _ h5, HasPrefix_singleton_of_not_mem w _ h1,
    HasSuffix_singleton_of_not_mem w _ h2, HasSuffix_singleton_of_not_mem w _ h3,
    HasSuffix_singleton_of_not_mem w _ h4, HasSuffix_pair_of_not_mem w _ _ h4]
  simp

theorem splitToken_open (w : List Char) (h : Plain w) :
    splitToken ('(' :: w) = Result.ok [['('], w] := by
  obtain ⟨h1, h2, h3, h4, h5⟩ := h.not_mem
  have hne : w ≠ [] := h.1
  have m3 : ',' ∉ '(' :: w := by simp [h3]
  have m4 : ';' ∉ '(' :: w := by simp [h4]
  have m5 : '\n' ∉ '(' :: w := by simp [h5]
  have hlen : ((('(' :: w).length : Nat) : Int) ≠ 1 := by
    have : 0 < w.length := List.length_pos.mpr hne
    simp only [List.length_cons]; omega
  have s1 : slice ('(' :: w) 1 ((('(' :: w).length : Nat) : Int) = some w :=
    slice_one_cons _ _ _ (by simp only [List.length_cons]; omega)
  unfold splitToken
  simp only [TrimSuffix_of_not_mem _ _ m5, HasPrefix_cons_self,
    HasSuffix_singleton_of_not_mem _ _ m3, HasSuffix_pair_of_not_mem _ _ _ m4, s1, if_neg hlen]
  simp

theorem splitToken_comma (w : List Char) (h : Plain w) :
    splitToken (w ++ [',']) = Result.ok [w, [',']] := by
  obtain ⟨h1, h2, h3, h4, h5⟩ := h.not_mem
  have hne : w ≠ [] := h.1
  have m1 : '(' ∉ w ++ [','] := by simp [h1]
  have m4 : ';' ∉ w ++ [','] := by simp [h4]
  have m5 : '\n' ∉ w ++ [','] := by simp [h5]
  have hlen : ¬ (((w ++ [',']).length : Nat) : Int) < 2 := by
    have : 0 < w.length := List.length_pos.mpr hne
    simp only [List.length_append, List.length_singleton]; omega
  have s1 : slice (w ++ [',']) 0 ((((w ++ [',']).length : Nat) : Int) - 1) = some w :=
    slice_zero_append _ _ _ (by simp only [List.length_append, List.length_singleton]; omega)
  unfold splitToken
  simp only [TrimSuffix_of_not_mem _ _ m5, HasPrefix_singleton_of_not_mem _ _ m1,
    HasSuffix_append_self, HasSuffix_pair_of_not_mem _ _ _ m4, s1, if_neg hlen]
  simp

theorem splitToken_close (w : List Char) (h : Plain w) :
    splitToken (w ++ [')', ';']) = Result.ok [w, [')'], [';']] := by
  obtain ⟨h1, h2, h3, h4, h5⟩ := h.not_mem
  have hne : w ≠ [] := h.1
  have m1 : '(' ∉ w ++ [')', ';'] := by simp [h1]
  have m3 : ',' ∉ w ++ [')', ';'] := by simp [h3]
  have m5 : '\n' ∉ w ++ [')', ';'] := by simp [h5]
  have hlen : ¬ (((w ++ [')', ';']).length : Nat) : Int) < 3 := by
    have : 0 < w.length := List.length_pos.mpr hne
    simp only [List.length_append, List.length_cons, List.length_nil]; omega
  have e1 : w ++ [')', ';'] = (w ++ [')']) ++ [';'] := by simp
  have s1 : slice (w ++ [')', ';']) 0 ((((w ++ [')', ';']).length : Nat) : Int) - 1)
      = some (w ++ [')']) := by
    rw [e1]
    exact slice_zero_append _ _ _
      (by simp only [List.length_append, List.length_cons, List.length_nil]; omega)
  have s2 : slice (w ++ [')', ';']) 0 ((((w ++ [')', ';']).length : Nat) : Int) - 2)
      = some w :=
    slice_zero_append _ _ _
      (by simp only [List.length_append, List.length_cons, List.length_nil]; omega)
  unfold splitToken
  simp only [TrimSuffix_of_not_mem _ _ m5, HasPrefix_singleton_of_not_mem _ _ m1,
    HasSuffix_append_self, HasSuffix_singleton_of_not_mem _ _ m3, s1, s2, if_neg hlen]
  simp

theorem identChar_not_punct (U : UnicodeTables) (ch : Char) (h : identChar U ch) :
    ch ≠ '(' ∧ ch ≠ ')' ∧ ch ≠ ',' ∧ ch ≠ ';' ∧ ch ≠ '\n' := by
  refine ⟨?_, ?_, ?_, ?_, ?_⟩ <;>
  · rintro rfl
    rcases h with h | h | h
    · exact Bool.noConfusion (h : false = true)
    · exact Bool.noConfusion (h : false = true)
    · exact absurd h (by decide)

theorem isValidIdentifierLoop_chars (U : UnicodeTables) :
    ∀ (s : List Char) (i : Nat), isValidIdentifierLoop U i s = none → ∀ ch ∈ s, identChar U ch := by
  intro s
  induction s with
  | nil => intro i _ ch hch; cases hch
  | cons a s ih =>
    intro i h ch hch
    unfold isValidIdentifierLoop at h
    have ha : identChar U a ∧ isValidIdentifierLoop U (i + 1) s = none := by
      by_cases hi : i = 0
      · rw [if_pos hi] at h
        by_cases hc : (!IsLetter U a && a != '_') = true
        · rw [if_pos hc] at h; cases h
        · rw [if_neg hc] at h
          refine ⟨?_, h⟩
          simp only [Bool.and_eq_true, Bool.not_eq_true', bne_iff_ne, ne_eq, not_and,
            Decidable.not_not, Bool.not_eq_false] at hc
          by_cases hl : IsLetter U a = true
          · exact Or.inl hl
          · exact Or.inr (Or.inr (hc (by simpa using hl)))
      · rw [if_neg hi] at h
        by_cases hc : (!IsLetter U a && !IsDigit U a && a != '_') = true
        · rw [if_pos hc] at h; cases h
        · rw [if_neg hc] at h
          refine ⟨?_, h⟩
          simp only [Bool.and_eq_true, Bool.not_eq_true', bne_iff_ne, ne_eq, not_and,
            Decidable.not_not, Bool.not_eq_false] at hc
          by_cases hl : IsLetter U a = true
          · exact Or.inl hl
          · by_cases hd : IsDigit U a = true
            · exact Or.inr (Or.inl hd)
            · exact Or.inr (Or.inr (hc ⟨by simpa using hl, by simpa using hd⟩))
    rcases List.mem_cons.mp hch with rfl | hmem
    · exact ha.1
    · exact ih (i + 1) ha.2 ch hmem

theorem isValidIdentifier_plain (U : UnicodeTables) (s : List Char)
    (h : isValidIdentifier U s = none) : Plain s := by
  unfold isValidIdentifier at h
  by_cases hl : s.length = 0
  · rw [if_pos hl] at h; cases h
  · rw [if_neg hl] at h
    refine ⟨fun e => hl (by simp [e]), fun ch hch => ?_⟩
    exact identChar_not_punct U ch (isValidIdentifierLoop_chars U s 0 h ch hch)

theorem toLowerRune_eq_toLower (U : UnicodeTables) (ch : Char) (h : ch.toLower.toNat < 128) :
    toLowerRune U ch = ch.toLower := by
  unfold toLowerRune
  by_cases hu : 65 ≤ ch.toNat ∧ ch.toNat ≤ 90
  · have h1 : ch.toNat < 128 := by omega
    have e : ch.toLower = Char.ofNat (ch.toNat + 32) := by
      simp only [Char.toLower]
      rw [if_pos (by exact ⟨hu.1, hu.2⟩)]
    rw [if_pos h1, e]
    simp [hu.1, hu.2]
  · have e : ch.toLower = ch := by
      simp only [Char.toLower]
      rw [if_neg (by exact hu)]
    rw [e] at h
    rw [if_pos h, e]
    have : ¬ ((decide (65 ≤ ch.toNat) && decide (ch.toNat ≤ 90)) = true) := by
      simpa using hu
    rw [if_neg this]

theorem IsLetterCaseOf.ToLower_eq (U : UnicodeTables) {t w : List Char} (h : IsLetterCaseOf t w)
    (hw : ∀ c ∈ w, c.toNat < 128) : ToLower U t = w := by
  unfold IsLetterCaseOf at h
  unfold ToLower
  rw [← h]
  apply List.map_congr_left
  intro ch hch
  apply toLowerRune_eq_toLower
  apply hw
  rw [← h]
  exact List.mem_map_of_mem _ hch

theorem IsLetterCaseOf.plain {t w : List Char} (h : IsLetterCaseOf t w) (hw : Plain w) :
    Plain t := by
  unfold IsLetterCaseOf at h
  refine ⟨fun e => hw.1 (by rw [← h, e]; rfl), fun ch hch => ?_⟩
  have hm : ch.toLower ∈ w := by rw [← h]; exact List.mem_map_of_mem _ hch
  have hp := hw.2 _ hm
  refine ⟨?_, ?_, ?_, ?_, ?_⟩ <;>
  · rintro rfl
    revert hp
    decide

theorem columnType_facts (U : UnicodeTables) (t : List Char)
    (h : IsLetterCaseOf t "int".toList ∨ IsLetterCaseOf t "text".toList) :
    isValidColumnType U t = true ∧ Plain t := by
  rcases h with h | h
  · have e := h.ToLower_eq U (by decide)
    refine ⟨?_, h.plain ⟨by decide, by decide⟩⟩
    unfold isValidColumnType
    rw [if_pos e]
  · have e := h.ToLower_eq U (by decide)
    refine ⟨?_, h.plain ⟨by decide, by decide⟩⟩
    unfold isValidColumnType
    rw [e]
    decide

theorem splitTokensLoop_cons_ok (token : List Char) (rest output pieces : List (List Char))
    (h : splitToken token = Result.ok pieces) :
    splitTokensLoop (token :: rest) output = splitTokensLoop rest (output ++ pieces) := by
  simp only [splitTokensLoop, h]

theorem splitTokensLoop_columnTokens :
    ∀ (cols : List Column) (output : List (List Char)),
      (∀ c ∈ cols, Plain c.Name ∧ Plain c.Type_) →
      splitTokensLoop (columnTokens cols) output = Result.ok (output ++ columnPieces cols) := by
  intro cols
  induction cols with
  | nil => intro output _; simp [columnTokens, columnPieces, splitTokensLoop]
  | cons c tl ih =>
    intro output h
    have hc := h c (List.mem_cons_self _ _)
    cases tl with
    | nil =>
      simp only [columnTokens, columnPieces]
      rw [splitTokensLoop_cons_ok _ _ _ _ (splitToken_plain _ hc.1),
        splitTokensLoop_cons_ok _ _ _ _ (splitToken_close _ hc.2)]
      simp [splitTokensLoop]
    | cons d rest =>
      have ih2 := ih (output ++ [c.Name] ++ [c.Type_, [',']])
        (fun x hx => h x (List.mem_cons_of_mem _ hx))
      simp only [columnTokens, columnPieces]
      rw [splitTokensLoop_cons_ok _ _ _ _ (splitToken_plain _ hc.1),
        splitTokensLoop_cons_ok _ _ _ _ (splitToken_comma _ hc.2), ih2]
      simp

theorem columnTokens_cons (c : Column) (tl : List Column) :
    ∃ more, columnTokens (c :: tl) = c.Name :: more := by
  cases tl with
  | nil => exact ⟨_, rfl⟩
  | cons d rest => exact ⟨_, rfl⟩

theorem columnPieces_end (c : Column) (tl : List Column) :
    ∃ front, columnPieces (c :: tl) = front ++ [[')'], [';']] := by
  induction tl generalizing c with
  | nil => exact ⟨[c.Name, c.Type_], rfl⟩
  | cons d rest ih =>
    obtain ⟨front, hf⟩ := ih d
    exact ⟨c.Name :: c.Type_ :: [','] :: front, by simp [columnPieces, hf]⟩

theorem splitTokens_createTableTokens (T : List Char) (cols : List Column)
    (hn : cols ≠ []) (hT : Plain T) (hc : ∀ c ∈ cols, Plain c.Name ∧ Plain c.Type_) :
    splitTokens (createTableTokens T cols) =
      Result.ok ("create".toList :: "table".toList :: T :: ['('] :: columnPieces cols) := by
  obtain ⟨c, tl, rfl⟩ : ∃ c tl, cols = c :: tl := by
    cases cols with
    | nil => exact absurd rfl hn
    | cons c tl => exact ⟨c, tl, rfl⟩
  obtain ⟨more, hm⟩ := columnTokens_cons c tl
  have hloop := splitTokensLoop_columnTokens (c :: tl)
    ["create".toList, "table".toList, T, ['(']] hc
  rw [hm, splitTokensLoop_cons_ok _ _ _ _ (splitToken_plain _ (hc c (List.mem_cons_self _ _)).1)]
    at hloop
  have hcreate : Plain "create".toList := ⟨by decide, by decide⟩
  have htable : Plain "table".toList := ⟨by decide, by decide⟩
  unfold splitTokens createTableTokens
  rw [hm]
  simp only [List.length_cons]
  rw [if_neg (by omega),
    splitTokensLoop_cons_ok _ _ _ _ (splitToken_plain _ hcreate),
    splitTokensLoop_cons_ok _ _ _ _ (splitToken_plain _ htable),
    splitTokensLoop_cons_ok _ _ _ _ (splitToken_plain _ hT),
    splitTokensLoop_cons_ok _ _ _ _ (splitToken_open _ (hc c (List.mem_cons_self _ _)).1)]
  simpa using hloop

theorem index_append_right {α : Type} (pre l : List α) (i : Int) (k : Nat)
    (h : i = (pre.length : Int) + k) : index (pre ++ l) i = l[k]? := by
  subst h
  unfold index
  rw [if_pos (by omega)]
  have e : ((pre.length : Int) + (k : Int)).toNat = pre.length + k := by omega
  rw [e, List.getElem?_append_right (by omega)]
  simp

theorem parseColumn_ok (U : UnicodeTables) (c : Column) (h1 : isValidIdentifier U c.Name = none)
    (h2 : isValidColumnType U c.Type_ = true) : parseColumn U c.Name c.Type_ = Result.ok c := by
  simp [parseColumn, h1, h2]

theorem parseColumnsLoop_columnPieces (U : UnicodeTables) :
    ∀ (cols : List Column) (pre : List (List Char)) (fuel : Nat) (i : Int) (acc : List Column),
      cols ≠ [] → cols.length ≤ fuel → i = (pre.length : Int) →
      (∀ c ∈ cols, isValidIdentifier U c.Name = none ∧ isValidColumnType U c.Type_ = true) →
      parseColumnsLoop U (pre ++ columnPieces cols) fuel i acc = Result.ok (acc ++ cols) := by
  intro cols
  induction cols with
  | nil => intro pre fuel i acc hn; exact absurd rfl hn
  | cons c tl ih =>
    intro pre fuel i acc _ hf hi h
    have hc := h c (List.mem_cons_self _ _)
    obtain ⟨f, rfl⟩ : ∃ f, fuel = f + 1 := ⟨fuel - 1, by simp at hf; omega⟩
    have hp := parseColumn_ok U c hc.1 hc.2
    cases tl with
    | nil =>
      have hlt : i < (((pre ++ columnPieces [c]).length : Nat) : Int) - 2 := by
        simp only [columnPieces, List.length_append, List.length_cons, List.length_nil]; omega
      have i0 := index_append_right pre (columnPieces [c]) i 0 (by omega)
      have i1 := index_append_right pre (columnPieces [c]) (i + 1) 1 (by omega)
      have i2 := index_append_right pre (columnPieces [c]) (i + 2) 2 (by omega)
      simp only [columnPieces, List.getElem?_cons_zero, List.getElem?_cons_succ] at i0 i1 i2
      unfold parseColumnsLoop
      simp only [columnPieces] at hlt ⊢
      rw [if_pos hlt]
      simp only [i0, i1, i2, hp, if_true]
    | cons d rest =>
      have hlt : i < (((pre ++ columnPieces (c :: d :: rest)).length : Nat) : Int) - 2 := by
        simp only [columnPieces, List.length_append, List.length_cons]; omega
      have i0 := index_append_right pre (columnPieces (c :: d :: rest)) i 0 (by omega)
      have i1 := index_append_right pre (columnPieces (c :: d :: rest)) (i + 1) 1 (by omega)
      have i2 := index_append_right pre (columnPieces (c :: d :: rest)) (i + 2) 2 (by omega)
      simp only [columnPieces, List.getElem?_cons_zero, List.getElem?_cons_succ] at i0 i1 i2
      have ih2 := ih (pre ++ [c.Name, c.Type_, [',']]) f (i + 3) (acc ++ [c]) (by simp)
        (by simp at hf ⊢; omega) (by simp; omega) (fun x hx => h x (List.mem_cons_of_mem _ hx))
      have e : pre ++ [c.Name, c.Type_, [',']] ++ columnPieces (d :: rest)
          = pre ++ c.Name :: c.Type_ :: [','] :: columnPieces (d :: rest) := by
        simp
      rw [e] at ih2
      unfold parseColumnsLoop
      simp only [columnPieces] at hlt ⊢
      rw [if_pos hlt]
      simp only [i0, i1, i2, hp]
      rw [if_neg (by decide), if_neg (by simp), ih2]
      simp

theorem index_cons_succ {α : Type} (a : α) (l : List α) (i : Int) (h : 0 ≤ i) :
    index (a :: l) (i + 1) = index l i := by
  unfold index
  rw [if_pos (by omega), if_pos h]
  have e : (i + 1).toNat = i.toNat + 1 := by omega
  rw [e, List.getElem?_cons_succ]

theorem index_cons_zero {α : Type} (a : α) (l : List α) : index (a :: l) 0 = some a := by
  simp [index]

theorem columnPieces_length (c : Column) (tl : List Column) :
    (columnPieces (c :: tl)).length = 3 * (c :: tl).length + 1 := by
  induction tl generalizing c with
  | nil => rfl
  | cons d rest ih =>
    have h := ih d
    simp only [columnPieces, List.length_cons] at h ⊢
    omega

theorem ToLower_table (U : UnicodeTables) : ToLower U "table".toList = SQLCreateTableTokensTable :=
  IsLetterCaseOf.ToLower_eq U (t := "table".toList) (w := "table".toList) (by decide) (by decide)

/-- C10. `ParseCreateTableStatement` parses a well-formed statement into its columns in
declaration order: for every `n ≥ 1`, every valid identifier `T` and `c1..cn` and all types
`t1..tn` that are `int` or `text` in any letter case, the tokens `create`, `table`, `T`, `(c1`,
`t1,`, ..., `cn`, `tn);` give no error and the list of the columns `(c1, t1)`, ..., `(cn, tn)`,
each type spelled as in the input. -/
theorem ParseCreateTableStatement_wellFormed (U : UnicodeTables) (T : List Char)
    (cols : List Column) (hn : 1 ≤ cols.length) (hT : isValidIdentifier U T = none)
    (hc : ∀ c ∈ cols, isValidIdentifier U c.Name = none ∧
      (IsLetterCaseOf c.Type_ "int".toList ∨ IsLetterCaseOf c.Type_ "text".toList)) :
    ParseCreateTableStatement U (createTableTokens T cols) = Result.ok cols := by
  have hne : cols ≠ [] := by
    intro e; rw [e] at hn; exact absurd hn (by decide)
  have hplain : ∀ c ∈ cols, Plain c.Name ∧ Plain c.Type_ := fun c m =>
    ⟨isValidIdentifier_plain U _ (hc c m).1, (columnType_facts U _ (hc c m).2).2⟩
  have hvalid : ∀ c ∈ cols, isValidIdentifier U c.Name = none ∧ isValidColumnType U c.Type_ = true :=
    fun c m => ⟨(hc c m).1, (columnType_facts U _ (hc c m).2).1⟩
  have hsplit := splitTokens_createTableTokens T cols hne (isValidIdentifier_plain U T hT) hplain
  have hloop := parseColumnsLoop_columnPieces U cols ["create".toList, "table".toList, T, ['(']]
    ("create".toList :: "table".toList :: T :: ['('] :: columnPieces cols).length 4 []
    hne (by
      obtain ⟨c, tl, rfl⟩ : ∃ c tl, cols = c :: tl := by
        cases cols with
        | nil => exact absurd rfl hne
        | cons c tl => exact ⟨c, tl, rfl⟩
      have hl := columnPieces_length c tl
      simp only [List.length_cons] at hl ⊢; omega) (by simp) hvalid
  obtain ⟨c, tl, rfl⟩ : ∃ c tl, cols = c :: tl := by
    cases cols with
    | nil => exact absurd rfl hne
    | cons c tl => exact ⟨c, tl, rfl⟩
  obtain ⟨front, hfront⟩ := columnPieces_end c tl
  have e : "create".toList :: "table".toList :: T :: ['('] :: columnPieces (c :: tl)
      = ["create".toList, "table".toList, T, ['(']] ++ columnPieces (c :: tl) := rfl
  have e2 : "create".toList :: "table".toList :: T :: ['('] :: columnPieces (c :: tl)
      = (["create".toList, "table".toList, T, ['(']] ++ front) ++ [[')'], [';']] := by
    rw [e, hfront]; simp
  have hlen : ¬ ((("create".toList :: "table".toList :: T :: ['('] ::
      columnPieces (c :: tl)).length : Nat) : Int) < MinSQLCreateTableTokens := by
    rw [e2]
    have : 2 ≤ front.length := by
      have hl := congrArg List.length hfront
      rw [columnPieces_length c tl] at hl
      simp only [List.length_append, List.length_cons, List.length_nil] at hl
      omega
    simp only [List.length_append, List.length_cons, List.length_nil, MinSQLCreateTableTokens]
    omega
  have hlast : index ("create".toList :: "table".toList :: T :: ['('] :: columnPieces (c :: tl))
      (((("create".toList :: "table".toList :: T :: ['('] ::
        columnPieces (c :: tl)).length : Nat) : Int) - 1) = some [';'] := by
    rw [e2, index_append_right _ _ _ 1 (by
      simp only [List.length_append, List.length_cons, List.length_nil]; omega)]
    rfl
  have hbefore : index ("create".toList :: "table".toList :: T :: ['('] :: columnPieces (c :: tl))
      (((("create".toList :: "table".toList :: T :: ['('] ::
        columnPieces (c :: tl)).length : Nat) : Int) - 2) = some [')'] := by
    rw [e2, index_append_right _ _ _ 0 (by
      simp only [List.length_append, List.length_cons, List.length_nil]; omega)]
    rfl
  have h1 : index ("create".toList :: "table".toList :: T :: ['('] :: columnPieces (c :: tl)) 1
      = some "table".toList := by
    rw [show (1 : Int) = 0 + 1 from rfl, index_cons_succ _ _ _ (le_refl _), index_cons_zero]
  have h2 : index ("create".toList :: "table".toList :: T :: ['('] :: columnPieces (c :: tl)) 2
      = some T := by
    rw [show (2 : Int) = 0 + 1 + 1 from rfl, index_cons_succ _ _ _ (by decide),
      index_cons_succ _ _ _ (le_refl _), index_cons_zero]
  have h3 : index ("create".toList :: "table".toList :: T :: ['('] :: columnPieces (c :: tl)) 3
      = some ['('] := by
    rw [show (3 : Int) = 0 + 1 + 1 + 1 from rfl, index_cons_succ _ _ _ (by decide),
      index_cons_succ _ _ _ (by decide), index_cons_succ _ _ _ (le_refl _), index_cons_zero]
  rw [e] at hloop
  unfold ParseCreateTableStatement
  rw [hsplit]
  simp only [if_neg hlen, h1, h2, h3, hT, hlast, hbefore, ToLower_table, ne_eq,
    not_true_eq_false, if_false]
  rw [← e] at hloop
  simpa using hloop

/-- Witness for `ParseCreateTableStatement_wellFormed`: the statement of the test
`valid create with two columns`, `create table users (id INT, email TEXT);`. -/
theorem ParseCreateTableStatement_wellFormed_witness :
    (1 ≤ ([⟨"id".toList, "INT".toList⟩, ⟨"email".toList, "TEXT".toList⟩] : List Column).length ∧
      isValidIdentifier asciiTables "users".toList = none ∧
      (∀ c ∈ ([⟨"id".toList, "INT".toList⟩, ⟨"email".toList, "TEXT".toList⟩] : List Column),
        isValidIdentifier asciiTables c.Name = none ∧
        (IsLetterCaseOf c.Type_ "int".toList ∨ IsLetterCaseOf c.Type_ "text".toList))) ∧
    createTableTokens "users".toList
        [⟨"id".toList, "INT".toList⟩, ⟨"email".toList, "TEXT".toList⟩] =
      sqlTokens "create table users (id INT, email TEXT);".toList ∧
    ParseCreateTableStatement asciiTables
        (createTableTokens "users".toList
          [⟨"id".toList, "INT".toList⟩, ⟨"email".toList, "TEXT".toList⟩]) =
      Result.ok [⟨"id".toList, "INT".toList⟩, ⟨"email".toList, "TEXT".toList⟩] :=
  ⟨⟨by decide, by decide, by decide⟩, by decide,
    ParseCreateTableStatement_wellFormed asciiTables "users".toList
      [⟨"id".toList, "INT".toList⟩, ⟨"email".toList, "TEXT".toList⟩]
      (by decide) (by decide) (by decide)⟩

theorem isValidIdentifierLoop_later (U : UnicodeTables) :
    ∀ (s : List Char) (i : Nat), i ≠ 0 →
      (isValidIdentifierLoop U i s = none ↔
        ∀ ch ∈ s, IsLetter U ch = true ∨ IsDigit U ch = true ∨ ch = '_') := by
  intro s
  induction s with
  | nil => intro i _; simp [isValidIdentifierLoop]
  | cons a s ih =>
    intro i hi
    unfold isValidIdentifierLoop
    rw [if_neg hi]
    by_cases hc : (!IsLetter U a && !IsDigit U a && a != '_') = true
    · rw [if_pos hc]
      simp only [Bool.and_eq_true, Bool.not_eq_true', bne_iff_ne, ne_eq] at hc
      constructor
      · intro h; cases h
      · intro h
        rcases h a (List.mem_cons_self _ _) with h1 | h1 | h1
        · rw [hc.1.1] at h1; cases h1
        · rw [hc.1.2] at h1; cases h1
        · exact absurd h1 hc.2
    · rw [if_neg hc, ih (i + 1) (by omega)]
      have ha : IsLetter U a = true ∨ IsDigit U a = true ∨ a = '_' := by
        by_cases h1 : IsLetter U a = true
        · exact Or.inl h1
        · by_cases h2 : IsDigit U a = true
          · exact Or.inr (Or.inl h2)
          · by_cases h3 : a = '_'
            · exact Or.inr (Or.inr h3)
            · exact absurd (by simp [h1, h2, h3]) hc
      constructor
      · intro h ch hch
        rcases List.mem_cons.mp hch with rfl | hm
        · exact ha
        · exact h ch hm
      · intro h ch hch
        exact h ch (List.mem_cons_of_mem _ hch)

theorem isValidIdentifier_iff_wellFormed (U : UnicodeTables) (s : List Char) :
    isValidIdentifier U s = none ↔ WellFormedIdentifier U s := by
  cases s with
  | nil => simp [isValidIdentifier, WellFormedIdentifier]
  | cons a s =>
    unfold isValidIdentifier WellFormedIdentifier
    rw [if_neg (by simp)]
    unfold isValidIdentifierLoop
    rw [if_pos rfl]
    by_cases hc : (!IsLetter U a && a != '_') = true
    · rw [if_pos hc]
      simp only [Bool.and_eq_true, Bool.not_eq_true', bne_iff_ne, ne_eq] at hc
      constructor
      · intro h; cases h
      · intro h
        rcases h.1 with h1 | h1
        · rw [hc.1] at h1; cases h1
        · exact absurd h1 hc.2
    · rw [if_neg hc, isValidIdentifierLoop_later U s 1 (by decide)]
      have ha : IsLetter U a = true ∨ a = '_' := by
        by_cases h1 : IsLetter U a = true
        · exact Or.inl h1
        · by_cases h3 : a = '_'
          · exact Or.inr h3
          · exact absurd (by simp [h1, h3]) hc
      exact ⟨fun h => ⟨ha, h⟩, fun h => h.2⟩

/-- C19. `isValidIdentifier` accepts exactly the well-formed identifiers: it returns no error if
and only if the string is non-empty, its first character is a letter or an underscore, and every
later character is a letter, a digit or an underscore. -/
theorem isValidIdentifier_exact (U : UnicodeTables) (name : List Char) :
    isValidIdentifier U name = none ↔
      (name ≠ [] ∧
        (∀ first ∈ name.head?, IsLetter U first = true ∨ first = '_') ∧
        ∀ ch ∈ name.tail, IsLetter U ch = true ∨ IsDigit U ch = true ∨ ch = '_') := by
  rw [isValidIdentifier_iff_wellFormed]
  cases name with
  | nil => simp [WellFormedIdentifier]
  | cons a s => simp [WellFormedIdentifier]

theorem HasSuffix_iff (s suffix : List Char) :
    HasSuffix s suffix = true ↔ ∃ w, s = w ++ suffix := by
  unfold HasSuffix
  rw [List.isSuffixOf_iff_suffix]
  constructor
  · rintro ⟨w, hw⟩; exact ⟨w, hw.symm⟩
  · rintro ⟨w, hw⟩; exact ⟨w, hw.symm⟩

theorem HasPrefix_singleton_iff (s : List Char) (c : Char) :
    HasPrefix s [c] = true ↔ ∃ w, s = c :: w := by
  cases s with
  | nil => simp [HasPrefix, List.isPrefixOf]
  | cons a w =>
    simp only [HasPrefix, List.isPrefixOf, Bool.and_true, beq_iff_eq, List.cons.injEq]
    constructor
    · intro h; exact ⟨w, h.symm, rfl⟩
    · rintro ⟨w2, h1, _⟩; exact h1.symm

theorem slice_one_append (c : Char) (m t : List Char) (hi : Int) (h : hi = (m.length : Int) + 1) :
    slice (c :: (m ++ t)) 1 hi = some m := by
  subst h
  unfold slice
  rw [if_pos ⟨by omega, by omega, by
    simp only [List.length_cons, List.length_append]; omega⟩]
  have e : ((m.length : Int) + 1).toNat = m.length + 1 := by omega
  simp [e]

/-- What one pass of the loop of `splitTokens` appends: pieces that concatenate to the trimmed
token, none of them empty unless the trimmed token is. -/
theorem splitToken_pieces (token0 : List Char) (pieces : List (List Char))
    (h : splitToken token0 = Result.ok pieces) :
    pieces.flatten = TrimSuffix token0 ['\n'] ∧
    (TrimSuffix token0 ['\n'] ≠ [] → ∀ p ∈ pieces, p ≠ []) := by
  unfold splitToken at h
  generalize TrimSuffix token0 ['\n'] = token at h ⊢
  simp only at h
  split at h
  · -- "(x,"
    rename_i hc
    simp only [Bool.and_eq_true] at hc
    obtain ⟨w, rfl⟩ := (HasPrefix_singleton_iff _ _).mp hc.1
    obtain ⟨v, hv⟩ := (HasSuffix_iff _ _).mp hc.2
    split at h
    · cases h
    · rename_i hlen
      have hw : w ≠ [] := by
        intro e; subst e
        simp only [List.length_cons, List.length_append, List.length_nil, List.length_singleton] at hlen; omega
      obtain ⟨m, rfl⟩ : ∃ m, w = m ++ [','] := by
        cases v with
        | nil => simp at hv
        | cons a v' =>
          simp only [List.cons_append, List.cons.injEq] at hv
          exact ⟨v', hv.2⟩
      rw [slice_one_append '(' m [','] _
        (by simp only [List.length_cons, List.length_append, List.length_nil, List.length_singleton]; omega)] at h
      simp only [Result.ok.injEq] at h
      subst h
      have hm : m ≠ [] := by
        intro e; subst e
        simp only [List.length_cons, List.length_append, List.length_nil, List.length_singleton, List.nil_append] at hlen
        omega
      refine ⟨by simp, fun _ p hp => ?_⟩
      simp only [List.mem_cons, List.mem_singleton, List.not_mem_nil, or_false] at hp
      rcases hp with rfl | rfl | rfl
      · simp
      · exact hm
      · simp
  · split at h
    · -- "x);"
      rename_i hc
      obtain ⟨w, rfl⟩ := (HasSuffix_iff _ _).mp hc
      split at h
      · cases h
      · rename_i hlen
        have e1 : w ++ [')', ';'] = (w ++ [')']) ++ [';'] := by simp
        have s1 : slice (w ++ [')', ';']) 0 ((((w ++ [')', ';']).length : Nat) : Int) - 1)
            = some (w ++ [')']) := by
          rw [e1]
          exact slice_zero_append _ _ _
            (by simp only [List.length_cons, List.length_append, List.length_nil, List.length_singleton]; omega)
        have s2 : slice (w ++ [')', ';']) 0 ((((w ++ [')', ';']).length : Nat) : Int) - 2)
            = some w :=
          slice_zero_append _ _ _
            (by simp only [List.length_cons, List.length_append, List.length_nil, List.length_singleton]; omega)
        simp only [s1, s2, HasSuffix_append_self] at h
        simp only [Bool.not_true, Bool.false_eq_true, if_false, Result.ok.injEq] at h
        subst h
        have hw : w ≠ [] := by
          intro e; subst e
          simp only [List.length_cons, List.length_append, List.length_nil, List.length_singleton, List.nil_append] at hlen
          omega
        refine ⟨by simp, fun _ p hp => ?_⟩
        simp only [List.mem_cons, List.mem_singleton, List.not_mem_nil, or_false] at hp
        rcases hp with rfl | rfl | rfl
        · exact hw
        · simp
        · simp
    · split at h
      · -- "x,"
        rename_i hc
        obtain ⟨w, rfl⟩ := (HasSuffix_iff _ _).mp hc
        split at h
        · cases h
        · rename_i hlen
          rw [slice_zero_append w [','] _
            (by simp only [List.length_cons, List.length_append, List.length_nil, List.length_singleton]; omega)] at h
          simp only [Result.ok.injEq] at h
          subst h
          have hw : w ≠ [] := by
            intro e; subst e
            simp only [List.length_cons, List.length_append, List.length_nil, List.length_singleton, List.nil_append] at hlen
            omega
          refine ⟨by simp, fun _ p hp => ?_⟩
          simp only [List.mem_cons, List.mem_singleton, List.not_mem_nil, or_false] at hp
          rcases hp with rfl | rfl
          · exact hw
          · simp
      · split at h
        · -- "(x"
          rename_i hc
          obtain ⟨w, rfl⟩ := (HasPrefix_singleton_iff _ _).mp hc
          split at h
          · cases h
          · rename_i hlen
            rw [slice_one_cons '(' w _ (by simp only [List.length_cons, List.length_append, List.length_nil, List.length_singleton]; omega)] at h
            simp only [Result.ok.injEq] at h
            subst h
            have hw : w ≠ [] := by
              intro e; subst e
              simp only [List.length_cons, List.length_append, List.length_nil, List.length_singleton] at hlen
              exact hlen rfl
            refine ⟨by simp, fun _ p hp => ?_⟩
            simp only [List.mem_cons, List.mem_singleton, List.not_mem_nil, or_false] at hp
            rcases hp with rfl | rfl
            · simp
            · exact hw
        · split at h
          · -- "x)"
            rename_i hc
            obtain ⟨w, rfl⟩ := (HasSuffix_iff _ _).mp hc
            split at h
            · cases h
            · rename_i hlen
              rw [slice_zero_append w [')'] _
                (by simp only [List.length_cons, List.length_append, List.length_nil, List.length_singleton]; omega)] at h
              simp only [Result.ok.injEq] at h
              subst h
              have hw : w ≠ [] := by
                intro e; subst e
                simp only [List.length_cons, List.length_append, List.length_nil, List.length_singleton, List.nil_append] at hlen
                omega
              refine ⟨by simp, fun _ p hp => ?_⟩
              simp only [List.mem_cons, List.mem_singleton, List.not_mem_nil, or_false] at hp
              rcases hp with rfl | rfl
              · exact hw
              · simp
          · split at h
            · -- "x;"
              rename_i hc
              obtain ⟨w, rfl⟩ := (HasSuffix_iff _ _).mp hc
              split at h
              · cases h
              · rename_i hlen
                rw [slice_zero_append w [';'] _
                  (by simp only [List.length_cons, List.length_append, List.length_nil, List.length_singleton]; omega)] at h
                simp only [Result.ok.injEq] at h
                subst h
                have hw : w ≠ [] := by
                  intro e; subst e
                  simp only [List.length_cons, List.length_append, List.length_nil, List.length_singleton, List.nil_append] at hlen
                  omega
                refine ⟨by simp, fun _ p hp => ?_⟩
                simp only [List.mem_cons, List.mem_singleton, List.not_mem_nil, or_false] at hp
                rcases hp with rfl | rfl
                · exact hw
                · simp
            · simp only [Result.ok.injEq] at h
              subst h
              refine ⟨by simp, fun hne p hp => ?_⟩
              simp only [List.mem_singleton] at hp
              subst hp
              exact hne

theorem splitTokensLoop_pieces :
    ∀ (tokens output res : List (List Char)), splitTokensLoop tokens output = Result.ok res →
      ∃ pieces, res = output ++ pieces ∧
        pieces.flatten = (tokens.map fun t => TrimSuffix t ['\n']).flatten ∧
        ((∀ t ∈ tokens, TrimSuffix t ['\n'] ≠ []) → ∀ p ∈ pieces, p ≠ []) := by
  intro tokens
  induction tokens with
  | nil =>
    intro output res h
    simp only [splitTokensLoop, Result.ok.injEq] at h
    exact ⟨[], by simp [h], rfl, fun _ p hp => by cases hp⟩
  | cons token rest ih =>
    intro output res h
    unfold splitTokensLoop at h
    split at h
    · rename_i pieces hp
      obtain ⟨more, hres, hflat, hne⟩ := ih _ _ h
      obtain ⟨h1, h2⟩ := splitToken_pieces token pieces hp
      refine ⟨pieces ++ more, by rw [hres, List.append_assoc], ?_, ?_⟩
      · simp only [List.flatten_append, List.map_cons, List.flatten_cons, h1, hflat]
      · intro hall p hp
        rcases List.mem_append.mp hp with hm | hm
        · exact h2 (hall token (List.mem_cons_self _ _)) p hm
        · exact hne (fun t ht => hall t (List.mem_cons_of_mem _ ht)) p hm
    · cases h
    · cases h

/-- C20. `splitTokens` only cuts tokens apart: when it succeeds, the output tokens concatenated in
order are the input tokens, each without one trailing newline, concatenated in order; and when no
input token is empty after that trim, no output token is empty. -/
theorem splitTokens_only_cuts (tokens output : List (List Char))
    (h : splitTokens tokens = Result.ok output) :
    output.flatten = (tokens.map fun t => TrimSuffix t ['\n']).flatten ∧
    ((∀ t ∈ tokens, TrimSuffix t ['\n'] ≠ []) → ∀ o ∈ output, o ≠ []) := by
  unfold splitTokens at h
  split at h
  · cases h
  · obtain ⟨pieces, hres, hflat, hne⟩ := splitTokensLoop_pieces tokens [] output h
    simp only [List.nil_append] at hres
    subst hres
    exact ⟨hflat, hne⟩

/-- Witness for `splitTokens_only_cuts`: the statement `create table users (id INT, email TEXT);`
of the tests, with a newline at its end. -/
theorem splitTokens_only_cuts_witness :
    splitTokens (sqlTokens "create table users (id INT, email TEXT);\n".toList) =
      Result.ok ["create".toList, "table".toList, "users".toList, "(".toList, "id".toList,
        "INT".toList, ",".toList, "email".toList, "TEXT".toList, ")".toList, ";".toList] ∧
    (["create".toList, "table".toList, "users".toList, "(".toList, "id".toList,
        "INT".toList, ",".toList, "email".toList, "TEXT".toList, ")".toList,
        ";".toList] : List (List Char)).flatten =
      ((sqlTokens "create table users (id INT, email TEXT);\n".toList).map
        fun t => TrimSuffix t ['\n']).flatten ∧
    ((∀ t ∈ sqlTokens "create table users (id INT, email TEXT);\n".toList,
        TrimSuffix t ['\n'] ≠ []) →
      ∀ o ∈ (["create".toList, "table".toList, "users".toList, "(".toList, "id".toList,
        "INT".toList, ",".toList, "email".toList, "TEXT".toList, ")".toList,
        ";".toList] : List (List Char)), o ≠ []) :=
  ⟨by decide, splitTokens_only_cuts _ _ (by decide)⟩

theorem ParseInsertStatement_ok_inv (U : UnicodeTables) (tokens : List (List Char))
    (d : InsertStatementData) (h : ParseInsertStatement U tokens = Result.ok d) :
    ∃ st cols vals,
      splitTokens tokens = Result.ok st ∧
      ¬ (st.length : Int) < MinSQLInsertTokens ∧
      index st 2 = some d.TableName ∧
      isValidIdentifier U d.TableName = none ∧
      parseColumnsList st 4 (findKeywordIndex U st "values".toList) = some cols ∧
      insertValues st (findKeywordIndex U st "values".toList) ((st.length : Int) - 2) = some vals ∧
      cols.length = vals.length ∧
      insertPairsLoop vals cols 0 [] = some d.Pairs := by
  unfold ParseInsertStatement at h
  repeat (first
    | (split at h <;> first | contradiction | skip)
    | (simp only [] at h))
  simp only [Result.ok.injEq] at h
  subst h
  exact ⟨_, _, _, ‹_›, ‹_›, ‹_›, ‹_›, ‹_›, ‹_›, by simpa using ‹¬ _ ≠ _›, ‹_›⟩

theorem ParseSelectStatement_ok_inv (U : UnicodeTables) (tokens : List (List Char))
    (d : SelectStatementData) (h : ParseSelectStatement U tokens = Result.ok d) :
    ∃ st,
      splitTokens tokens = Result.ok st ∧
      ¬ (st.length : Int) < MinSQLSelectTokens ∧
      index st (findKeywordIndex U st "from".toList + 1) = some d.TableName ∧
      isValidIdentifier U d.TableName = none ∧
      parseColumnsList st 1 (findKeywordIndex U st "from".toList) = some d.Columns := by
  unfold ParseSelectStatement at h
  repeat (first
    | (split at h <;> first | contradiction | skip)
    | (simp only [] at h))
  simp only [Result.ok.injEq] at h
  subst h
  exact ⟨_, ‹_›, ‹_›, ‹_›, ‹_›, ‹_›⟩

theorem ParseCreateTableStatement_ok_inv (U : UnicodeTables) (tokens : List (List Char))
    (cols : List Column) (h : ParseCreateTableStatement U tokens = Result.ok cols) :
    ∃ st name,
      splitTokens tokens = Result.ok st ∧
      ¬ (st.length : Int) < MinSQLCreateTableTokens ∧
      index st 2 = some name ∧
      isValidIdentifier U name = none ∧
      parseColumnsLoop U st st.length 4 [] = Result.ok cols := by
  unfold ParseCreateTableStatement at h
  repeat (first
    | (split at h <;> first | contradiction | skip)
    | (simp only [] at h))
  exact ⟨_, _, ‹_›, ‹_›, ‹_›, ‹_›, h⟩

/-- C15. A statement with an invalid table name is never accepted: when
`ParseCreateTableStatement` succeeds, the third token after splitting is a valid identifier, and
when `ParseInsertStatement` or `ParseSelectStatement` succeeds, the returned `TableName` is one:
non-empty, starting with a letter or an underscore and continuing with letters, digits or
underscores. -/
theorem table_name_validated (U : UnicodeTables) (tokens : List (List Char)) :
    (∀ cols, ParseCreateTableStatement U tokens = Result.ok cols →
      ∃ st name, splitTokens tokens = Result.ok st ∧ index st 2 = some name ∧
        isValidIdentifier U name = none ∧ WellFormedIdentifier U name) ∧
    (∀ d, ParseInsertStatement U tokens = Result.ok d →
      isValidIdentifier U d.TableName = none ∧ WellFormedIdentifier U d.TableName) ∧
    (∀ d, ParseSelectStatement U tokens = Result.ok d →
      isValidIdentifier U d.TableName = none ∧ WellFormedIdentifier U d.TableName) := by
  refine ⟨fun cols h => ?_, fun d h => ?_, fun d h => ?_⟩
  · obtain ⟨st, name, h1, -, h2, h3, -⟩ := ParseCreateTableStatement_ok_inv U tokens cols h
    exact ⟨st, name, h1, h2, h3, (isValidIdentifier_iff_wellFormed U name).mp h3⟩
  · obtain ⟨st, cols, vals, -, -, -, h3, -⟩ := ParseInsertStatement_ok_inv U tokens d h
    exact ⟨h3, (isValidIdentifier_iff_wellFormed U _).mp h3⟩
  · obtain ⟨st, -, -, -, h3, -⟩ := ParseSelectStatement_ok_inv U tokens d h
    exact ⟨h3, (isValidIdentifier_iff_wellFormed U _).mp h3⟩

theorem isValidColumnType_iff (U : UnicodeTables) (t : List Char) :
    isValidColumnType U t = true ↔ ToLower U t = "int".toList ∨ ToLower U t = "text".toList := by
  unfold isValidColumnType
  by_cases h1 : ToLower U t = "int".toList
  · simp [h1]
  · by_cases h2 : ToLower U t = "text".toList
    · simp [h2]
    · simp [h1, h2]

theorem parseColumn_ok_inv (U : UnicodeTables) (name typeStr : List Char) (col : Column)
    (h : parseColumn U name typeStr = Result.ok col) :
    col = { Name := name, Type_ := typeStr } ∧ isValidIdentifier U name = none ∧
      isValidColumnType U typeStr = true := by
  unfold parseColumn at h
  split at h
  · cases h
  · rename_i hv
    split at h
    · cases h
    · rename_i ht
      simp only [Result.ok.injEq] at h
      exact ⟨h.symm, hv, by simpa using ht⟩

theorem parseColumnsLoop_ok_inv (U : UnicodeTables) (st : List (List Char)) :
    ∀ (fuel : Nat) (i : Int) (acc cols : List Column),
      parseColumnsLoop U st fuel i acc = Result.ok cols →
      ∃ new, cols = acc ++ new ∧
        (∀ c ∈ new, isValidIdentifier U c.Name = none ∧ isValidColumnType U c.Type_ = true) ∧
        (0 < fuel → i < (st.length : Int) - 2 → new ≠ []) := by
  intro fuel
  induction fuel with
  | zero =>
    intro i acc cols h
    simp only [parseColumnsLoop, Result.ok.injEq] at h
    exact ⟨[], by simp [h], fun c hc => (List.not_mem_nil c hc).elim, fun h0 => absurd h0 (by decide)⟩
  | succ fuel ih =>
    intro i acc cols h
    unfold parseColumnsLoop at h
    split at h
    · split at h
      · cases h
      · split at h
        · split at h
          · split at h
            · rename_i col hcol
              simp only [Result.ok.injEq] at h
              obtain ⟨hce, hv, ht⟩ := parseColumn_ok_inv U _ _ _ hcol
              refine ⟨[col], h.symm, ?_, fun _ _ => by simp⟩
              intro c hc
              simp only [List.mem_singleton] at hc
              rw [hc, hce]
              exact ⟨hv, ht⟩
            · cases h
            · cases h
          · cases h
        · split at h
          · cases h
          · split at h
            · split at h
              · rename_i col hcol
                obtain ⟨hce, hv, ht⟩ := parseColumn_ok_inv U _ _ _ hcol
                obtain ⟨new, hnew, hall, -⟩ := ih _ _ _ h
                refine ⟨col :: new, by rw [hnew]; simp, ?_, fun _ _ => by simp⟩
                intro c hc
                rcases List.mem_cons.mp hc with hm | hm
                · rw [hm, hce]
                  exact ⟨hv, ht⟩
                · exact hall c hm
              · cases h
              · cases h
            · cases h
    · rename_i hlt
      simp only [Result.ok.injEq] at h
      exact ⟨[], by simp [h], fun c hc => (List.not_mem_nil c hc).elim, fun _ hi => absurd hi hlt⟩

/-- C17. Table-creation data leaves the parser validated: whenever `ParseCreateTableStatement`
succeeds, the returned column list is non-empty, every column `Name` is a valid identifier and
every column `Type` lower-cases to `int` or `text`. -/
theorem ParseCreateTableStatement_validated (U : UnicodeTables) (tokens : List (List Char))
    (cols : List Column) (h : ParseCreateTableStatement U tokens = Result.ok cols) :
    cols ≠ [] ∧
    ∀ c ∈ cols, isValidIdentifier U c.Name = none ∧
      (ToLower U c.Type_ = "int".toList ∨ ToLower U c.Type_ = "text".toList) := by
  obtain ⟨st, name, -, hlen, -, -, hloop⟩ := ParseCreateTableStatement_ok_inv U tokens cols h
  obtain ⟨new, hnew, hall, hne⟩ := parseColumnsLoop_ok_inv U st _ _ _ _ hloop
  simp only [List.nil_append] at hnew
  subst hnew
  have hl : (8 : Int) ≤ st.length := by
    simp only [MinSQLCreateTableTokens] at hlen; omega
  refine ⟨hne (by omega) (by omega), fun c hc => ?_⟩
  exact ⟨(hall c hc).1, (isValidColumnType_iff U _).mp (hall c hc).2⟩

theorem index_ne_none {α : Type} (s : List α) (i : Int) (h0 : 0 ≤ i) (h1 : i < (s.length : Int)) :
    index s i ≠ none := by
  unfold index
  rw [if_pos h0]
  intro h
  rw [List.getElem?_eq_none_iff] at h
  omega

theorem findKeywordIndexLoop_range (U : UnicodeTables) (keyword : List Char) :
    ∀ (tokens : List (List Char)) (i : Int), 0 ≤ i →
      findKeywordIndexLoop U keyword tokens i = -1 ∨
        (i ≤ findKeywordIndexLoop U keyword tokens i ∧
          findKeywordIndexLoop U keyword tokens i < i + (tokens.length : Int)) := by
  intro tokens
  induction tokens with
  | nil => intro i _; exact Or.inl rfl
  | cons t rest ih =>
    intro i hi
    unfold findKeywordIndexLoop
    by_cases hk : ToLower U t = keyword
    · rw [if_pos hk]
      right
      simp only [List.length_cons]; omega
    · rw [if_neg hk]
      rcases ih (i + 1) (by omega) with h | h
      · exact Or.inl h
      · right
        simp only [List.length_cons]; omega

theorem findKeywordIndex_range (U : UnicodeTables) (tokens : List (List Char))
    (keyword : List Char) :
    findKeywordIndex U tokens keyword = -1 ∨
      (0 ≤ findKeywordIndex U tokens keyword ∧
        findKeywordIndex U tokens keyword < (tokens.length : Int)) := by
  have h := findKeywordIndexLoop_range U keyword tokens 0 (le_refl _)
  unfold findKeywordIndex
  rcases h with h | h
  · exact Or.inl h
  · exact Or.inr ⟨h.1, by omega⟩

theorem mapSet_length (pairs : List (List Char × List Char)) (key value : List Char) :
    (mapSet pairs key value).length ≤ pairs.length + 1 := by
  unfold mapSet
  split
  · simp
  · simp

theorem insertPairsLoop_length (values : List (List Char)) :
    ∀ (columns : List (List Char)) (i : Int) (pairs out : List (List Char × List Char)),
      insertPairsLoop values columns i pairs = some out →
      out.length ≤ pairs.length + columns.length := by
  intro columns
  induction columns with
  | nil =>
    intro i pairs out h
    simp only [insertPairsLoop, Option.some.injEq] at h
    simp [h]
  | cons c rest ih =>
    intro i pairs out h
    unfold insertPairsLoop at h
    split at h
    · cases h
    · have h1 := ih _ _ _ h
      have h2 := mapSet_length pairs c ‹_›
      simp only [List.length_cons]
      omega

theorem splitToken_open_comma (w : List Char) (h : Plain w) :
    splitToken ('(' :: (w ++ [','])) = Result.ok [['('], w, [',']] := by
  obtain ⟨h1, h2, h3, h4, h5⟩ := h.not_mem
  have hne : w ≠ [] := h.1
  have m5 : '\n' ∉ '(' :: (w ++ [',']) := by simp [h5]
  have hlen : ¬ (((('(' :: (w ++ [','])).length : Nat) : Int) < 3) := by
    have : 0 < w.length := List.length_pos.mpr hne
    simp only [List.length_cons, List.length_append, List.length_nil]; omega
  have hs : HasSuffix ('(' :: (w ++ [','])) [','] = true :=
    HasSuffix_append_self ('(' :: w) [',']
  have s1 : slice ('(' :: (w ++ [','])) 1 (((('(' :: (w ++ [','])).length : Nat) : Int) - 1)
      = some w :=
    slice_one_append _ _ _ _
      (by simp only [List.length_cons, List.length_append, List.length_nil]; omega)
  unfold splitToken
  simp only [TrimSuffix_of_not_mem _ _ m5, HasPrefix_cons_self, hs, s1, if_neg hlen]
  simp

theorem splitToken_paren (w : List Char) (h : Plain w) :
    splitToken (w ++ [')']) = Result.ok [w, [')']] := by
  obtain ⟨h1, h2, h3, h4, h5⟩ := h.not_mem
  have hne : w ≠ [] := h.1
  have m1 : '(' ∉ w ++ [')'] := by simp [h1]
  have m3 : ',' ∉ w ++ [')'] := by simp [h3]
  have m4 : ';' ∉ w ++ [')'] := by simp [h4]
  have m5 : '\n' ∉ w ++ [')'] := by simp [h5]
  have hlen : ¬ (((w ++ [')']).length : Nat) : Int) < 2 := by
    have : 0 < w.length := List.length_pos.mpr hne
    simp only [List.length_append, List.length_cons, List.length_nil]; omega
  have s1 : slice (w ++ [')']) 0 ((((w ++ [')']).length : Nat) : Int) - 1) = some w :=
    slice_zero_append _ _ _
      (by simp only [List.length_append, List.length_cons, List.length_nil]; omega)
  unfold splitToken
  simp only [TrimSuffix_of_not_mem _ _ m5, HasPrefix_singleton_of_not_mem _ _ m1,
    HasSuffix_append_self, HasSuffix_singleton_of_not_mem _ _ m3,
    HasSuffix_pair_of_not_mem _ _ _ m4, s1, if_neg hlen]
  simp

theorem splitToken_semicolon (w : List Char) (h : Plain w) :
    splitToken (w ++ [';']) = Result.ok [w, [';']] := by
  obtain ⟨h1, h2, h3, h4, h5⟩ := h.not_mem
  have hne : w ≠ [] := h.1
  have m1 : '(' ∉ w ++ [';'] := by simp [h1]
  have m2 : ')' ∉ w ++ [';'] := by simp [h2]
  have m3 : ',' ∉ w ++ [';'] := by simp [h3]
  have m5 : '\n' ∉ w ++ [';'] := by simp [h5]
  have hlen : ¬ (((w ++ [';']).length : Nat) : Int) < 2 := by
    have : 0 < w.length := List.length_pos.mpr hne
    simp only [List.length_append, List.length_cons, List.length_nil]; omega
  have s1 : slice (w ++ [';']) 0 ((((w ++ [';']).length : Nat) : Int) - 1) = some w :=
    slice_zero_append _ _ _
      (by simp only [List.length_append, List.length_cons, List.length_nil]; omega)
  have hp : HasSuffix (w ++ [';']) [')', ';'] = false := by
    rw [Bool.eq_false_iff]
    intro hs
    obtain ⟨v, hv⟩ := (HasSuffix_iff _ _).mp hs
    have e : v ++ [')', ';'] = (v ++ [')']) ++ [';'] := by simp
    rw [e] at hv
    have := List.append_inj_left' hv rfl
    exact h2 (this ▸ by simp)
  unfold splitToken
  simp only [TrimSuffix_of_not_mem _ _ m5, HasPrefix_singleton_of_not_mem _ _ m1,
    HasSuffix_append_self, HasSuffix_singleton_of_not_mem _ _ m3,
    HasSuffix_singleton_of_not_mem _ _ m2, hp, s1, if_neg hlen]
  simp

theorem splitTokensLoop_listTokens (closing : List Char) (cp : List (List Char))
    (hclose : ∀ x, Plain x → splitToken (x ++ closing) = Result.ok (x :: cp)) :
    ∀ (xs more output : List (List Char)), xs ≠ [] → (∀ x ∈ xs, Plain x) →
      splitTokensLoop (listTokens closing xs ++ more) output =
        splitTokensLoop more (output ++ commaSeparated xs ++ cp) := by
  intro xs
  induction xs with
  | nil => intro more output hn; exact absurd rfl hn
  | cons x tl ih =>
    intro more output _ h
    have hx := h x (List.mem_cons_self _ _)
    cases tl with
    | nil =>
      simp only [listTokens, commaSeparated, List.cons_append, List.nil_append]
      rw [splitTokensLoop_cons_ok _ _ _ _ (hclose x hx)]
      simp
    | cons y rest =>
      have ih2 := ih more (output ++ [x, [',']]) (by simp)
        (fun z hz => h z (List.mem_cons_of_mem _ hz))
      simp only [listTokens, commaSeparated, List.cons_append]
      rw [splitTokensLoop_cons_ok _ _ _ _ (splitToken_comma x hx), ih2]
      simp

theorem splitTokensLoop_openParen (closing : List Char) (cp : List (List Char))
    (hclose : ∀ x, Plain x → splitToken (x ++ closing) = Result.ok (x :: cp))
    (x y : List Char) (rest more output : List (List Char))
    (h : ∀ z ∈ x :: y :: rest, Plain z) :
    splitTokensLoop (openParen (listTokens closing (x :: y :: rest)) ++ more) output =
      splitTokensLoop more (output ++ ['('] :: commaSeparated (x :: y :: rest) ++ cp) := by
  have hx := h x (List.mem_cons_self _ _)
  simp only [listTokens, openParen, commaSeparated, List.cons_append]
  rw [splitTokensLoop_cons_ok _ _ _ _ (splitToken_open_comma x hx),
    splitTokensLoop_listTokens closing cp hclose (y :: rest) more _ (by simp)
      (fun z hz => h z (List.mem_cons_of_mem _ hz))]
  simp

theorem findKeywordIndexLoop_found (U : UnicodeTables) (keyword k : List Char) :
    ∀ (pre rest : List (List Char)) (i : Int), (∀ t ∈ pre, ToLower U t ≠ keyword) →
      ToLower U k = keyword →
      findKeywordIndexLoop U keyword (pre ++ k :: rest) i = i + (pre.length : Int) := by
  intro pre
  induction pre with
  | nil =>
    intro rest i _ hk
    simp [findKeywordIndexLoop, hk]
  | cons t tl ih =>
    intro rest i h hk
    rw [List.cons_append]
    unfold findKeywordIndexLoop
    rw [if_neg (h t (List.mem_cons_self _ _)),
      ih rest (i + 1) (fun z hz => h z (List.mem_cons_of_mem _ hz)) hk]
    simp only [List.length_cons]
    push_cast
    omega

theorem parseColumnsListLoop_segment (endIdx : Int) :
    ∀ (seg pre post : List (List Char)) (fuel : Nat) (i : Int) (acc : List (List Char)),
      i = (pre.length : Int) → endIdx = i + (seg.length : Int) → seg.length ≤ fuel →
      parseColumnsListLoop (pre ++ seg ++ post) endIdx fuel i acc =
        some (acc ++ seg.filter (fun t => decide (¬ (t = [','] ∨ t = [')'])))) := by
  intro seg
  induction seg with
  | nil =>
    intro pre post fuel i acc _ he _
    cases fuel with
    | zero => simp [parseColumnsListLoop]
    | succ f =>
      unfold parseColumnsListLoop
      rw [if_neg (by simp at he; omega)]
      simp
  | cons t tl ih =>
    intro pre post fuel i acc hi he hf
    obtain ⟨f, rfl⟩ : ∃ f, fuel = f + 1 := ⟨fuel - 1, by simp at hf; omega⟩
    have hidx : index (pre ++ t :: tl ++ post) i = some t := by
      rw [List.append_assoc, index_append_right pre _ i 0 (by omega)]
      simp
    have e : pre ++ t :: tl ++ post = (pre ++ [t]) ++ tl ++ post := by simp
    have ih2 := fun acc2 => ih (pre ++ [t]) post f (i + 1) acc2 (by simp; omega)
      (by simp at he ⊢; omega) (by simp at hf; omega)
    unfold parseColumnsListLoop
    rw [if_pos (by simp at he; omega), hidx]
    simp only []
    by_cases hk : t = [','] ∨ t = [')']
    · rw [if_pos hk, e, ih2, List.filter_cons_of_neg (by rw [decide_eq_true_eq]; exact not_not.mpr hk)]
    · rw [if_neg hk, e, ih2, List.filter_cons_of_pos (by rw [decide_eq_true_eq]; exact hk)]
      simp

theorem insertValuesLoop_segment (closingParenIdx : Int) :
    ∀ (seg pre post : List (List Char)) (fuel : Nat) (i : Int) (acc : List (List Char)),
      i = (pre.length : Int) → closingParenIdx = i + (seg.length : Int) → seg.length ≤ fuel →
      insertValuesLoop (pre ++ seg ++ post) closingParenIdx fuel i acc =
        some (acc ++ (seg.filter (fun t => decide (¬ t = [',']))).map unquoteValue) := by
  intro seg
  induction seg with
  | nil =>
    intro pre post fuel i acc _ he _
    cases fuel with
    | zero => simp [insertValuesLoop]
    | succ f =>
      unfold insertValuesLoop
      rw [if_neg (by simp at he; omega)]
      simp
  | cons t tl ih =>
    intro pre post fuel i acc hi he hf
    obtain ⟨f, rfl⟩ : ∃ f, fuel = f + 1 := ⟨fuel - 1, by simp at hf; omega⟩
    have hidx : index (pre ++ t :: tl ++ post) i = some t := by
      rw [List.append_assoc, index_append_right pre _ i 0 (by omega)]
      simp
    have e : pre ++ t :: tl ++ post = (pre ++ [t]) ++ tl ++ post := by simp
    have ih2 := fun acc2 => ih (pre ++ [t]) post f (i + 1) acc2 (by simp; omega)
      (by simp at he ⊢; omega) (by simp at hf; omega)
    unfold insertValuesLoop
    rw [if_pos (by simp at he; omega), hidx]
    simp only []
    by_cases hk : t = [',']
    · rw [if_pos hk, e, ih2, List.filter_cons_of_neg (by simpa using hk)]
    · rw [if_neg hk, e, ih2, List.filter_cons_of_pos (by simpa using hk)]
      simp

theorem ToLower_length (U : UnicodeTables) (s : List Char) : (ToLower U s).length = s.length := by
  simp [ToLower]

theorem ToLower_ne_of_length (U : UnicodeTables) (s w : List Char) (h : s.length ≠ w.length) :
    ToLower U s ≠ w := by
  intro e
  apply h
  rw [← e, ToLower_length]

theorem mem_commaSeparated (t : List Char) :
    ∀ xs : List (List Char), t ∈ commaSeparated xs → t = [','] ∨ t ∈ xs := by
  intro xs
  induction xs with
  | nil => intro h; cases h
  | cons x tl ih =>
    intro h
    cases tl with
    | nil =>
      simp only [commaSeparated, List.mem_singleton] at h
      exact Or.inr (by simp [h])
    | cons y rest =>
      simp only [commaSeparated, List.mem_cons] at h
      rcases h with h | h | h
      · exact Or.inr (by simp [h])
      · exact Or.inl h
      · rcases ih (by simpa [List.mem_cons] using h) with h2 | h2
        · exact Or.inl h2
        · exact Or.inr (List.mem_cons_of_mem _ h2)

theorem commaSeparated_length (x : List Char) (tl : List (List Char)) :
    (commaSeparated (x :: tl)).length + 1 = 2 * (x :: tl).length := by
  induction tl generalizing x with
  | nil => rfl
  | cons y rest ih =>
    have h := ih y
    simp only [commaSeparated, List.length_cons] at h ⊢
    omega

theorem filter_commaSeparated (p : List Char → Bool) (hp : p [','] = false) :
    ∀ xs : List (List Char), (∀ x ∈ xs, p x = true) → (commaSeparated xs).filter p = xs := by
  intro xs
  induction xs with
  | nil => intro _; rfl
  | cons x tl ih =>
    intro h
    have hx := h x (List.mem_cons_self _ _)
    cases tl with
    | nil => simp [commaSeparated, List.filter_cons, hx]
    | cons y rest =>
      have ih2 := ih (fun z hz => h z (List.mem_cons_of_mem _ hz))
      simp only [commaSeparated]
      rw [List.filter_cons_of_pos hx, List.filter_cons_of_neg (by simp [hp]), ih2]

theorem Plain.ne_comma {w : List Char} (h : Plain w) : w ≠ [','] := by
  intro e; subst e
  exact (h.2 ',' (List.mem_singleton_self _)).2.2.1 rfl

theorem Plain.ne_paren {w : List Char} (h : Plain w) : w ≠ [')'] := by
  intro e; subst e
  exact (h.2 ')' (List.mem_singleton_self _)).2.1 rfl

theorem splitToken_append_nil (x : List Char) (h : Plain x) :
    splitToken (x ++ []) = Result.ok (x :: []) := by
  rw [List.append_nil]; exact splitToken_plain x h

theorem splitTokens_selectTokens (cs : List (List Char)) (T : List Char) (hn : cs ≠ [])
    (hT : Plain T) (hc : ∀ c ∈ cs, Plain c) :
    splitTokens (selectTokens cs T) =
      Result.ok (["select".toList] ++ commaSeparated cs ++ ["from".toList, T, [';']]) := by
  have hselect : Plain "select".toList := ⟨by decide, by decide⟩
  have hfrom : Plain "from".toList := ⟨by decide, by decide⟩
  unfold splitTokens selectTokens
  rw [if_neg (by simp),
    splitTokensLoop_cons_ok _ _ _ _ (splitToken_plain _ hselect),
    splitTokensLoop_listTokens [] [] splitToken_append_nil cs _ _ hn hc,
    splitTokensLoop_cons_ok _ _ _ _ (splitToken_plain _ hfrom),
    splitTokensLoop_cons_ok _ _ _ _ (splitToken_semicolon _ hT)]
  simp [splitTokensLoop]

/-- C14. `ParseSelectStatement` parses a well-formed statement into its table name and its
columns in order: for every `n ≥ 1`, every valid identifier `T` and all `c1..cn` that are `*` or a
valid identifier other than `from` in any letter case, the tokens `select`, `c1,`, ..., `cn`,
`from`, `T;` give no error, `TableName = T` and `Columns = [c1, ..., cn]`. -/
theorem ParseSelectStatement_wellFormed (U : UnicodeTables) (T : List Char)
    (cs : List (List Char)) (hn : 1 ≤ cs.length) (hT : isValidIdentifier U T = none)
    (hc : ∀ c ∈ cs, c = ['*'] ∨
      (isValidIdentifier U c = none ∧ ToLower U c ≠ "from".toList)) :
    ParseSelectStatement U (selectTokens cs T) =
      Result.ok { TableName := T, Columns := cs } := by
  obtain ⟨x, tl, rfl⟩ : ∃ x tl, cs = x :: tl := by
    cases cs with
    | nil => exact absurd hn (by decide)
    | cons x tl => exact ⟨x, tl, rfl⟩
  have hplain : ∀ c ∈ x :: tl, Plain c := by
    intro c hm
    rcases hc c hm with h | h
    · subst h; exact ⟨by decide, by decide⟩
    · exact isValidIdentifier_plain U c h.1
  have hnotfrom : ∀ c ∈ x :: tl, ToLower U c ≠ "from".toList := by
    intro c hm
    rcases hc c hm with h | h
    · subst h; exact ToLower_ne_of_length U _ _ (by decide)
    · exact h.2
  have hsplit := splitTokens_selectTokens (x :: tl) T (by simp)
    (isValidIdentifier_plain U T hT) hplain
  have hlenC := commaSeparated_length x tl
  generalize hseg : commaSeparated (x :: tl) = seg at hsplit hlenC
  have hsegmem : ∀ t ∈ seg, t = [','] ∨ t ∈ x :: tl := by
    intro t ht; rw [← hseg] at ht; exact mem_commaSeparated t _ ht
  have hfilter : seg.filter (fun t => decide (¬ (t = [','] ∨ t = [')']))) = x :: tl := by
    rw [← hseg]
    exact filter_commaSeparated _ (by simp) _
      (fun c hm => by
        have := hplain c hm
        simp [this.ne_comma, this.ne_paren])
  have hfrom : findKeywordIndex U (["select".toList] ++ seg ++ ["from".toList, T, [';']])
      "from".toList = ((["select".toList] ++ seg).length : Int) := by
    unfold findKeywordIndex
    rw [findKeywordIndexLoop_found U "from".toList "from".toList (["select".toList] ++ seg)
      [T, [';']] 0 ?_ (IsLetterCaseOf.ToLower_eq U (t := "from".toList) (by decide) (by decide))]
    · simp
    · intro t ht
      rcases List.mem_append.mp ht with h | h
      · simp only [List.mem_singleton] at h
        subst h; exact ToLower_ne_of_length U _ _ (by decide)
      · rcases hsegmem t h with h2 | h2
        · subst h2; exact ToLower_ne_of_length U _ _ (by decide)
        · exact hnotfrom t h2
  have hlen : ((["select".toList] ++ seg ++ ["from".toList, T, [';']]).length : Int)
      = (seg.length : Int) + 4 := by
    simp only [List.length_append, List.length_cons, List.length_nil]; omega
  have hlast : index (["select".toList] ++ seg ++ ["from".toList, T, [';']])
      (((["select".toList] ++ seg ++ ["from".toList, T, [';']]).length : Int) - 1)
      = some [';'] := by
    rw [index_append_right _ _ _ 2 (by
      simp only [List.length_append, List.length_cons, List.length_nil]; omega)]
    rfl
  have hTidx : index (["select".toList] ++ seg ++ ["from".toList, T, [';']])
      (((["select".toList] ++ seg).length : Int) + 1) = some T := by
    rw [index_append_right _ _ _ 1 (by
      simp only [List.length_append, List.length_cons, List.length_nil]; omega)]
    rfl
  have hcols : parseColumnsList (["select".toList] ++ seg ++ ["from".toList, T, [';']]) 1
      ((["select".toList] ++ seg).length : Int) = some (x :: tl) := by
    unfold parseColumnsList
    rw [parseColumnsListLoop_segment _ seg ["select".toList] _ _ 1 [] (by simp)
      (by simp only [List.length_append, List.length_cons, List.length_nil]; omega)
      (by simp only [List.length_append, List.length_cons, List.length_nil]; omega), hfilter]
    simp
  unfold ParseSelectStatement
  rw [hsplit]
  simp only [hfrom, hlast, hTidx, hcols, hT]
  rw [if_neg (by rw [hlen]; simp only [MinSQLSelectTokens]; omega)]
  simp only [ne_eq, not_true_eq_false, if_false]
  rw [if_neg (by simp only [List.length_append, List.length_cons, List.length_nil]; omega),
    if_neg (by simp only [List.length_append, List.length_cons, List.length_nil]; omega)]

/-- Witness for `ParseSelectStatement_wellFormed`: the statement of the test `valid select`,
`select id, email from users;`. -/
theorem ParseSelectStatement_wellFormed_witness :
    (1 ≤ (["id".toList, "email".toList] : List (List Char)).length ∧
      isValidIdentifier asciiTables "users".toList = none ∧
      ∀ c ∈ (["id".toList, "email".toList] : List (List Char)), c = ['*'] ∨
        (isValidIdentifier asciiTables c = none ∧ ToLower asciiTables c ≠ "from".toList)) ∧
    selectTokens ["id".toList, "email".toList] "users".toList =
      sqlTokens "select id, email from users;".toList ∧
    ParseSelectStatement asciiTables (selectTokens ["id".toList, "email".toList] "users".toList) =
      Result.ok { TableName := "users".toList, Columns := ["id".toList, "email".toList] } :=
  ⟨⟨by decide, by decide, by decide⟩, by decide,
    ParseSelectStatement_wellFormed asciiTables "users".toList ["id".toList, "email".toList]
      (by decide) (by decide) (by decide)⟩

theorem HasSuffix_singleton_concat (w : List Char) (b c : Char) :
    HasSuffix (w ++ [b]) [c] = decide (b = c) := by
  by_cases h : b = c
  · subst h; simp [HasSuffix_append_self]
  · simp only [h, decide_False]
    rw [Bool.eq_false_iff]
    intro hs
    obtain ⟨u, hu⟩ := (HasSuffix_iff _ _).mp hs
    have := List.append_inj_right' hu rfl
    simp only [List.cons.injEq, and_true] at this
    exact h this

theorem unquoteValue_eq_stripQuotes_concat (a : Char) (w2 : List Char) (b : Char) :
    unquoteValue (a :: (w2 ++ [b])) = stripQuotes (a :: (w2 ++ [b])) := by
  have hs : HasSuffix (a :: (w2 ++ [b])) ['"'] = decide (b = '"') :=
    HasSuffix_singleton_concat (a :: w2) b '"'
  have hlast : (a :: (w2 ++ [b])).getLast? = some b := by
    rw [← List.cons_append, List.getLast?_append]; simp
  unfold unquoteValue stripQuotes
  rw [hs, hlast]
  by_cases ha : a = '"'
  · subst ha
    by_cases hb : b = '"'
    · subst hb
      have h1 : TrimSuffix ('"' :: (w2 ++ ['"'])) ['"'] = '"' :: w2 := by
        unfold TrimSuffix
        rw [hs]
        simp
      simp [HasPrefix_cons_self, h1, TrimPrefix, List.dropLast_concat]
    · simp [HasPrefix_cons_self, hb]
  · simp [HasPrefix, List.isPrefixOf, ha, Ne.symm ha]

theorem unquoteValue_eq_stripQuotes (v : List Char) : unquoteValue v = stripQuotes v := by
  cases v with
  | nil => rfl
  | cons a w =>
    rcases List.eq_nil_or_concat w with rfl | ⟨w2, b, hw⟩
    · by_cases ha : a = '"'
      · subst ha; rfl
      · simp [unquoteValue, stripQuotes, HasPrefix, List.isPrefixOf, ha, Ne.symm ha]
    · rw [List.concat_eq_append] at hw
      subst hw
      exact unquoteValue_eq_stripQuotes_concat a w2 b

theorem mapSet_new (pairs : List (List Char × List Char)) (key value : List Char)
    (h : key ∉ pairs.map Prod.fst) : mapSet pairs key value = pairs ++ [(key, value)] := by
  unfold mapSet
  rw [if_neg]
  simp only [List.any_eq_true, beq_iff_eq, not_exists, not_and]
  intro e he hk
  exact h (List.mem_map.mpr ⟨e, he, hk⟩)

theorem insertPairsLoop_zip (values : List (List Char)) :
    ∀ (columns : List (List Char)) (i : Nat) (pairs : List (List Char × List Char)),
      columns.Nodup → (∀ c ∈ columns, c ∉ pairs.map Prod.fst) →
      i + columns.length ≤ values.length →
      insertPairsLoop values columns (i : Int) pairs =
        some (pairs ++ columns.zip (values.drop i)) := by
  intro columns
  induction columns with
  | nil => intro i pairs _ _ _; simp [insertPairsLoop]
  | cons c rest ih =>
    intro i pairs hnd hnew hlen
    simp only [List.length_cons] at hlen
    have hb : i < values.length := by omega
    have hi : index values (i : Int) = some values[i] := by
      unfold index
      rw [if_pos (by omega)]
      simp
    have hd : values.drop i = values[i] :: values.drop (i + 1) := by
      rw [List.drop_eq_getElem_cons]
    unfold insertPairsLoop
    rw [hi]
    simp only []
    rw [mapSet_new _ _ _ (hnew c (List.mem_cons_self _ _))]
    have := ih (i + 1) (pairs ++ [(c, values[i])]) (List.nodup_cons.mp hnd).2
      (by
        intro z hz
        simp only [List.map_append, List.map_cons, List.map_nil, List.mem_append,
          List.mem_singleton, not_or]
        refine ⟨hnew z (List.mem_cons_of_mem _ hz), ?_⟩
        rintro rfl
        exact (List.nodup_cons.mp hnd).1 hz)
      (by omega)
    push_cast at this
    rw [this, hd, List.zip_cons_cons, List.append_assoc]
    rfl

theorem ValueWord_plain {v : List Char} (h : ValueWord v) : Plain v :=
  ⟨h.1, fun ch hch => ⟨(h.2 ch hch).2.2.1, (h.2 ch hch).2.2.2.1, (h.2 ch hch).2.2.2.2.1,
    (h.2 ch hch).2.2.2.2.2, (h.2 ch hch).2.1⟩⟩

theorem exists_two_of_length {α : Type} (l : List α) (h : 2 ≤ l.length) :
    ∃ x y rest, l = x :: y :: rest := by
  match l, h with
  | x :: y :: rest, _ => exact ⟨x, y, rest, rfl⟩

theorem splitTokens_insertTokens (T : List Char) (cs vs : List (List Char))
    (hcn : 2 ≤ cs.length) (hvn : 2 ≤ vs.length) (hT : Plain T)
    (hc : ∀ c ∈ cs, Plain c) (hv : ∀ v ∈ vs, Plain v) :
    splitTokens (insertTokens T cs vs) =
      Result.ok (["insert".toList, "into".toList, T, ['(']] ++ (commaSeparated cs ++ [[')']]) ++
        ["values".toList, ['(']] ++ commaSeparated vs ++ [[')'], [';']]) := by
  obtain ⟨x, y, rest, rfl⟩ := exists_two_of_length cs hcn
  obtain ⟨u, w, rest2, rfl⟩ := exists_two_of_length vs hvn
  have hinsert : Plain "insert".toList := ⟨by decide, by decide⟩
  have hinto : Plain "into".toList := ⟨by decide, by decide⟩
  have hvalues : Plain "values".toList := ⟨by decide, by decide⟩
  have e : openParen (listTokens [')', ';'] (u :: w :: rest2))
      = openParen (listTokens [')', ';'] (u :: w :: rest2)) ++ [] := by simp
  unfold splitTokens insertTokens
  rw [if_neg (by simp),
    splitTokensLoop_cons_ok _ _ _ _ (splitToken_plain _ hinsert),
    splitTokensLoop_cons_ok _ _ _ _ (splitToken_plain _ hinto),
    splitTokensLoop_cons_ok _ _ _ _ (splitToken_plain _ hT),
    splitTokensLoop_openParen [')'] [[')']] splitToken_paren x y rest _ _ hc,
    splitTokensLoop_cons_ok _ _ _ _ (splitToken_plain _ hvalues), e,
    splitTokensLoop_openParen [')', ';'] [[')'], [';']] splitToken_close u w rest2 _ _ hv]
  simp [splitTokensLoop]

theorem ToLower_into (U : UnicodeTables) : ToLower U "into".toList = SQLInsertTokensInto :=
  IsLetterCaseOf.ToLower_eq U (t := "into".toList) (w := "into".toList) (by decide) (by decide)

/-- The checks of `ParseInsertStatement` on split tokens of the shape `insert into T (`, column
tokens and `)`, `values (`, value tokens, `) ;`. -/
theorem ParseInsertStatement_on_split (U : UnicodeTables) (tokens : List (List Char))
    (T : List Char) (B segV cs vals : List (List Char))
    (hsplit : splitTokens tokens = Result.ok
      (["insert".toList, "into".toList, T, ['(']] ++ B ++ ["values".toList, ['(']] ++ segV ++
        [[')'], [';']]))
    (hT : isValidIdentifier U T = none) (hTv : ToLower U T ≠ "values".toList)
    (hBmem : ∀ t ∈ B, ToLower U t ≠ "values".toList)
    (hBfilter : B.filter (fun t => decide (¬ (t = [','] ∨ t = [')']))) = cs)
    (hBlen : 3 ≤ B.length)
    (hVfilter : (segV.filter (fun t => decide (¬ t = [',']))).map unquoteValue = vals)
    (hlen : cs.length = vals.length) (hnd : cs.Nodup) :
    ParseInsertStatement U tokens = Result.ok { TableName := T, Pairs := cs.zip vals } := by
  generalize hst : ["insert".toList, "into".toList, T, ['(']] ++ B ++ ["values".toList, ['(']]
    ++ segV ++ [[')'], [';']] = st at hsplit
  have hstlen : (st.length : Int) = 8 + (B.length : Int) + (segV.length : Int) := by
    rw [← hst]
    simp only [List.length_append, List.length_cons, List.length_nil]; omega
  have e1 : st = "insert".toList :: "into".toList :: T :: ['('] ::
      (B ++ ["values".toList, ['(']] ++ segV ++ [[')'], [';']]) := by
    rw [← hst]; simp
  have i1 : index st 1 = some "into".toList := by
    rw [e1, show (1 : Int) = 0 + 1 from rfl, index_cons_succ _ _ _ (le_refl _), index_cons_zero]
  have i2 : index st 2 = some T := by
    rw [e1, show (2 : Int) = 0 + 1 + 1 from rfl, index_cons_succ _ _ _ (by decide),
      index_cons_succ _ _ _ (le_refl _), index_cons_zero]
  have i3 : index st 3 = some ['('] := by
    rw [e1, show (3 : Int) = 0 + 1 + 1 + 1 from rfl, index_cons_succ _ _ _ (by decide),
      index_cons_succ _ _ _ (by decide), index_cons_succ _ _ _ (le_refl _), index_cons_zero]
  have ilast : index st ((st.length : Int) - 1) = some [';'] := by
    rw [hstlen, ← hst, index_append_right _ _ _ 1 (by
      simp only [List.length_append, List.length_cons, List.length_nil]; omega)]
    rfl
  have iclose : index st ((st.length : Int) - 2) = some [')'] := by
    rw [hstlen, ← hst, index_append_right _ _ _ 0 (by
      simp only [List.length_append, List.length_cons, List.length_nil]; omega)]
    rfl
  have e2 : st = (["insert".toList, "into".toList, T, ['(']] ++ B) ++
      "values".toList :: ([['(']] ++ segV ++ [[')'], [';']]) := by
    rw [← hst]; simp
  have hinsert : ToLower U "insert".toList ≠ "values".toList := by
    rw [IsLetterCaseOf.ToLower_eq U (t := "insert".toList) (w := "insert".toList)
      (by decide) (by decide)]
    decide
  have hvidx : findKeywordIndex U st "values".toList = 4 + (B.length : Int) := by
    unfold findKeywordIndex
    rw [e2, findKeywordIndexLoop_found U "values".toList "values".toList _ _ 0 ?_
      (IsLetterCaseOf.ToLower_eq U (t := "values".toList) (by decide) (by decide))]
    · simp only [List.length_append, List.length_cons, List.length_nil]; omega
    · intro t ht
      rcases List.mem_append.mp ht with h | h
      · simp only [List.mem_cons, List.mem_singleton, List.not_mem_nil, or_false] at h
        rcases h with rfl | rfl | rfl | rfl
        · exact hinsert
        · exact ToLower_ne_of_length U _ _ (by decide)
        · exact hTv
        · exact ToLower_ne_of_length U _ _ (by decide)
      · exact hBmem t h
  have iopen : index st (4 + (B.length : Int) + 1) = some ['('] := by
    rw [e2, index_append_right _ _ _ 1 (by
      simp only [List.length_append, List.length_cons, List.length_nil]; omega)]
    simp
  have e3 : st = ["insert".toList, "into".toList, T, ['(']] ++ B ++
      (["values".toList, ['(']] ++ segV ++ [[')'], [';']]) := by
    rw [← hst]; simp
  have hcols : parseColumnsList st 4 (4 + (B.length : Int)) = some cs := by
    unfold parseColumnsList
    rw [e3, parseColumnsListLoop_segment _ B ["insert".toList, "into".toList, T, ['(']] _ _ 4 []
      rfl (by omega) (by omega), hBfilter]
    rfl
  have hvals : insertValues st (4 + (B.length : Int)) ((st.length : Int) - 2) = some vals := by
    unfold insertValues
    rw [hstlen, ← hst, insertValuesLoop_segment _ segV _ _ _ _ []
      (by simp only [List.length_append, List.length_cons, List.length_nil]; omega)
      (by omega) (by omega), hVfilter]
    rfl
  have hpairs : insertPairsLoop vals cs 0 [] = some (cs.zip vals) := by
    have := insertPairsLoop_zip vals cs 0 [] hnd (by simp) (by omega)
    simpa using this
  unfold ParseInsertStatement
  rw [hsplit]
  simp only [hvidx, i1, i2, i3, ilast, iclose, iopen, hcols, hvals, hT, hpairs, ToLower_into]
  rw [if_neg (by rw [hstlen]; simp only [MinSQLInsertTokens]; omega)]
  simp only [ne_eq, not_true_eq_false, if_false]
  rw [if_neg (by omega), if_neg (by rw [hstlen]; omega), if_neg (by simpa using hlen)]

theorem mapGet_zip :
    ∀ (cs vals : List (List Char)), cs.Nodup → cs.length = vals.length →
      ∀ (i : Nat) (h1 : i < cs.length) (h2 : i < vals.length),
        mapGet (cs.zip vals) cs[i] = some vals[i] := by
  intro cs
  induction cs with
  | nil => intro vals _ _ i h1; cases h1
  | cons c rest ih =>
    intro vals hnd hlen i h1 h2
    cases vals with
    | nil => cases h2
    | cons v vrest =>
      cases i with
      | zero => simp [mapGet, List.zip_cons_cons, List.find?_cons]
      | succ j =>
        have hj : j < rest.length := by simpa using h1
        have hne : ¬ (c = rest[j]) := by
          intro e
          exact (List.nodup_cons.mp hnd).1 (e ▸ List.getElem_mem _)
        have := ih vrest (List.nodup_cons.mp hnd).2 (by simpa using hlen) j
          (by simpa using h1) (by simpa using h2)
        simp only [mapGet] at this ⊢
        simp only [List.zip_cons_cons, List.getElem_cons_succ, List.find?_cons]
        rw [show ((c, v).1 == rest[j]) = false from by simpa using hne]
        exact this

/-- C11. `ParseInsertStatement` parses a well-formed multi-column statement into
column-to-value pairs: for every `n ≥ 2`, every valid identifier `T`, pairwise distinct valid
identifiers `c1..cn` (none of `T`, `c1..cn` being `values` in any letter case) and values `v1..vn`
that are non-empty without space, newline, parenthesis, comma or semicolon, the tokens `insert`,
`into`, `T`, `(c1,`, ..., `cn)`, `values`, `(v1,`, ..., `vn);` give no error, `TableName = T` and
`Pairs` with exactly `n` entries, mapping each `ci` to `vi` with one pair of surrounding double
quotes removed when `vi` both starts and ends with a double quote. -/
theorem ParseInsertStatement_wellFormed (U : UnicodeTables) (T : List Char)
    (cs vs : List (List Char)) (hn : 2 ≤ cs.length) (hlen : vs.length = cs.length)
    (hT : isValidIdentifier U T = none ∧ ToLower U T ≠ "values".toList)
    (hc : ∀ c ∈ cs, isValidIdentifier U c = none ∧ ToLower U c ≠ "values".toList)
    (hnd : cs.Nodup) (hv : ∀ v ∈ vs, ValueWord v) :
    ParseInsertStatement U (insertTokens T cs vs) =
      Result.ok { TableName := T, Pairs := cs.zip (vs.map stripQuotes) } ∧
    (cs.zip (vs.map stripQuotes)).length = cs.length ∧
    ∀ (i : Nat) (h1 : i < cs.length) (h2 : i < vs.length),
      mapGet (cs.zip (vs.map stripQuotes)) cs[i] = some (stripQuotes vs[i]) := by
  have hcp : ∀ c ∈ cs, Plain c := fun c m => isValidIdentifier_plain U c (hc c m).1
  have hvp : ∀ v ∈ vs, Plain v := fun v m => ValueWord_plain (hv v m)
  have hsplit := splitTokens_insertTokens T cs vs hn (by omega)
    (isValidIdentifier_plain U T hT.1) hcp hvp
  obtain ⟨x, tl, hcs⟩ : ∃ x tl, cs = x :: tl := by
    obtain ⟨x, y, rest, h⟩ := exists_two_of_length cs hn
    exact ⟨x, _, h⟩
  have hClen : (commaSeparated cs).length + 1 = 2 * cs.length := by
    rw [hcs]; exact commaSeparated_length x tl
  refine ⟨?_, by simp [hlen], ?_⟩
  · refine ParseInsertStatement_on_split U _ T (commaSeparated cs ++ [[')']]) (commaSeparated vs)
      cs (vs.map stripQuotes) hsplit hT.1 hT.2 ?_ ?_ ?_ ?_ (by simp [hlen]) hnd
    · intro t ht
      rcases List.mem_append.mp ht with h | h
      · rcases mem_commaSeparated t cs h with h2 | h2
        · subst h2; exact ToLower_ne_of_length U _ _ (by decide)
        · exact (hc t h2).2
      · simp only [List.mem_singleton] at h
        subst h; exact ToLower_ne_of_length U _ _ (by decide)
    · rw [List.filter_append, filter_commaSeparated _ (by simp) cs
        (fun c hm => by
          have := hcp c hm
          simp [this.ne_comma, this.ne_paren])]
      simp
    · simp only [List.length_append, List.length_cons, List.length_nil]; omega
    · rw [filter_commaSeparated _ (by simp) vs
        (fun v hm => by
          have := hvp v hm
          simp [this.ne_comma])]
      exact List.map_congr_left (fun v _ => unquoteValue_eq_stripQuotes v)
  · intro i h1 h2
    have := mapGet_zip cs (vs.map stripQuotes) hnd (by simp [hlen]) i h1 (by simpa using h2)
    simpa using this

/-- Witness for `ParseInsertStatement_wellFormed`: the statement of the test `valid insert`, with
three columns and two quoted values. -/
theorem ParseInsertStatement_wellFormed_witness :
    (2 ≤ (["id".toList, "username".toList, "email".toList] : List (List Char)).length ∧
      (["1".toList, ('"' :: "john_doe".toList ++ ['"']), ('"' :: "test@test.com".toList ++ ['"'])] :
        List (List Char)).length =
        (["id".toList, "username".toList, "email".toList] : List (List Char)).length ∧
      (isValidIdentifier asciiTables "users".toList = none ∧
        ToLower asciiTables "users".toList ≠ "values".toList) ∧
      (∀ c ∈ (["id".toList, "username".toList, "email".toList] : List (List Char)),
        isValidIdentifier asciiTables c = none ∧ ToLower asciiTables c ≠ "values".toList) ∧
      (["id".toList, "username".toList, "email".toList] : List (List Char)).Nodup ∧
      ∀ v ∈ (["1".toList, ('"' :: "john_doe".toList ++ ['"']), ('"' :: "test@test.com".toList ++ ['"'])] :
        List (List Char)), ValueWord v) ∧
    insertTokens "users".toList ["id".toList, "username".toList, "email".toList]
        ["1".toList, ('"' :: "john_doe".toList ++ ['"']), ('"' :: "test@test.com".toList ++ ['"'])] =
      sqlTokens ("insert into users (id, username, email) values (1, ".toList ++
        '"' :: "john_doe".toList ++ '"' :: ", ".toList ++
        '"' :: "test@test.com".toList ++ '"' :: ");".toList) ∧
    ParseInsertStatement asciiTables
        (insertTokens "users".toList ["id".toList, "username".toList, "email".toList]
          ["1".toList, ('"' :: "john_doe".toList ++ ['"']), ('"' :: "test@test.com".toList ++ ['"'])]) =
      Result.ok { TableName := "users".toList,
                  Pairs := [("id".toList, "1".toList), ("username".toList, "john_doe".toList),
                    ("email".toList, "test@test.com".toList)] } :=
  ⟨⟨by decide, by decide, by decide, by decide, by decide, by decide⟩, by decide,
    (ParseInsertStatement_wellFormed asciiTables "users".toList
      ["id".toList, "username".toList, "email".toList]
      ["1".toList, ('"' :: "john_doe".toList ++ ['"']), ('"' :: "test@test.com".toList ++ ['"'])]
      (by decide) (by decide) (by decide) (by decide) (by decide) (by decide)).1⟩

theorem splitToken_open_paren (w : List Char) (h : Plain w) :
    splitToken ('(' :: (w ++ [')'])) = Result.ok [['('], w ++ [')']] := by
  obtain ⟨h1, h2, h3, h4, h5⟩ := h.not_mem
  have m3 : ',' ∉ '(' :: (w ++ [')']) := by simp [h3]
  have m4 : ';' ∉ '(' :: (w ++ [')']) := by simp [h4]
  have m5 : '\n' ∉ '(' :: (w ++ [')']) := by simp [h5]
  have hlen : (((('(' :: (w ++ [')'])).length : Nat) : Int) ≠ 1) := by
    simp only [List.length_cons, List.length_append, List.length_nil]; omega
  have s1 : slice ('(' :: (w ++ [')'])) 1 ((('(' :: (w ++ [')'])).length : Nat) : Int)
      = some (w ++ [')']) :=
    slice_one_cons _ _ _ (by simp only [List.length_cons]; omega)
  unfold splitToken
  simp only [TrimSuffix_of_not_mem _ _ m5, HasPrefix_cons_self,
    HasSuffix_singleton_of_not_mem _ _ m3, HasSuffix_pair_of_not_mem _ _ _ m4, s1, if_neg hlen]
  simp

theorem splitToken_open_close (w : List Char) (h : Plain w) :
    splitToken ('(' :: (w ++ [')', ';'])) = Result.ok ['(' :: w, [')'], [';']] := by
  obtain ⟨h1, h2, h3, h4, h5⟩ := h.not_mem
  have m3 : ',' ∉ '(' :: (w ++ [')', ';']) := by simp [h3]
  have m5 : '\n' ∉ '(' :: (w ++ [')', ';']) := by simp [h5]
  have hlen : ¬ (((('(' :: (w ++ [')', ';'])).length : Nat) : Int) < 3) := by
    simp only [List.length_cons, List.length_append, List.length_nil]; omega
  have hs : HasSuffix ('(' :: (w ++ [')', ';'])) [')', ';'] = true :=
    HasSuffix_append_self ('(' :: w) [')', ';']
  have e1 : '(' :: (w ++ [')', ';']) = ('(' :: w ++ [')']) ++ [';'] := by simp
  have e2 : '(' :: (w ++ [')', ';']) = ('(' :: w) ++ [')', ';'] := by simp
  have s1 : slice ('(' :: (w ++ [')', ';'])) 0
      (((('(' :: (w ++ [')', ';'])).length : Nat) : Int) - 1) = some ('(' :: w ++ [')']) := by
    rw [e1]
    exact slice_zero_append _ _ _
      (by simp only [List.length_append, List.length_cons, List.length_nil]; omega)
  have s2 : slice ('(' :: (w ++ [')', ';'])) 0
      (((('(' :: (w ++ [')', ';'])).length : Nat) : Int) - 2) = some ('(' :: w) := by
    rw [e2]
    exact slice_zero_append _ _ _
      (by simp only [List.length_append, List.length_cons, List.length_nil]; omega)
  have hs2 : HasSuffix ('(' :: w ++ [')']) [')'] = true := HasSuffix_append_self ('(' :: w) [')']
  unfold splitToken
  simp only [TrimSuffix_of_not_mem _ _ m5, HasPrefix_cons_self,
    HasSuffix_singleton_of_not_mem _ _ m3, hs, s1, s2, hs2, if_neg hlen]
  simp

/-- The minimum insert statement is rejected whatever its names: with one column and one value,
`splitTokens` leaves `)` on the column and `(` on the value, nine tokens come out instead of
eleven, and `ParseInsertStatement` answers `incomplete insert statement`. -/
theorem ParseInsertStatement_one_column (U : UnicodeTables) (T c v : List Char)
    (hT : Plain T) (hc : Plain c) (hv : Plain v) :
    splitTokens (insertTokens T [c] [v]) =
      Result.ok ["insert".toList, "into".toList, T, ['('], c ++ [')'], "values".toList,
        '(' :: v, [')'], [';']] ∧
    ParseInsertStatement U (insertTokens T [c] [v]) = Result.err Err.incompleteInsert := by
  have hinsert : Plain "insert".toList := ⟨by decide, by decide⟩
  have hinto : Plain "into".toList := ⟨by decide, by decide⟩
  have hvalues : Plain "values".toList := ⟨by decide, by decide⟩
  have hsplit : splitTokens (insertTokens T [c] [v]) =
      Result.ok ["insert".toList, "into".toList, T, ['('], c ++ [')'], "values".toList,
        '(' :: v, [')'], [';']] := by
    unfold splitTokens insertTokens
    simp only [listTokens, openParen, List.cons_append, List.nil_append]
    rw [if_neg (by simp),
      splitTokensLoop_cons_ok _ _ _ _ (splitToken_plain _ hinsert),
      splitTokensLoop_cons_ok _ _ _ _ (splitToken_plain _ hinto),
      splitTokensLoop_cons_ok _ _ _ _ (splitToken_plain _ hT),
      splitTokensLoop_cons_ok _ _ _ _ (splitToken_open_paren _ hc),
      splitTokensLoop_cons_ok _ _ _ _ (splitToken_plain _ hvalues),
      splitTokensLoop_cons_ok _ _ _ _ (splitToken_open_close _ hv)]
    simp [splitTokensLoop]
  refine ⟨hsplit, ?_⟩
  unfold ParseInsertStatement
  rw [hsplit]
  simp only []
  rw [if_pos (by simp only [List.length_cons, List.length_nil, MinSQLInsertTokens]; omega)]

/-- C12, at its failing input: the statement `insert into users (id) values (1);`, whose tokens
are `insert`, `into`, `users`, `(id)`, `values`, `(1);`, is split into nine tokens, `id)` and `(1`
among them, and `ParseInsertStatement` returns the error `incomplete insert statement`. -/
theorem ParseInsertStatement_rejects_minimum :
    sqlTokens "insert into users (id) values (1);".toList =
      ["insert".toList, "into".toList, "users".toList, "(id)".toList, "values".toList,
        "(1);".toList] ∧
    splitTokens (sqlTokens "insert into users (id) values (1);".toList) =
      Result.ok ["insert".toList, "into".toList, "users".toList, "(".toList, "id)".toList,
        "values".toList, "(1".toList, ")".toList, ";".toList] ∧
    ParseInsertStatement asciiTables (sqlTokens "insert into users (id) values (1);".toList) =
      Result.err Err.incompleteInsert := by
  decide

/-- Witness for `table_name_validated`: the statement `select id, email from users;` is accepted
with the well-formed table name `users`, and the statements of the tests with the table name
`7users` are rejected. -/
theorem table_name_validated_witness :
    ParseSelectStatement asciiTables (sqlTokens "select id, email from users;".toList) =
      Result.ok { TableName := "users".toList, Columns := ["id".toList, "email".toList] } ∧
    (isValidIdentifier asciiTables "users".toList = none ∧
      WellFormedIdentifier asciiTables "users".toList) ∧
    ParseCreateTableStatement asciiTables (sqlTokens "create table 7users (id INT);".toList) =
      Result.err (Err.invalidTableName Err.identifierStart) ∧
    ParseSelectStatement asciiTables (sqlTokens "select * from 7users;".toList) =
      Result.err (Err.invalidTableName Err.identifierStart) ∧
    ParseInsertStatement asciiTables
        (sqlTokens "insert into 7users (id, email) values (1, 2);".toList) =
      Result.err (Err.invalidTableName Err.identifierStart) :=
  ⟨by decide,
    (table_name_validated asciiTables (sqlTokens "select id, email from users;".toList)).2.2
      { TableName := "users".toList, Columns := ["id".toList, "email".toList] } (by decide),
    by decide, by decide, by decide⟩

/-- Witness for `ParseCreateTableStatement_validated`: the statement of the test
`valid create with two columns`. -/
theorem ParseCreateTableStatement_validated_witness :
    ParseCreateTableStatement asciiTables
        (sqlTokens "create table users (id INT, email TEXT);".toList) =
      Result.ok [⟨"id".toList, "INT".toList⟩, ⟨"email".toList, "TEXT".toList⟩] ∧
    ([⟨"id".toList, "INT".toList⟩, ⟨"email".toList, "TEXT".toList⟩] : List Column) ≠ [] ∧
    ∀ c ∈ ([⟨"id".toList, "INT".toList⟩, ⟨"email".toList, "TEXT".toList⟩] : List Column),
      isValidIdentifier asciiTables c.Name = none ∧
      (ToLower asciiTables c.Type_ = "int".toList ∨ ToLower asciiTables c.Type_ = "text".toList) :=
  ⟨by decide,
    ParseCreateTableStatement_validated asciiTables
      (sqlTokens "create table users (id INT, email TEXT);".toList) _ (by decide)⟩

/-- C16, at its failing inputs: each token list that a doc comment of the parser gives as a valid
input example, with the punctuation already in tokens of its own, is rejected. `splitTokens`
refuses a token that is `;`, `,` or `(` alone, so `ParseSelectStatement`,
`ParseCreateTableStatement` and `ParseInsertStatement` all return `error splitting tokens` on
their examples. -/
theorem doc_comment_examples_rejected :
    splitToken ";".toList = Result.err Err.invalidToken ∧
    splitToken "(".toList = Result.err Err.invalidToken ∧
    ParseSelectStatement asciiTables
        ["select".toList, "*".toList, "from".toList, "users".toList, ";".toList] =
      Result.err (Err.splitting Err.invalidToken) ∧
    ParseSelectStatement asciiTables
        ["select".toList, "id".toList, ",".toList, "email".toList, "from".toList, "users".toList,
          ";".toList] =
      Result.err (Err.splitting Err.invalidToken) ∧
    ParseCreateTableStatement asciiTables
        ["create".toList, "table".toList, "users".toList, "(".toList, "id".toList, "INT".toList,
          ",".toList, "username".toList, "TEXT".toList, ",".toList, "email".toList,
          "TEXT".toList, ")".toList, ";".toList] =
      Result.err (Err.splitting Err.invalidToken) ∧
    ParseInsertStatement asciiTables
        ["insert".toList, "into".toList, "users".toList, "(".toList, "id".toList, ",".toList,
          "username".toList, ",".toList, "email".toList, ")".toList, "values".toList,
          "(".toList, "1".toList, ",".toList, "john_doe".toList, ",".toList,
          "test@test.com".toList, ")".toList, ";".toList] =
      Result.err (Err.splitting Err.invalidToken) := by
  decide

/-- C18, at its failing input: the statement `insert into users (7id, b) values (1, 2);` is
accepted, and the returned `Pairs` has the key `7id`, which `isValidIdentifier` rejects as not
starting with a letter or an underscore. -/
theorem ParseInsertStatement_unvalidated_column :
    sqlTokens "insert into users (7id, b) values (1, 2);".toList =
      ["insert".toList, "into".toList, "users".toList, "(7id,".toList, "b)".toList,
        "values".toList, "(1,".toList, "2);".toList] ∧
    ParseInsertStatement asciiTables
        (sqlTokens "insert into users (7id, b) values (1, 2);".toList) =
      Result.ok { TableName := "users".toList,
                  Pairs := [("7id".toList, "1".toList), ("b".toList, "2".toList)] } ∧
    isValidIdentifier asciiTables "7id".toList = some Err.identifierStart ∧
    ¬ WellFormedIdentifier asciiTables "7id".toList := by
  refine ⟨by decide, by decide, by decide, ?_⟩
  rw [← isValidIdentifier_iff_wellFormed]
  decide

theorem slice_ne_none {α : Type} (s : List α) (lo hi : Int) (h0 : 0 ≤ lo) (h1 : lo ≤ hi)
    (h2 : hi ≤ (s.length : Int)) : slice s lo hi ≠ none := by
  unfold slice
  rw [if_pos ⟨h0, h1, h2⟩]
  exact Option.some_ne_none _

theorem splitToken_ne_panic (token0 : List Char) : splitToken token0 ≠ Result.panic := by
  intro h
  unfold splitToken at h
  generalize TrimSuffix token0 ['\n'] = token at h
  simp only at h
  split at h
  · split at h
    · cases h
    · rename_i hlen
      split at h
      · rename_i hs
        exact slice_ne_none token 1 _ (by decide) (by omega) (by omega) hs
      · cases h
  · split at h
    · split at h
      · cases h
      · rename_i hlen
        split at h
        · rename_i hs
          exact slice_ne_none token 0 _ (le_refl _) (by omega) (by omega) hs
        · split at h
          · cases h
          · split at h
            · rename_i hs
              exact slice_ne_none token 0 _ (le_refl _) (by omega) (by omega) hs
            · cases h
    · split at h
      · split at h
        · cases h
        · rename_i hlen
          split at h
          · rename_i hs
            exact slice_ne_none token 0 _ (le_refl _) (by omega) (by omega) hs
          · cases h
      · split at h
        · rename_i hp
          obtain ⟨w, rfl⟩ := (HasPrefix_singleton_iff _ _).mp hp
          split at h
          · cases h
          · split at h
            · rename_i hs
              exact slice_ne_none _ 1 _ (by decide)
                (by simp only [List.length_cons]; omega) (le_refl _) hs
            · cases h
        · split at h
          · split at h
            · cases h
            · rename_i hlen
              split at h
              · rename_i hs
                exact slice_ne_none token 0 _ (le_refl _) (by omega) (by omega) hs
              · cases h
          · split at h
            · split at h
              · cases h
              · rename_i hlen
                split at h
                · rename_i hs
                  exact slice_ne_none token 0 _ (le_refl _) (by omega) (by omega) hs
                · cases h
            · cases h

theorem splitTokensLoop_ne_panic :
    ∀ (tokens output : List (List Char)), splitTokensLoop tokens output ≠ Result.panic := by
  intro tokens
  induction tokens with
  | nil => intro output h; cases h
  | cons token rest ih =>
    intro output h
    unfold splitTokensLoop at h
    split at h
    · exact ih _ h
    · cases h
    · rename_i hp
      exact splitToken_ne_panic token hp

theorem splitTokens_ne_panic (tokens : List (List Char)) :
    splitTokens tokens ≠ Result.panic := by
  unfold splitTokens
  split
  · intro h; cases h
  · exact splitTokensLoop_ne_panic tokens []

theorem parseColumnsListLoop_ne_none (st : List (List Char)) (endIdx : Int)
    (he : endIdx ≤ (st.length : Int)) :
    ∀ (fuel : Nat) (i : Int) (columns : List (List Char)), 0 ≤ i →
      parseColumnsListLoop st endIdx fuel i columns ≠ none := by
  intro fuel
  induction fuel with
  | zero => intro i columns _ h; cases h
  | succ fuel ih =>
    intro i columns hi h
    unfold parseColumnsListLoop at h
    split at h
    · rename_i hlt
      split at h
      · rename_i hidx
        exact index_ne_none st i hi (by omega) hidx
      · split at h
        · exact ih _ _ (by omega) h
        · exact ih _ _ (by omega) h
    · cases h

theorem insertValuesLoop_ne_none (st : List (List Char)) (closingParenIdx : Int)
    (he : closingParenIdx ≤ (st.length : Int)) :
    ∀ (fuel : Nat) (i : Int) (values : List (List Char)), 0 ≤ i →
      insertValuesLoop st closingParenIdx fuel i values ≠ none := by
  intro fuel
  induction fuel with
  | zero => intro i values _ h; cases h
  | succ fuel ih =>
    intro i values hi h
    unfold insertValuesLoop at h
    split at h
    · rename_i hlt
      split at h
      · rename_i hidx
        exact index_ne_none st i hi (by omega) hidx
      · split at h
        · exact ih _ _ (by omega) h
        · exact ih _ _ (by omega) h
    · cases h

theorem insertPairsLoop_ne_none (values : List (List Char)) :
    ∀ (columns : List (List Char)) (i : Int) (pairs : List (List Char × List Char)), 0 ≤ i →
      i + (columns.length : Int) ≤ (values.length : Int) →
      insertPairsLoop values columns i pairs ≠ none := by
  intro columns
  induction columns with
  | nil => intro i pairs _ _ h; cases h
  | cons c rest ih =>
    intro i pairs hi hlen h
    simp only [List.length_cons] at hlen
    unfold insertPairsLoop at h
    split at h
    · rename_i hidx
      exact index_ne_none values i hi (by omega) hidx
    · exact ih _ _ (by omega) (by omega) h

theorem parseColumn_ne_panic (U : UnicodeTables) (name typeStr : List Char) :
    parseColumn U name typeStr ≠ Result.panic := by
  intro h
  unfold parseColumn at h
  split at h
  · cases h
  · split at h <;> cases h

theorem parseColumnsLoop_ne_panic (U : UnicodeTables) (st : List (List Char)) :
    ∀ (fuel : Nat) (i : Int) (columns : List Column), 0 ≤ i →
      parseColumnsLoop U st fuel i columns ≠ Result.panic := by
  intro fuel
  induction fuel with
  | zero => intro i columns _ h; cases h
  | succ fuel ih =>
    intro i columns hi h
    unfold parseColumnsLoop at h
    split at h
    · rename_i hlt
      have h0 := index_ne_none st i hi (by omega)
      have h1 := index_ne_none st (i + 1) (by omega) (by omega)
      have h2 := index_ne_none st (i + 2) (by omega) (by omega)
      split at h
      · rename_i hidx; exact h2 hidx
      · split at h
        · split at h
          · split at h
            · cases h
            · cases h
            · rename_i hp; exact parseColumn_ne_panic U _ _ hp
          · rename_i hnot
            cases hx : index st i with
            | none => exact h0 hx
            | some a =>
              cases hy : index st (i + 1) with
              | none => exact h1 hy
              | some b => exact hnot a b hx hy
        · split at h
          · cases h
          · split at h
            · split at h
              · exact ih _ _ (by omega) h
              · cases h
              · rename_i hp; exact parseColumn_ne_panic U _ _ hp
            · rename_i hnot
              cases hx : index st i with
              | none => exact h0 hx
              | some a =>
                cases hy : index st (i + 1) with
                | none => exact h1 hy
                | some b => exact hnot a b hx hy
    · cases h

theorem parseColumnsListLoop_fuel (st : List (List Char)) (endIdx : Int) :
    ∀ (fuel fuel2 : Nat) (i : Int) (columns : List (List Char)),
      (endIdx - i).toNat ≤ fuel → (endIdx - i).toNat ≤ fuel2 →
      parseColumnsListLoop st endIdx fuel i columns =
        parseColumnsListLoop st endIdx fuel2 i columns := by
  intro fuel
  induction fuel with
  | zero =>
    intro fuel2 i columns h1 _
    have hi : ¬ i < endIdx := by omega
    cases fuel2 with
    | zero => rfl
    | succ f2 =>
      unfold parseColumnsListLoop
      rw [if_neg hi]
  | succ fuel ih =>
    intro fuel2 i columns h1 h2
    cases fuel2 with
    | zero =>
      have hi : ¬ i < endIdx := by omega
      unfold parseColumnsListLoop
      rw [if_neg hi]
    | succ f2 =>
      unfold parseColumnsListLoop
      by_cases hi : i < endIdx
      · rw [if_pos hi, if_pos hi]
        cases index st i with
        | none => rfl
        | some token =>
          simp only []
          rw [ih f2 (i + 1) columns (by omega) (by omega),
            ih f2 (i + 1) (columns ++ [token]) (by omega) (by omega)]
      · rw [if_neg hi, if_neg hi]

theorem insertValuesLoop_fuel (st : List (List Char)) (endIdx : Int) :
    ∀ (fuel fuel2 : Nat) (i : Int) (values : List (List Char)),
      (endIdx - i).toNat ≤ fuel → (endIdx - i).toNat ≤ fuel2 →
      insertValuesLoop st endIdx fuel i values =
        insertValuesLoop st endIdx fuel2 i values := by
  intro fuel
  induction fuel with
  | zero =>
    intro fuel2 i values h1 _
    have hi : ¬ i < endIdx := by omega
    cases fuel2 with
    | zero => rfl
    | succ f2 =>
      unfold insertValuesLoop
      rw [if_neg hi]
  | succ fuel ih =>
    intro fuel2 i values h1 h2
    cases fuel2 with
    | zero =>
      have hi : ¬ i < endIdx := by omega
      unfold insertValuesLoop
      rw [if_neg hi]
    | succ f2 =>
      unfold insertValuesLoop
      by_cases hi : i < endIdx
      · rw [if_pos hi, if_pos hi]
        cases index st i with
        | none => rfl
        | some token =>
          simp only []
          rw [ih f2 (i + 1) values (by omega) (by omega),
            ih f2 (i + 1) (values ++ [unquoteValue token]) (by omega) (by omega)]
      · rw [if_neg hi, if_neg hi]

theorem parseColumnsLoop_fuel (U : UnicodeTables) (st : List (List Char)) :
    ∀ (fuel fuel2 : Nat) (i : Int) (columns : List Column),
      ((st.length : Int) - 2 - i).toNat ≤ fuel → ((st.length : Int) - 2 - i).toNat ≤ fuel2 →
      parseColumnsLoop U st fuel i columns = parseColumnsLoop U st fuel2 i columns := by
  intro fuel
  induction fuel with
  | zero =>
    intro fuel2 i columns h1 _
    have hi : ¬ i < (st.length : Int) - 2 := by omega
    cases fuel2 with
    | zero => rfl
    | succ f2 =>
      unfold parseColumnsLoop
      rw [if_neg hi]
  | succ fuel ih =>
    intro fuel2 i columns h1 h2
    cases fuel2 with
    | zero =>
      have hi : ¬ i < (st.length : Int) - 2 := by omega
      unfold parseColumnsLoop
      rw [if_neg hi]
    | succ f2 =>
      unfold parseColumnsLoop
      by_cases hi : i < (st.length : Int) - 2
      · rw [if_pos hi, if_pos hi]
        cases index st (i + 2) with
        | none => rfl
        | some next =>
          simp only []
          cases index st i with
          | none => rfl
          | some name =>
            cases index st (i + 1) with
            | none => rfl
            | some typeStr =>
              simp only []
              cases parseColumn U name typeStr with
              | ok col =>
                simp only []
                rw [ih f2 (i + 3) (columns ++ [col]) (by omega) (by omega)]
              | err e => rfl
              | panic => rfl
      · rw [if_neg hi, if_neg hi]

theorem ParseCreateTableStatement_ne_panic (U : UnicodeTables) (tokens : List (List Char)) :
    ParseCreateTableStatement U tokens ≠ Result.panic := by
  intro h
  unfold ParseCreateTableStatement at h
  split at h
  · rename_i hs; exact splitTokens_ne_panic tokens hs
  · cases h
  · rename_i st hs
    split at h
    · cases h
    · rename_i hlen
      have hl : (8 : Int) ≤ (st.length : Int) := by
        have : ¬ (st.length : Int) < 8 := hlen
        omega
      split at h
      · rename_i hx; exact index_ne_none st 1 (by decide) (by omega) hx
      · split at h
        · cases h
        · split at h
          · rename_i hx; exact index_ne_none st 2 (by decide) (by omega) hx
          · split at h
            · cases h
            · split at h
              · rename_i hx; exact index_ne_none st 3 (by decide) (by omega) hx
              · split at h
                · cases h
                · split at h
                  · rename_i hx; exact index_ne_none st _ (by omega) (by omega) hx
                  · split at h
                    · cases h
                    · split at h
                      · rename_i hx; exact index_ne_none st _ (by omega) (by omega) hx
                      · split at h
                        · cases h
                        · exact parseColumnsLoop_ne_panic U st _ 4 [] (by decide) h

theorem ParseSelectStatement_ne_panic (U : UnicodeTables) (tokens : List (List Char)) :
    ParseSelectStatement U tokens ≠ Result.panic := by
  intro h
  unfold ParseSelectStatement at h
  split at h
  · rename_i hs; exact splitTokens_ne_panic tokens hs
  · cases h
  · rename_i st hs
    split at h
    · cases h
    · rename_i hlen
      have hl : (5 : Int) ≤ (st.length : Int) := by
        have : ¬ (st.length : Int) < 5 := hlen
        omega
      split at h
      · rename_i hx; exact index_ne_none st _ (by omega) (by omega) hx
      · split at h
        · cases h
        · simp only [] at h
          have hr := findKeywordIndex_range U st "from".toList
          split at h
          · cases h
          · rename_i hne
            have hr2 : 0 ≤ findKeywordIndex U st "from".toList ∧
                findKeywordIndex U st "from".toList < (st.length : Int) := by
              rcases hr with hr | hr
              · exact absurd hr hne
              · exact hr
            split at h
            · rename_i hx
              exact parseColumnsListLoop_ne_none st _ (by omega) _ 1 [] (by decide) hx
            · split at h
              · cases h
              · rename_i hge
                split at h
                · rename_i hx; exact index_ne_none st _ (by omega) (by omega) hx
                · split at h <;> cases h

theorem ParseInsertStatement_ne_panic (U : UnicodeTables) (tokens : List (List Char)) :
    ParseInsertStatement U tokens ≠ Result.panic := by
  intro h
  unfold ParseInsertStatement at h
  split at h
  · rename_i hs; exact splitTokens_ne_panic tokens hs
  · cases h
  · rename_i st hs
    split at h
    · cases h
    · rename_i hlen
      have hl : (11 : Int) ≤ (st.length : Int) := by
        have : ¬ (st.length : Int) < 11 := hlen
        omega
      split at h
      · rename_i hx; exact index_ne_none st 1 (by decide) (by omega) hx
      · split at h
        · cases h
        · split at h
          · rename_i hx; exact index_ne_none st 2 (by decide) (by omega) hx
          · split at h
            · cases h
            · split at h
              · rename_i hx; exact index_ne_none st _ (by omega) (by omega) hx
              · split at h
                · cases h
                · split at h
                  · rename_i hx; exact index_ne_none st 3 (by decide) (by omega) hx
                  · split at h
                    · cases h
                    · simp only [] at h
                      have hr := findKeywordIndex_range U st "values".toList
                      split at h
                      · cases h
                      · rename_i hne
                        have hr2 : 0 ≤ findKeywordIndex U st "values".toList ∧
                            findKeywordIndex U st "values".toList < (st.length : Int) := by
                          rcases hr with hr | hr
                          · exact absurd hr hne
                          · exact hr
                        split at h
                        · rename_i hx
                          exact parseColumnsListLoop_ne_none st _ (by omega) _ 4 [] (by decide) hx
                        · split at h
                          · cases h
                          · rename_i hge
                            split at h
                            · rename_i hx
                              exact index_ne_none st _ (by omega) (by omega) hx
                            · split at h
                              · cases h
                              · split at h
                                · rename_i hx
                                  exact index_ne_none st _ (by omega) (by omega) hx
                                · split at h
                                  · cases h
                                  · split at h
                                    · rename_i hx
                                      exact insertValuesLoop_ne_none st _ (by omega) _ _ []
                                        (by omega) hx
                                    · split at h
                                      · cases h
                                      · rename_i hcount
                                        have hc := not_not.mp hcount
                                        split at h
                                        · rename_i hx
                                          exact insertPairsLoop_ne_none _ _ 0 []
                                            (le_refl _) (by omega) hx
                                        · cases h

theorem Result.ok_or_err {α : Type} (r : Result α) (h : r ≠ Result.panic) :
    (∃ v, r = Result.ok v) ∨ (∃ e, r = Result.err e) := by
  cases r with
  | ok v => exact Or.inl ⟨v, rfl⟩
  | err e => exact Or.inr ⟨e, rfl⟩
  | panic => exact absurd rfl h

/-- The three parsers on the edge inputs: the empty list, a list of empty strings, and tokens
that are bare punctuation, where each call returns an error, and two statements out of shape. -/
theorem parse_edge_inputs :
    ParseCreateTableStatement asciiTables [] = Result.err (Err.splitting Err.noTokens) ∧
    ParseInsertStatement asciiTables [] = Result.err (Err.splitting Err.noTokens) ∧
    ParseSelectStatement asciiTables [] = Result.err (Err.splitting Err.noTokens) ∧
    ParseCreateTableStatement asciiTables [[], [], [], [], [], [], [], []] =
      Result.err Err.expectedTable ∧
    ParseInsertStatement asciiTables [[]] = Result.err Err.incompleteInsert ∧
    ParseSelectStatement asciiTables [[], [], [], [], []] = Result.err Err.expectedSemicolon ∧
    ParseCreateTableStatement asciiTables ["(".toList] =
      Result.err (Err.splitting Err.invalidToken) ∧
    ParseInsertStatement asciiTables [",".toList] =
      Result.err (Err.splitting Err.invalidToken) ∧
    ParseSelectStatement asciiTables [");".toList] =
      Result.err (Err.splitting Err.invalidToken) ∧
    ParseSelectStatement asciiTables ["(,".toList] =
      Result.err (Err.splitting Err.invalidToken) ∧
    ParseCreateTableStatement asciiTables ["\n".toList, ";".toList] =
      Result.err (Err.splitting Err.invalidToken) ∧
    ParseSelectStatement asciiTables
        ["x".toList, "from".toList, "a,".toList, "b".toList, "from;".toList] =
      Result.ok { TableName := "a".toList, Columns := [] } ∧
    ParseInsertStatement asciiTables
        ["a".toList, "into".toList, "t".toList, "(a".toList, "values".toList, "(b".toList,
          "c".toList, "d".toList, "e)".toList, "f;".toList] =
      Result.err Err.expectedCloseParen := by
  decide

/-- C21. The parser is total on arbitrary input. For every list of strings `tokens`, each of
`ParseCreateTableStatement`, `ParseInsertStatement` and `ParseSelectStatement` returns a value
or returns an error: none of them panics, and neither does `splitTokens`, so every index
`splittedTokens[i]`, `values[i]` and every substring `token[lo:hi]` they evaluate is inside
bounds. The loops of the three functions stop within the number of passes their definitions
allow: with any number of further passes allowed they give the same result. -/
theorem parser_total (U : UnicodeTables) (tokens : List (List Char)) :
    ((∃ columns, ParseCreateTableStatement U tokens = Result.ok columns) ∨
      (∃ e, ParseCreateTableStatement U tokens = Result.err e)) ∧
    ((∃ data, ParseInsertStatement U tokens = Result.ok data) ∨
      (∃ e, ParseInsertStatement U tokens = Result.err e)) ∧
    ((∃ data, ParseSelectStatement U tokens = Result.ok data) ∨
      (∃ e, ParseSelectStatement U tokens = Result.err e)) ∧
    ((∃ splittedTokens, splitTokens tokens = Result.ok splittedTokens) ∨
      (∃ e, splitTokens tokens = Result.err e)) ∧
    (∀ (splittedTokens : List (List Char)) (more : Nat),
      parseColumnsLoop U splittedTokens (splittedTokens.length + more) 4 [] =
        parseColumnsLoop U splittedTokens splittedTokens.length 4 []) ∧
    (∀ (splittedTokens : List (List Char)) (startIdx endIdx : Int) (more : Nat),
      parseColumnsListLoop splittedTokens endIdx ((endIdx - startIdx).toNat + more) startIdx [] =
        parseColumnsList splittedTokens startIdx endIdx) ∧
    (∀ (splittedTokens : List (List Char)) (valuesIdx closingParenIdx : Int) (more : Nat),
      insertValuesLoop splittedTokens closingParenIdx
          ((closingParenIdx - (valuesIdx + 2)).toNat + more) (valuesIdx + 2) [] =
        insertValues splittedTokens valuesIdx closingParenIdx) := by
  refine ⟨Result.ok_or_err _ (ParseCreateTableStatement_ne_panic U tokens),
    Result.ok_or_err _ (ParseInsertStatement_ne_panic U tokens),
    Result.ok_or_err _ (ParseSelectStatement_ne_panic U tokens),
    Result.ok_or_err _ (splitTokens_ne_panic tokens), ?_, ?_, ?_⟩
  · intro st more
    exact parseColumnsLoop_fuel U st _ _ 4 [] (by omega) (by omega)
  · intro st startIdx endIdx more
    exact parseColumnsListLoop_fuel st endIdx _ _ startIdx [] (by omega) (le_refl _)
  · intro st valuesIdx closingParenIdx more
    exact insertValuesLoop_fuel st closingParenIdx _ _ (valuesIdx + 2) [] (by omega) (le_refl _)

theorem ParseInsertStatement_ok_inv_open (U : UnicodeTables) (tokens : List (List Char))
    (d : InsertStatementData) (h : ParseInsertStatement U tokens = Result.ok d) :
    ∃ st cols vals,
      splitTokens tokens = Result.ok st ∧
      ¬ (st.length : Int) < MinSQLInsertTokens ∧
      findKeywordIndex U st "values".toList ≠ -1 ∧
      index st (findKeywordIndex U st "values".toList + 1) = some ['('] ∧
      parseColumnsList st 4 (findKeywordIndex U st "values".toList) = some cols ∧
      insertValues st (findKeywordIndex U st "values".toList) ((st.length : Int) - 2) = some vals ∧
      cols.length = vals.length ∧
      insertPairsLoop vals cols 0 [] = some d.Pairs := by
  unfold ParseInsertStatement at h
  repeat (first
    | (split at h <;> first | contradiction | skip)
    | (simp only [] at h))
  simp only [Result.ok.injEq] at h
  subst h
  have hopen : ∃ o, index _ (findKeywordIndex U _ "values".toList + 1) = some o ∧ ¬ o ≠ ['('] :=
    ⟨_, ‹_›, ‹_›⟩
  obtain ⟨o, ho, ho2⟩ := hopen
  rw [not_not.mp ho2] at ho
  exact ⟨_, _, _, ‹_›, ‹_›, ‹_›, ho, ‹_›, ‹_›, by simpa using ‹¬ _ ≠ _›, ‹_›⟩

theorem getElem?_two_marks {α : Type} (a x y : α) (L1 L2 L3 : List α) (n : Nat)
    (h1 : a ∉ L1) (h2 : a ∉ L2) (h3 : a ∉ L3)
    (h : (L1 ++ x :: L2 ++ y :: L3)[n]? = some a) :
    n = L1.length ∨ (n = L1.length + 1 + L2.length ∧ y = a) := by
  rcases Nat.lt_trichotomy n L1.length with hlt | heq | hgt
  · rw [List.append_assoc, List.getElem?_append_left hlt] at h
    exact absurd (List.getElem?_mem h) h1
  · exact Or.inl heq
  · right
    rw [List.append_assoc, List.getElem?_append_right (by omega)] at h
    obtain ⟨m, hm⟩ : ∃ m, n - L1.length = m + 1 := ⟨n - L1.length - 1, by omega⟩
    rw [hm, List.cons_append, List.getElem?_cons_succ] at h
    rcases Nat.lt_trichotomy m L2.length with hlt2 | heq2 | hgt2
    · rw [List.getElem?_append_left hlt2] at h
      exact absurd (List.getElem?_mem h) h2
    · rw [List.getElem?_append_right (by omega), heq2, Nat.sub_self, List.getElem?_cons_zero] at h
      exact ⟨by omega, Option.some.inj h⟩
    · rw [List.getElem?_append_right (by omega)] at h
      obtain ⟨j, hj⟩ : ∃ j, m - L2.length = j + 1 := ⟨m - L2.length - 1, by omega⟩
      rw [hj, List.getElem?_cons_succ] at h
      exact absurd (List.getElem?_mem h) h3

theorem Plain.ne_open {w : List Char} (h : Plain w) : w ≠ ['('] := by
  intro e; subst e
  exact (h.2 '(' (List.mem_singleton_self _)).1 rfl

theorem splitTokensLoop_columnList (cs : List (List Char)) (hn : cs ≠ [])
    (hc : ∀ c ∈ cs, Plain c) :
    ∃ B, (∀ more output, splitTokensLoop (openParen (listTokens [')'] cs) ++ more) output =
        splitTokensLoop more (output ++ ['('] :: B)) ∧
      (∀ t ∈ B, t ≠ ['(']) ∧ (∃ b B2, B = b :: B2 ∧ b ≠ [',']) ∧
      (B.filter (fun t => decide (¬ (t = [','] ∨ t = [')'])))).length = cs.length := by
  match cs, hn, hc with
  | [c], _, hc =>
    have hp : Plain c := hc c (List.mem_singleton_self _)
    have hpos : 0 < c.length := List.length_pos.mpr hp.1
    have hlen : ∀ z : Char, c ++ [')'] ≠ [z] := by
      intro z e
      have := congrArg List.length e
      simp only [List.length_append, List.length_cons, List.length_nil] at this
      omega
    refine ⟨[c ++ [')']], ?_, ?_, ⟨_, _, rfl, hlen ','⟩, ?_⟩
    · intro more output
      simp only [listTokens, openParen, List.cons_append, List.nil_append]
      rw [splitTokensLoop_cons_ok _ _ _ _ (splitToken_open_paren c hp)]
    · intro t ht
      rw [List.mem_singleton] at ht
      subst ht
      exact hlen '('
    · rw [List.filter_cons_of_pos (by
        rw [decide_eq_true_eq]
        exact fun hk => hk.elim (hlen ',') (hlen ')'))]
      rfl
  | x :: y :: rest, _, hc =>
    refine ⟨commaSeparated (x :: y :: rest) ++ [[')']], ?_, ?_, ⟨x, _, rfl, ?_⟩, ?_⟩
    · intro more output
      rw [splitTokensLoop_openParen [')'] [[')']] splitToken_paren x y rest more output hc]
      simp
    · intro t ht
      rcases List.mem_append.mp ht with h | h
      · rcases mem_commaSeparated t _ h with h2 | h2
        · subst h2; decide
        · exact (hc t h2).ne_open
      · rw [List.mem_singleton] at h
        subst h; decide
    · exact (hc x (List.mem_cons_self _ _)).ne_comma
    · rw [List.filter_append, filter_commaSeparated _ (by simp) _
        (fun c hm => by
          have := hc c hm
          simp [this.ne_comma, this.ne_paren])]
      simp

theorem splitTokensLoop_valueList (vs : List (List Char)) (hn : vs ≠ [])
    (hv : ∀ v ∈ vs, Plain v) :
    ∃ vhead V, (∀ more output,
        splitTokensLoop (openParen (listTokens [')', ';'] vs) ++ more) output =
          splitTokensLoop more (output ++ vhead :: (V ++ [[')'], [';']]))) ∧
      (∀ t ∈ V, t ≠ ['(']) ∧
      (vhead = ['('] → (V.filter (fun t => decide (¬ t = [',']))).length = vs.length) := by
  match vs, hn, hv with
  | [v], _, hv =>
    have hp : Plain v := hv v (List.mem_singleton_self _)
    refine ⟨'(' :: v, [], ?_, ?_, ?_⟩
    · intro more output
      simp only [listTokens, openParen, List.cons_append, List.nil_append]
      rw [splitTokensLoop_cons_ok _ _ _ _ (splitToken_open_close v hp)]
    · intro t ht; cases ht
    · intro e
      exact absurd (List.cons.inj e).2 hp.1
  | x :: y :: rest, _, hv =>
    refine ⟨['('], commaSeparated (x :: y :: rest), ?_, ?_, ?_⟩
    · intro more output
      rw [splitTokensLoop_openParen [')', ';'] [[')'], [';']] splitToken_close x y rest more
        output hv]
      simp
    · intro t ht
      rcases mem_commaSeparated t _ ht with h2 | h2
      · subst h2; decide
      · exact (hv t h2).ne_open
    · intro _
      rw [filter_commaSeparated _ (by simp) _
        (fun v hm => by
          have := hv v hm
          simp [this.ne_comma])]

theorem splitTokens_insertTokens_shape (T : List Char) (cs vs : List (List Char))
    (hT : Plain T) (hcn : cs ≠ []) (hvn : vs ≠ [])
    (hc : ∀ c ∈ cs, Plain c) (hv : ∀ v ∈ vs, Plain v) :
    ∃ (B : List (List Char)) (vhead : List Char) (V : List (List Char)),
      splitTokens (insertTokens T cs vs) =
        Result.ok (["insert".toList, "into".toList, T, ['(']] ++ B ++ ["values".toList, vhead]
          ++ V ++ [[')'], [';']]) ∧
      (∀ t ∈ B, t ≠ ['(']) ∧ (∃ b B2, B = b :: B2 ∧ b ≠ [',']) ∧
      (B.filter (fun t => decide (¬ (t = [','] ∨ t = [')'])))).length = cs.length ∧
      (∀ t ∈ V, t ≠ ['(']) ∧
      (vhead = ['('] → (V.filter (fun t => decide (¬ t = [',']))).length = vs.length) := by
  obtain ⟨B, hB, hB1, hB2, hB3⟩ := splitTokensLoop_columnList cs hcn hc
  obtain ⟨vhead, V, hV, hV1, hV2⟩ := splitTokensLoop_valueList vs hvn hv
  have hinsert : Plain "insert".toList := ⟨by decide, by decide⟩
  have hinto : Plain "into".toList := ⟨by decide, by decide⟩
  have hvalues : Plain "values".toList := ⟨by decide, by decide⟩
  have e : openParen (listTokens [')', ';'] vs) = openParen (listTokens [')', ';'] vs) ++ [] := by
    simp
  refine ⟨B, vhead, V, ?_, hB1, hB2, hB3, hV1, hV2⟩
  unfold splitTokens insertTokens
  rw [if_neg (by simp),
    splitTokensLoop_cons_ok _ _ _ _ (splitToken_plain _ hinsert),
    splitTokensLoop_cons_ok _ _ _ _ (splitToken_plain _ hinto),
    splitTokensLoop_cons_ok _ _ _ _ (splitToken_plain _ hT),
    hB, splitTokensLoop_cons_ok _ _ _ _ (splitToken_plain _ hvalues), e, hV]
  simp [splitTokensLoop]

theorem ParseInsertStatement_ok_shape (U : UnicodeTables) (tokens : List (List Char))
    (T vhead : List Char) (B V : List (List Char)) (d : InsertStatementData)
    (hsplit : splitTokens tokens = Result.ok
      (["insert".toList, "into".toList, T, ['(']] ++ B ++ ["values".toList, vhead] ++ V ++
        [[')'], [';']]))
    (hT : T ≠ ['(']) (hB : ∀ t ∈ B, t ≠ ['(']) (hB0 : ∃ b B2, B = b :: B2 ∧ b ≠ [','])
    (hV : ∀ t ∈ V, t ≠ ['('])
    (hok : ParseInsertStatement U tokens = Result.ok d) :
    vhead = ['('] ∧
    (B.filter (fun t => decide (¬ (t = [','] ∨ t = [')'])))).length =
      (V.filter (fun t => decide (¬ t = [',']))).length ∧
    d.Pairs.length ≤ (B.filter (fun t => decide (¬ (t = [','] ∨ t = [')'])))).length := by
  obtain ⟨st, cols, vals, h1, -, -, hopen, hcols, hvals, hlen, hpairs⟩ :=
    ParseInsertStatement_ok_inv_open U tokens d hok
  rw [hsplit, Result.ok.injEq] at h1
  have hr := findKeywordIndex_range U st "values".toList
  generalize findKeywordIndex U st "values".toList = k at hopen hcols hvals hr
  have hk0 : 0 ≤ k + 1 := by
    by_contra hneg
    unfold index at hopen
    rw [if_neg hneg] at hopen
    cases hopen
  have hstlen : (st.length : Int) = 8 + (B.length : Int) + (V.length : Int) := by
    rw [← h1]
    simp only [List.length_append, List.length_cons, List.length_nil]; omega
  have e0 : st = ["insert".toList, "into".toList, T] ++ ['('] :: (B ++ ["values".toList]) ++
      vhead :: (V ++ [[')'], [';']]) := by
    rw [← h1]; simp
  have hmark : (k + 1).toNat = 3 ∨ ((k + 1).toNat = 3 + 1 + (B.length + 1) ∧ vhead = ['(']) := by
    unfold index at hopen
    rw [if_pos hk0, e0] at hopen
    have := getElem?_two_marks ['('] ['('] vhead ["insert".toList, "into".toList, T]
      (B ++ ["values".toList]) (V ++ [[')'], [';']]) (k + 1).toNat ?_ ?_ ?_ hopen
    · simpa using this
    · intro hm
      simp only [List.mem_cons, List.mem_singleton, List.not_mem_nil, or_false] at hm
      rcases hm with hm | hm | hm
      · exact absurd hm (by decide)
      · exact absurd hm (by decide)
      · exact hT hm.symm
    · intro hm
      rcases List.mem_append.mp hm with hm | hm
      · exact hB _ hm rfl
      · rw [List.mem_singleton] at hm
        exact absurd hm (by decide)
    · intro hm
      rcases List.mem_append.mp hm with hm | hm
      · exact hV _ hm rfl
      · simp only [List.mem_cons, List.mem_singleton, List.not_mem_nil, or_false] at hm
        rcases hm with hm | hm
        · exact absurd hm (by decide)
        · exact absurd hm (by decide)
  have e3 : st = ["insert".toList, "into".toList, T, ['(']] ++ B ++
      (["values".toList, vhead] ++ V ++ [[')'], [';']]) := by
    rw [← h1]; simp
  rcases hmark with hm | ⟨hm, hvh⟩
  · -- the keyword index is 2: no column is gathered, and the first column token is a value
    exfalso
    have hk : k = 2 := by omega
    subst hk
    have hc0 : cols = [] := by
      have : parseColumnsList st 4 2 = some [] := rfl
      rw [this] at hcols
      exact (Option.some.inj hcols).symm
    obtain ⟨b, B2, hBe, hb⟩ := hB0
    have e4 : st = ["insert".toList, "into".toList, T, ['(']] ++
        (B ++ ["values".toList, vhead] ++ V) ++ [[')'], [';']] := by
      rw [← h1]; simp
    have hv2 : insertValues st 2 ((st.length : Int) - 2) = some
        ((((B ++ ["values".toList, vhead] ++ V).filter (fun t => decide (¬ t = [',']))).map
          unquoteValue)) := by
      unfold insertValues
      rw [hstlen, e4, insertValuesLoop_segment _ (B ++ ["values".toList, vhead] ++ V)
        ["insert".toList, "into".toList, T, ['(']] _ _ _ [] (by rfl)
        (by simp only [List.length_append, List.length_cons, List.length_nil]; omega)
        (by simp only [List.length_append, List.length_cons, List.length_nil]; omega)]
      rfl
    rw [hv2, Option.some.injEq] at hvals
    rw [hc0, ← hvals, hBe] at hlen
    simp only [List.cons_append] at hlen
    rw [List.filter_cons_of_pos (by simpa using hb)] at hlen
    simp at hlen
  · have hk : k = 4 + (B.length : Int) := by omega
    subst hk
    have hc : parseColumnsList st 4 (4 + (B.length : Int)) = some
        (B.filter (fun t => decide (¬ (t = [','] ∨ t = [')'])))) := by
      unfold parseColumnsList
      rw [e3, parseColumnsListLoop_segment _ B ["insert".toList, "into".toList, T, ['(']] _ _ 4 []
        rfl (by omega) (by omega)]
      rfl
    have hv2 : insertValues st (4 + (B.length : Int)) ((st.length : Int) - 2) = some
        ((V.filter (fun t => decide (¬ t = [',']))).map unquoteValue) := by
      unfold insertValues
      rw [hstlen, ← h1, insertValuesLoop_segment _ V _ _ _ _ []
        (by simp only [List.length_append, List.length_cons, List.length_nil]; omega)
        (by omega) (by omega)]
      rfl
    rw [hc, Option.some.injEq] at hcols
    rw [hv2, Option.some.injEq] at hvals
    have hp := insertPairsLoop_length vals cols 0 [] d.Pairs hpairs
    rw [← hcols, ← hvals, List.length_map] at hlen
    rw [← hcols] at hp
    exact ⟨hvh, hlen, by simpa using hp⟩

theorem window_split {α : Type} (st : List α) (a b : Nat) (hab : a ≤ b) (hb : b ≤ st.length) :
    st = st.take a ++ (st.take b).drop a ++ st.drop b ∧ (st.take a).length = a ∧
      ((st.take b).drop a).length = b - a := by
  refine ⟨?_, ?_, ?_⟩
  · have h1 : st.take a = (st.take b).take a := by
      rw [List.take_take, Nat.min_eq_left hab]
    rw [h1, List.take_append_drop, List.take_append_drop]
  · rw [List.length_take]; omega
  · rw [List.length_drop, List.length_take]; omega

theorem parseColumnsListLoop_window (st : List (List Char)) (a b fuel : Nat)
    (hb : b ≤ st.length) (hf : b - a ≤ fuel) :
    parseColumnsListLoop st (b : Int) fuel (a : Int) [] =
      some (((st.take b).drop a).filter (fun t => decide (¬ (t = [','] ∨ t = [')'])))) := by
  by_cases hab : a ≤ b
  · obtain ⟨e, hl1, hl2⟩ := window_split st a b hab hb
    have key := parseColumnsListLoop_segment (b : Int) ((st.take b).drop a) (st.take a)
      (st.drop b) fuel (a : Int) [] (by rw [hl1]) (by rw [hl2]; omega) (by omega)
    rw [← e] at key
    simpa using key
  · have he : (st.take b).drop a = [] := by
      apply List.drop_eq_nil_of_le
      rw [List.length_take]; omega
    rw [he]
    cases fuel with
    | zero => rfl
    | succ f =>
      unfold parseColumnsListLoop
      rw [if_neg (by omega)]
      rfl

theorem insertValuesLoop_window (st : List (List Char)) (a b fuel : Nat)
    (hb : b ≤ st.length) (hf : b - a ≤ fuel) :
    insertValuesLoop st (b : Int) fuel (a : Int) [] =
      some ((((st.take b).drop a).filter (fun t => decide (¬ t = [',']))).map unquoteValue) := by
  by_cases hab : a ≤ b
  · obtain ⟨e, hl1, hl2⟩ := window_split st a b hab hb
    have key := insertValuesLoop_segment (b : Int) ((st.take b).drop a) (st.take a)
      (st.drop b) fuel (a : Int) [] (by rw [hl1]) (by rw [hl2]; omega) (by omega)
    rw [← e] at key
    simpa using key
  · have he : (st.take b).drop a = [] := by
      apply List.drop_eq_nil_of_le
      rw [List.length_take]; omega
    rw [he]
    cases fuel with
    | zero => rfl
    | succ f =>
      unfold insertValuesLoop
      rw [if_neg (by omega)]
      rfl

theorem findKeywordIndexLoop_first (U : UnicodeTables) (keyword : List Char) :
    ∀ (tokens : List (List Char)) (i : Int) (k : Nat),
      findKeywordIndexLoop U keyword tokens i = i + (k : Int) → 0 ≤ i →
      (∃ t, tokens[k]? = some t ∧ ToLower U t = keyword) ∧
        ∀ t ∈ tokens.take k, ToLower U t ≠ keyword := by
  intro tokens
  induction tokens with
  | nil =>
    intro i k h hi
    unfold findKeywordIndexLoop at h
    omega
  | cons t rest ih =>
    intro i k h hi
    unfold findKeywordIndexLoop at h
    by_cases hk : ToLower U t = keyword
    · rw [if_pos hk] at h
      have : k = 0 := by omega
      subst this
      exact ⟨⟨t, List.getElem?_cons_zero, hk⟩, fun z hz => by simp at hz⟩
    · rw [if_neg hk] at h
      have hr := findKeywordIndexLoop_range U keyword rest (i + 1) (by omega)
      obtain ⟨j, hj⟩ : ∃ j, k = j + 1 := ⟨k - 1, by omega⟩
      subst hj
      obtain ⟨h1, h2⟩ := ih (i + 1) j (by rw [h]; push_cast; omega) (by omega)
      refine ⟨by simpa using h1, fun z hz => ?_⟩
      rw [List.take_succ_cons, List.mem_cons] at hz
      rcases hz with hz | hz
      · subst hz; exact hk
      · exact h2 z hz

/-- Whenever `ParseInsertStatement` succeeds, the first token of the split statement that is
`values` in some letter case stands at an index `k`, the columns listed before it and the values
listed after it are equal in number, and `Pairs` has at most that many entries. -/
theorem ParseInsertStatement_ok_counts (U : UnicodeTables) (tokens : List (List Char))
    (d : InsertStatementData) (hok : ParseInsertStatement U tokens = Result.ok d) :
    ∃ st k, splitTokens tokens = Result.ok st ∧
      (∃ t, st[k]? = some t ∧ ToLower U t = "values".toList) ∧
      (∀ t ∈ st.take k, ToLower U t ≠ "values".toList) ∧
      (listedColumns st k).length = (listedValues st k).length ∧
      d.Pairs.length ≤ (listedColumns st k).length := by
  obtain ⟨st, cols, vals, h1, hmin, hne, hopen, hcols, hvals, hlen, hpairs⟩ :=
    ParseInsertStatement_ok_inv_open U tokens d hok
  have hl : (11 : Int) ≤ st.length := by
    simp only [MinSQLInsertTokens] at hmin; omega
  have hr := findKeywordIndex_range U st "values".toList
  have hr2 : 0 ≤ findKeywordIndex U st "values".toList ∧
      findKeywordIndex U st "values".toList < (st.length : Int) := by
    rcases hr with hr | hr
    · exact absurd hr hne
    · exact hr
  obtain ⟨k, hk⟩ : ∃ k : Nat, findKeywordIndex U st "values".toList = (k : Int) :=
    ⟨(findKeywordIndex U st "values".toList).toNat, by omega⟩
  rw [hk] at hcols hvals hr2
  have hfirst := findKeywordIndexLoop_first U "values".toList st 0 k
    (by rw [← hk, Int.zero_add]; rfl) (le_refl _)
  have hc : parseColumnsList st 4 (k : Int) = some (listedColumns st k) := by
    unfold parseColumnsList listedColumns
    exact parseColumnsListLoop_window st 4 k _ (by omega) (by omega)
  have hv : insertValues st (k : Int) ((st.length : Int) - 2) =
      some ((listedValues st k).map unquoteValue) := by
    unfold insertValues listedValues
    have e1 : (st.length : Int) - 2 = ((st.length - 2 : Nat) : Int) := by omega
    have e2 : (k : Int) + 2 = ((k + 2 : Nat) : Int) := by push_cast; rfl
    rw [e1, e2]
    exact insertValuesLoop_window st (k + 2) (st.length - 2) _ (by omega) (by omega)
  rw [hc, Option.some.injEq] at hcols
  rw [hv, Option.some.injEq] at hvals
  have hp := insertPairsLoop_length vals cols 0 [] d.Pairs hpairs
  rw [← hcols, ← hvals, List.length_map] at hlen
  rw [← hcols] at hp
  exact ⟨st, k, h1, hfirst.1, hfirst.2, hlen, by simpa using hp⟩

/-- The checks of `ParseInsertStatement` on split tokens of the shape `insert into T (`, column
tokens and `)`, `values (`, value tokens, `) ;`, when the columns and the values differ in
number: the error is `number of columns does not match number of values`. -/
theorem ParseInsertStatement_on_split_mismatch (U : UnicodeTables) (tokens : List (List Char))
    (T : List Char) (B segV cs vals : List (List Char))
    (hsplit : splitTokens tokens = Result.ok
      (["insert".toList, "into".toList, T, ['(']] ++ B ++ ["values".toList, ['(']] ++ segV ++
        [[')'], [';']]))
    (hT : isValidIdentifier U T = none) (hTv : ToLower U T ≠ "values".toList)
    (hBmem : ∀ t ∈ B, ToLower U t ≠ "values".toList)
    (hBfilter : B.filter (fun t => decide (¬ (t = [','] ∨ t = [')']))) = cs)
    (hBlen : 3 ≤ B.length)
    (hVfilter : (segV.filter (fun t => decide (¬ t = [',']))).map unquoteValue = vals)
    (hne : cs.length ≠ vals.length) :
    ParseInsertStatement U tokens = Result.err Err.countMismatch := by
  generalize hst : ["insert".toList, "into".toList, T, ['(']] ++ B ++ ["values".toList, ['(']]
    ++ segV ++ [[')'], [';']] = st at hsplit
  have hstlen : (st.length : Int) = 8 + (B.length : Int) + (segV.length : Int) := by
    rw [← hst]
    simp only [List.length_append, List.length_cons, List.length_nil]; omega
  have e1 : st = "insert".toList :: "into".toList :: T :: ['('] ::
      (B ++ ["values".toList, ['(']] ++ segV ++ [[')'], [';']]) := by
    rw [← hst]; simp
  have i1 : index st 1 = some "into".toList := by
    rw [e1, show (1 : Int) = 0 + 1 from rfl, index_cons_succ _ _ _ (le_refl _), index_cons_zero]
  have i2 : index st 2 = some T := by
    rw [e1, show (2 : Int) = 0 + 1 + 1 from rfl, index_cons_succ _ _ _ (by decide),
      index_cons_succ _ _ _ (le_refl _), index_cons_zero]
  have i3 : index st 3 = some ['('] := by
    rw [e1, show (3 : Int) = 0 + 1 + 1 + 1 from rfl, index_cons_succ _ _ _ (by decide),
      index_cons_succ _ _ _ (by decide), index_cons_succ _ _ _ (le_refl _), index_cons_zero]
  have ilast : index st ((st.length : Int) - 1) = some [';'] := by
    rw [hstlen, ← hst, index_append_right _ _ _ 1 (by
      simp only [List.length_append, List.length_cons, List.length_nil]; omega)]
    rfl
  have iclose : index st ((st.length : Int) - 2) = some [')'] := by
    rw [hstlen, ← hst, index_append_right _ _ _ 0 (by
      simp only [List.length_append, List.length_cons, List.length_nil]; omega)]
    rfl
  have e2 : st = (["insert".toList, "into".toList, T, ['(']] ++ B) ++
      "values".toList :: ([['(']] ++ segV ++ [[')'], [';']]) := by
    rw [← hst]; simp
  have hinsert : ToLower U "insert".toList ≠ "values".toList := by
    rw [IsLetterCaseOf.ToLower_eq U (t := "insert".toList) (w := "insert".toList)
      (by decide) (by decide)]
    decide
  have hvidx : findKeywordIndex U st "values".toList = 4 + (B.length : Int) := by
    unfold findKeywordIndex
    rw [e2, findKeywordIndexLoop_found U "values".toList "values".toList _ _ 0 ?_
      (IsLetterCaseOf.ToLower_eq U (t := "values".toList) (by decide) (by decide))]
    · simp only [List.length_append, List.length_cons, List.length_nil]; omega
    · intro t ht
      rcases List.mem_append.mp ht with h | h
      · simp only [List.mem_cons, List.mem_singleton, List.not_mem_nil, or_false] at h
        rcases h with rfl | rfl | rfl | rfl
        · exact hinsert
        · exact ToLower_ne_of_length U _ _ (by decide)
        · exact hTv
        · exact ToLower_ne_of_length U _ _ (by decide)
      · exact hBmem t h
  have iopen : index st (4 + (B.length : Int) + 1) = some ['('] := by
    rw [e2, index_append_right _ _ _ 1 (by
      simp only [List.length_append, List.length_cons, List.length_nil]; omega)]
    simp
  have e3 : st = ["insert".toList, "into".toList, T, ['(']] ++ B ++
      (["values".toList, ['(']] ++ segV ++ [[')'], [';']]) := by
    rw [← hst]; simp
  have hcols : parseColumnsList st 4 (4 + (B.length : Int)) = some cs := by
    unfold parseColumnsList
    rw [e3, parseColumnsListLoop_segment _ B ["insert".toList, "into".toList, T, ['(']] _ _ 4 []
      rfl (by omega) (by omega), hBfilter]
    rfl
  have hvals : insertValues st (4 + (B.length : Int)) ((st.length : Int) - 2) = some vals := by
    unfold insertValues
    rw [hstlen, ← hst, insertValuesLoop_segment _ segV _ _ _ _ []
      (by simp only [List.length_append, List.length_cons, List.length_nil]; omega)
      (by omega) (by omega), hVfilter]
    rfl
  unfold ParseInsertStatement
  rw [hsplit]
  simp only [hvidx, i1, i2, i3, ilast, iclose, iopen, hcols, hvals, hT, ToLower_into]
  rw [if_neg (by rw [hstlen]; simp only [MinSQLInsertTokens]; omega)]
  simp only [ne_eq, not_true_eq_false, if_false]
  rw [if_neg (by omega), if_neg (by rw [hstlen]; omega), if_pos hne]

/-- C13. `ParseInsertStatement` rejects a statement whose column count and value count differ.
For every table name `T`, column names `c1..cn` and values `v1..vm`, `n ≥ 1` and `m ≥ 1`, all
of them non-empty words without parenthesis, comma, semicolon or newline: the tokens `insert`,
`into`, `T`, `(c1,`, ..., `cn)`, `values`, `(v1,`, ..., `vm);` of the statement
`insert into T (c1, ..., cn) values (v1, ..., vm);` give an error when `n ≠ m`; whenever they
are accepted, `n = m` and `Pairs` has at most `n` entries; with `n ≥ 2`, `m ≥ 2`, `n ≠ m`, a
valid table name and no name that is `values` in some letter case, the error is `number of
columns does not match number of values`. And for every token list the result is an error,
unless the columns listed before the first `values` keyword of the split statement and the
values listed after it, counted as `listedColumns` and `listedValues` do, are equal in number,
and then `Pairs` has at most that many entries. -/
theorem ParseInsertStatement_count_mismatch (U : UnicodeTables) (T : List Char)
    (cs vs : List (List Char)) (hT : Plain T) (hcn : cs ≠ []) (hvn : vs ≠ [])
    (hc : ∀ c ∈ cs, Plain c) (hv : ∀ v ∈ vs, Plain v) :
    (cs.length ≠ vs.length →
      ∃ e, ParseInsertStatement U (insertTokens T cs vs) = Result.err e) ∧
    (∀ d, ParseInsertStatement U (insertTokens T cs vs) = Result.ok d →
      cs.length = vs.length ∧ d.Pairs.length ≤ cs.length) ∧
    (2 ≤ cs.length → 2 ≤ vs.length → cs.length ≠ vs.length →
      isValidIdentifier U T = none → ToLower U T ≠ "values".toList →
      (∀ c ∈ cs, ToLower U c ≠ "values".toList) →
      ParseInsertStatement U (insertTokens T cs vs) = Result.err Err.countMismatch) ∧
    (∀ tokens : List (List Char), (∃ e, ParseInsertStatement U tokens = Result.err e) ∨
      ∃ d st k, ParseInsertStatement U tokens = Result.ok d ∧
        splitTokens tokens = Result.ok st ∧
        (∃ t, st[k]? = some t ∧ ToLower U t = "values".toList) ∧
        (∀ t ∈ st.take k, ToLower U t ≠ "values".toList) ∧
        (listedColumns st k).length = (listedValues st k).length ∧
        d.Pairs.length ≤ (listedColumns st k).length) := by
  have hacc : ∀ d, ParseInsertStatement U (insertTokens T cs vs) = Result.ok d →
      cs.length = vs.length ∧ d.Pairs.length ≤ cs.length := by
    intro d hok
    obtain ⟨B, vhead, V, hsplit, hB1, hB2, hB3, hV1, hV2⟩ :=
      splitTokens_insertTokens_shape T cs vs hT hcn hvn hc hv
    obtain ⟨h1, h2, h3⟩ := ParseInsertStatement_ok_shape U _ T vhead B V d hsplit hT.ne_open
      hB1 hB2 hV1 hok
    have h4 := hV2 h1
    exact ⟨by omega, by omega⟩
  refine ⟨?_, hacc, ?_, ?_⟩
  · intro hne
    rcases Result.ok_or_err _ (ParseInsertStatement_ne_panic U (insertTokens T cs vs)) with
      ⟨d, hd⟩ | he
    · exact absurd (hacc d hd).1 hne
    · exact he
  · intro h2c h2v hne hTid hTv hcv
    have hsplit := splitTokens_insertTokens T cs vs h2c h2v hT hc hv
    refine ParseInsertStatement_on_split_mismatch U _ T (commaSeparated cs ++ [[')']])
      (commaSeparated vs) cs (vs.map unquoteValue) hsplit hTid hTv ?_ ?_ ?_ ?_
      (by simpa using hne)
    · intro t ht
      rcases List.mem_append.mp ht with h | h
      · rcases mem_commaSeparated t cs h with h2 | h2
        · subst h2; exact ToLower_ne_of_length U _ _ (by decide)
        · exact hcv t h2
      · simp only [List.mem_singleton] at h
        subst h; exact ToLower_ne_of_length U _ _ (by decide)
    · rw [List.filter_append, filter_commaSeparated _ (by simp) cs
        (fun c hm => by
          have := hc c hm
          simp [this.ne_comma, this.ne_paren])]
      simp
    · obtain ⟨x, y, rest, hcs⟩ := exists_two_of_length cs h2c
      have := commaSeparated_length x (y :: rest)
      rw [← hcs] at this
      simp only [List.length_append, List.length_cons, List.length_nil]; omega
    · rw [filter_commaSeparated _ (by simp) vs
        (fun v hm => by
          have := hv v hm
          simp [this.ne_comma])]
  · intro tokens
    rcases Result.ok_or_err _ (ParseInsertStatement_ne_panic U tokens) with ⟨d, hd⟩ | he
    · obtain ⟨st, k, h1, h2, h3, h4, h5⟩ := ParseInsertStatement_ok_counts U tokens d hd
      exact Or.inr ⟨d, st, k, hd, h1, h2, h3, h4, h5⟩
    · exact Or.inl he

/-- Witness for `ParseInsertStatement_count_mismatch`: the statement of the test
`columns and values mismatch`, with three columns and two values. -/
theorem ParseInsertStatement_count_mismatch_witness :
    sqlTokens ("insert into users (id, username, email) values (1, ".toList ++
        '"' :: "john_doe".toList ++ '"' :: ");".toList) =
      insertTokens "users".toList ["id".toList, "username".toList, "email".toList]
        ["1".toList, '"' :: "john_doe".toList ++ ['"']] ∧
    Plain "users".toList ∧
    (["id".toList, "username".toList, "email".toList] : List (List Char)) ≠ [] ∧
    (["1".toList, '"' :: "john_doe".toList ++ ['"']] : List (List Char)) ≠ [] ∧
    (∀ c ∈ (["id".toList, "username".toList, "email".toList] : List (List Char)), Plain c) ∧
    (∀ v ∈ (["1".toList, '"' :: "john_doe".toList ++ ['"']] : List (List Char)), Plain v) ∧
    (["id".toList, "username".toList, "email".toList] : List (List Char)).length ≠
      (["1".toList, '"' :: "john_doe".toList ++ ['"']] : List (List Char)).length ∧
    (∃ e, ParseInsertStatement asciiTables
      (insertTokens "users".toList ["id".toList, "username".toList, "email".toList]
        ["1".toList, '"' :: "john_doe".toList ++ ['"']]) = Result.err e) ∧
    ParseInsertStatement asciiTables
      (insertTokens "users".toList ["id".toList, "username".toList, "email".toList]
        ["1".toList, '"' :: "john_doe".toList ++ ['"']]) = Result.err Err.countMismatch :=
  ⟨by decide, by decide, by decide, by decide, by decide, by decide, by decide,
    (ParseInsertStatement_count_mismatch asciiTables "users".toList
      ["id".toList, "username".toList, "email".toList]
      ["1".toList, '"' :: "john_doe".toList ++ ['"']]
      (by decide) (by decide) (by decide) (by decide) (by decide)).1 (by decide),
    by decide⟩

end parser
